import Mathlib

/-!
Verification of the NeonDrive procedural map generator.

This file gives a shallow embedding, in Lean 4, of the map-generation core of
the repository: the polygonal graph data model (types.ts), the terrain pipeline
(terrain.ts), the Voronoi graph builder (voronoi.ts), the settlement placer
(towns.ts) and the road network builder (roads.ts).  JavaScript numbers are
modelled as exact rationals; JavaScript object references are modelled as
positions (indices) into the owning arrays, so object identity becomes index
equality; `Map`/`Set` values are association lists/lists of indices with the
same insertion-order semantics.  Mutation is modelled by explicit state
passing.  `Math.sqrt` is modelled by a monotone rational approximation
`sqrtQ`; all claims under study only depend on the ordering of square roots,
which the approximation preserves.  The repository file `random.ts` (the
seeded PRNG and the simplex noise) is not part of the provided sources; it is
modelled from the spec, see `Random` and `SimplexNoise` below.
-/

namespace NeonDrive

/-!
Kernel-computable rational arithmetic.  The toolchain's `Rat.add`, `Rat.mul`,
`Rat.div`, `Rat.sub` and `Int.floor` do not reduce inside the kernel, which
would make every concrete witness evaluation impossible; `Rat.divInt`,
`mkRat`, `Rat.blt` and the integer primitives do reduce.  The embedding
therefore uses the following equivalents (proved equal to the standard
operations below), and writes rational literals with `mkRat`.
-/

/-- Kernel-computable rational addition. -/
def qadd (a b : ℚ) : ℚ :=
  Rat.divInt (a.num * (b.den : ℤ) + b.num * (a.den : ℤ)) ((a.den : ℤ) * (b.den : ℤ))

/-- Kernel-computable rational negation. -/
def qneg (a : ℚ) : ℚ :=
  Rat.divInt (-a.num) (a.den : ℤ)

/-- Kernel-computable rational subtraction. -/
def qsub (a b : ℚ) : ℚ :=
  qadd a (qneg b)

/-- Kernel-computable rational multiplication. -/
def qmul (a b : ℚ) : ℚ :=
  Rat.divInt (a.num * b.num) ((a.den : ℤ) * (b.den : ℤ))

/-- Kernel-computable rational division. -/
def qdiv (a b : ℚ) : ℚ :=
  Rat.divInt (a.num * (b.den : ℤ)) ((a.den : ℤ) * b.num)

/-- Kernel-computable rational floor. -/
def qfloor (q : ℚ) : ℤ :=
  Int.fdiv q.num (q.den : ℤ)

/-- Kernel-computable minimum. -/
def qmin (a b : ℚ) : ℚ :=
  if a ≤ b then a else b

/-- Kernel-computable maximum. -/
def qmax (a b : ℚ) : ℚ :=
  if a ≤ b then b else a

/-- Kernel-computable absolute value. -/
def qabs (a : ℚ) : ℚ :=
  if a < 0 then qneg a else a

/-- Kernel-computable list sum (the JS accumulation order). -/
def qsum (l : List ℚ) : ℚ :=
  l.foldl qadd 0

/-- 2D point with exact rational coordinates (models the `Point` interface of
types.ts: JS `number` becomes `ℚ`). -/
structure Point where
  x : ℚ
  y : ℚ
deriving Repr, DecidableEq

/-- The closed `Biome` union type of types.ts. -/
inductive Biome where
  | OCEAN | LAKE | BEACH | ICE | MARSH | SNOW | TUNDRA | BARE | SCORCHED
  | TAIGA | SHRUBLAND | TEMPERATE_DESERT | TEMPERATE_RAIN_FOREST
  | TEMPERATE_DECIDUOUS_FOREST | GRASSLAND | TROPICAL_RAIN_FOREST
  | TROPICAL_SEASONAL_FOREST | SUBTROPICAL_DESERT
deriving Repr, DecidableEq

/-- `Corner` of types.ts.  The mutual back-references of the source
(`touches`, `protrudes`, `adjacent`, `downslope`, `watershed`) become indices
into the arrays of the owning `Graph` (positions in `Graph.centers`,
`Graph.edges`, `Graph.corners` respectively), as the arena model of the spec
prescribes.  `river` counts river increments, hence `ℕ`. -/
structure Corner where
  index : ℕ
  point : Point
  ocean : Bool
  water : Bool
  coast : Bool
  border : Bool
  elevation : ℚ
  moisture : ℚ
  touches : List ℕ
  protrudes : List ℕ
  adjacent : List ℕ
  river : ℕ
  downslope : Option ℕ
  watershed : Option ℕ
  watershedSize : ℕ
deriving Repr, DecidableEq

/-- `Center` of types.ts, with the same index-for-reference convention. -/
structure Center where
  index : ℕ
  point : Point
  ocean : Bool
  water : Bool
  coast : Bool
  border : Bool
  elevation : ℚ
  moisture : ℚ
  biome : Biome
  neighbors : List ℕ
  borders : List ℕ
  corners : List ℕ
deriving Repr, DecidableEq

/-- `Edge` of types.ts.  `d0`/`d1` are center positions, `v0`/`v1` corner
positions; `null` becomes `none`. -/
structure Edge where
  index : ℕ
  d0 : Option ℕ
  d1 : Option ℕ
  v0 : Option ℕ
  v1 : Option ℕ
  midpoint : Option Point
  river : ℕ
deriving Repr, DecidableEq

/-- The `Graph` record of voronoi.ts. -/
structure Graph where
  centers : List Center
  corners : List Corner
  edges : List Edge
deriving Repr, DecidableEq

/-- `MapConfig` of types.ts. -/
structure MapConfig where
  width : ℚ
  height : ℚ
  numPoints : ℕ
  seed : ℤ
  islandFactor : ℚ
  lakeFactor : ℚ
  riverCount : ℕ
deriving Repr, DecidableEq

/-- `DEFAULT_CONFIG` of types.ts. -/
def DEFAULT_CONFIG : MapConfig :=
  { width := 800, height := 600, numPoints := 2000, seed := 12345
    islandFactor := mkRat 107 100, lakeFactor := mkRat 3 10, riverCount := 50 }

/-- `MapData` of generator.ts: the finished graph together with the echoed
configuration. -/
structure MapData where
  centers : List Center
  corners : List Corner
  edges : List Edge
  config : MapConfig
deriving Repr, DecidableEq

/-- Modelled from the spec: the repository module random.ts (class `Random`)
is imported by every generator stage but is not among the provided sources.
Spec 4.1 requires a seeded deterministic bit-mixing generator exposing a float
in [0,1), integer ranges and a shuffle, never reading system entropy; we model
it as a 32-bit linear congruential mixer whose state is threaded explicitly
(the source mutates the instance in place). -/
structure Random where
  state : ℕ
deriving Repr, DecidableEq

/-- Modelled from the spec: construction `new Random(seed)`. -/
def Random.ofSeed (seed : ℤ) : Random :=
  ⟨(seed % 4294967296).toNat⟩

/-- Modelled from the spec: `next()`, a float in [0,1). -/
def Random.next (r : Random) : ℚ × Random :=
  let s := (1664525 * r.state + 1013904223) % 4294967296
  (qdiv (s : ℚ) 4294967296, ⟨s⟩)

/-- Modelled from the spec: `float(lo, hi)`, a float in [lo, hi). -/
def Random.float (r : Random) (lo hi : ℚ) : ℚ × Random :=
  let (u, r') := r.next
  (qadd lo (qmul u (qsub hi lo)), r')

/-- Modelled from the spec: `int(lo, hi)`, an integer in [lo, hi] inclusive. -/
def Random.int (r : Random) (lo hi : ℤ) : ℤ × Random :=
  let (u, r') := r.next
  (lo + qfloor (qmul u (qadd (qsub (hi : ℚ) (lo : ℚ)) 1)), r')

/-- Swap two positions of a list; out of range leaves the list unchanged. -/
def listSwap {α : Type} (l : List α) (i j : ℕ) : List α :=
  match l[i]?, l[j]? with
  | some a, some b => (l.set i b).set j a
  | _, _ => l

/-- Fisher-Yates inner loop, from position `i` downwards. -/
def shuffleGo {α : Type} : ℕ → Random → List α → List α × Random
  | 0, r, l => (l, r)
  | i + 1, r, l =>
    shuffleGo i (r.int 0 (i + 1)).2 (listSwap l (i + 1) (r.int 0 (i + 1)).1.toNat)

/-- Modelled from the spec: `shuffle(seq)`, a deterministic in-place
Fisher-Yates shuffle driven by the generator. -/
def Random.shuffle {α : Type} (r : Random) (l : List α) : List α × Random :=
  match l.length with
  | 0 => (l, r)
  | n + 1 => shuffleGo n r l

/-- Modelled from the spec: class `SimplexNoise` of the missing random.ts.
Spec 4.1: coherent 2D noise seeded from the Rng, used only for coastline
irregularity; only seed-determinism matters for the claims, so the lattice
value is a plain integer hash of the floored coordinates. -/
structure SimplexNoise where
  seed : ℕ
deriving Repr, DecidableEq

/-- Modelled from the spec: `new SimplexNoise(random)` derives its tables from
the generator, advancing it. -/
def SimplexNoise.init (r : Random) : SimplexNoise × Random :=
  let (_, r') := r.next
  (⟨r'.state⟩, r')

/-- Modelled from the spec: one layer of 2D coherent noise with values in
[-1, 1). -/
def SimplexNoise.noise2 (n : SimplexNoise) (x y : ℚ) : ℚ :=
  let h := (n.seed + (1103515245 * x.floor + 12345 * y.floor).natAbs * 2654435761) % 2048
  qsub (qdiv (h : ℚ) 1024) 1

/-- Modelled from the spec: `fbm(x, y, octaves)` sums `octaves` layers at
doubling frequency and halving amplitude. -/
def SimplexNoise.fbm (n : SimplexNoise) (x y : ℚ) (octaves : ℕ) : ℚ :=
  (List.range octaves).foldl
    (fun acc i => qadd acc (qdiv (n.noise2 (qmul x ((2 ^ i : ℕ) : ℚ)) (qmul y ((2 ^ i : ℕ) : ℚ))) ((2 ^ (i + 1) : ℕ) : ℚ))) 0

/-- Kernel-computable integer square root by digit recursion on base-4
digits (the fuel only bounds the recursion depth; `n + 1` is always
enough). -/
def isqrtAux : ℕ → ℕ → ℕ
  | 0, _ => 0
  | fuel + 1, n =>
    if n = 0 then 0
    else
      let s := isqrtAux fuel (n / 4)
      if (2 * s + 1) * (2 * s + 1) ≤ n then 2 * s + 1 else 2 * s

/-- Kernel-computable integer square root (floor). -/
def isqrt (n : ℕ) : ℕ :=
  isqrtAux (n + 1) n

/-- Monotone rational model of `Math.sqrt` (fixed-point approximation with
6 decimal digits).  Every claim under study depends only on the ordering of
square roots, which any monotone model preserves. -/
def sqrtQ (q : ℚ) : ℚ :=
  qdiv ((isqrt (qfloor (qmul q 1000000000000)).toNat : ℕ) : ℚ) 1000000

/-- JS `Array.sort` with a comparator: a stable ascending sort (the
extensional behavior of any stable sort is unique, so the structural
insertion sort models the engine sort exactly). -/
def jsSortBy {α : Type} (le : α → α → Bool) (l : List α) : List α :=
  @List.insertionSort α (fun a b => le a b = true) (fun a b => instDecidableEqBool _ _) l

/-- Squared Euclidean distance between two points. -/
def distSq (a b : Point) : ℚ :=
  qadd (qmul (qsub a.x b.x) (qsub a.x b.x)) (qmul (qsub a.y b.y) (qsub a.y b.y))

/-- `euclidean(a, b)` of roads.ts, via the monotone sqrt model. -/
def euclidean (a b : Point) : ℚ :=
  sqrtQ (distSq a b)

/-- `Math.round` of JS: round half toward positive infinity. -/
def jsRound (q : ℚ) : ℤ :=
  qfloor (qadd q (mkRat 1 2))

/-- The pure biome lookup `getBiome(center)` of terrain.ts. -/
def getBiome (center : Center) : Biome :=
  if center.ocean then Biome.OCEAN
  else if center.water then
    (if center.elevation < mkRat 1 10 then Biome.MARSH else Biome.LAKE)
  else if center.coast then Biome.BEACH
  else
    let e := center.elevation
    let m := center.moisture
    if e > mkRat 8 10 then
      (if m > mkRat 1 2 then Biome.SNOW
       else if m > mkRat 33 100 then Biome.TUNDRA
       else if m > mkRat 16 100 then Biome.BARE
       else Biome.SCORCHED)
    else if e > mkRat 6 10 then
      (if m > mkRat 66 100 then Biome.TAIGA
       else if m > mkRat 33 100 then Biome.SHRUBLAND
       else Biome.TEMPERATE_DESERT)
    else if e > mkRat 3 10 then
      (if m > mkRat 83 100 then Biome.TEMPERATE_RAIN_FOREST
       else if m > mkRat 1 2 then Biome.TEMPERATE_DECIDUOUS_FOREST
       else if m > mkRat 16 100 then Biome.GRASSLAND
       else Biome.TEMPERATE_DESERT)
    else
      (if m > mkRat 66 100 then Biome.TROPICAL_RAIN_FOREST
       else if m > mkRat 33 100 then Biome.TROPICAL_SEASONAL_FOREST
       else if m > mkRat 16 100 then Biome.GRASSLAND
       else Biome.SUBTROPICAL_DESERT)

/-- `assignBiomes(graph)` of terrain.ts. -/
def assignBiomes (g : Graph) : Graph :=
  { g with centers := g.centers.map (fun c => { c with biome := getBiome c }) }

/-- Placeholder center used for list indexing; the source never indexes out of
range, all in-range accesses are proved or evaluated concretely. -/
def cdefault : Center :=
  { index := 0, point := ⟨0, 0⟩, ocean := false, water := false, coast := false
    border := false, elevation := 0, moisture := 0, biome := Biome.OCEAN
    neighbors := [], borders := [], corners := [] }

/-- Center of a map at a given position of the `centers` array. -/
def cAt (md : MapData) (p : ℕ) : Center :=
  md.centers.getD p cdefault

/-- Corner of a map at a given position of the `corners` array. -/
def crAt (md : MapData) (p : ℕ) : Corner :=
  md.corners.getD p
    { index := 0, point := ⟨0, 0⟩, ocean := false, water := false, coast := false
      border := false, elevation := 0, moisture := 0, touches := [], protrudes := []
      adjacent := [], river := 0, downslope := none, watershed := none, watershedSize := 0 }

/-- Edge of a map at a given position of the `edges` array. -/
def edAt (md : MapData) (p : ℕ) : Edge :=
  md.edges.getD p
    { index := 0, d0 := none, d1 := none, v0 := none, v1 := none, midpoint := none, river := 0 }

/-! ### Terrain pipeline (terrain.ts) -/

/-- Placeholder corner used for list indexing (the source never indexes out
of range). -/
def cornerDefault : Corner :=
  { index := 0, point := ⟨0, 0⟩, ocean := false, water := false, coast := false
    border := false, elevation := 0, moisture := 0, touches := [], protrudes := []
    adjacent := [], river := 0, downslope := none, watershed := none, watershedSize := 0 }

/-- Placeholder edge used for list indexing. -/
def edgeDefault : Edge :=
  { index := 0, d0 := none, d1 := none, v0 := none, v1 := none, midpoint := none, river := 0 }

/-- Corner of a graph at a position of the `corners` array. -/
def cAtG (g : Graph) (i : ℕ) : Corner :=
  g.corners.getD i cornerDefault

/-- Edge of a graph at a position of the `edges` array. -/
def eAtG (g : Graph) (i : ℕ) : Edge :=
  g.edges.getD i edgeDefault

/-- The ocean flood fill of `assignWater`: pop a corner, mark every adjacent
water corner that is not yet ocean and enqueue it.  Marking is monotone, so
`2n + 2` fuel strictly exceeds the possible number of queue pops. -/
def floodLoop : ℕ → List Corner → List ℕ → List Corner
  | 0, cs, _ => cs
  | _ + 1, cs, [] => cs
  | fuel + 1, cs, u :: rest =>
    let res := (cs.getD u cornerDefault).adjacent.foldl
      (fun (acc : List Corner × List ℕ) a =>
        let ac := acc.1.getD a cornerDefault
        if ac.water && !ac.ocean then
          (acc.1.set a { ac with ocean := true }, acc.2 ++ [a])
        else acc)
      (cs, rest)
    floodLoop fuel res.1 res.2

/-- `assignWater(graph, config, random)` of terrain.ts: island-shape water
flags on corners, border-seeded ocean flood fill, corner-majority flags on
centers, coast detection. -/
def assignWater (g : Graph) (cfg : MapConfig) (r : Random) : Graph × Random :=
  let (noise, r1) := SimplexNoise.init r
  let cx := qdiv cfg.width 2
  let cy := qdiv cfg.height 2
  let corners1 := g.corners.map (fun c =>
    let dx := qdiv (qsub c.point.x cx) cx
    let dy := qdiv (qsub c.point.y cy) cy
    let d := sqrtQ (qadd (qmul dx dx) (qmul dy dy))
    let noiseVal := noise.fbm (qmul c.point.x (mkRat 1 100)) (qmul c.point.y (mkRat 1 100)) 4
    let islandShape := qadd (qsub (qmul d cfg.islandFactor) (mkRat 3 10)) (qmul noiseVal (mkRat 4 10))
    { c with water := decide (islandShape > mkRat 3 10), ocean := c.border })
  let corners2 := corners1.map (fun c =>
    if c.border then { c with ocean := true, water := true } else c)
  let queue0 := (List.range corners2.length).filter
    (fun i => (corners2.getD i cornerDefault).border)
  let corners3 := floodLoop (2 * corners2.length + 2) corners2 queue0
  let g1 : Graph := { g with corners := corners3 }
  let centers1 := g1.centers.map (fun c =>
    let numWater := (c.corners.filter (fun ci => (cAtG g1 ci).water)).length
    let numOcean := (c.corners.filter (fun ci => (cAtG g1 ci).ocean)).length
    let c1 := { c with
      water := decide ((numWater : ℚ) ≥ qmul (c.corners.length : ℚ) cfg.lakeFactor),
      ocean := decide ((numOcean : ℚ) ≥ qmul (c.corners.length : ℚ) (mkRat 1 2)) }
    if c.corners.any (fun ci => (cAtG g1 ci).border) then
      { c1 with border := true, ocean := true, water := true }
    else c1)
  let centers2 := centers1.map (fun c =>
    if !c.water && c.neighbors.any (fun ni => (centers1.getD ni cdefault).ocean) then
      { c with coast := true }
    else c)
  let corners4 := corners3.map (fun c =>
    let landCount := (c.touches.filter (fun ti => !(centers2.getD ti cdefault).water)).length
    let oceanCount := (c.touches.filter (fun ti => (centers2.getD ti cdefault).ocean)).length
    { c with coast := landCount > 0 && oceanCount > 0 })
  ({ centers := centers2, corners := corners4, edges := g1.edges }, r1)

/-- Strict `<` on BFS hop counts, `none` standing for the `Infinity`
initialization of `assignElevation`. -/
def oltN (a b : Option ℕ) : Bool :=
  match a, b with
  | some x, some y => decide (x < y)
  | some _, none => true
  | none, _ => false

/-- Non-strict counterpart of `oltN`, the sort key order of the
rank-normalization (`Infinity` ties compare equal, as the JS comparator
treats a NaN difference). -/
def oleN (a b : Option ℕ) : Bool :=
  match a, b with
  | some x, some y => decide (x ≤ y)
  | _, none => true
  | none, some _ => false

/-- Working state of the elevation BFS of `assignElevation`.  The source
stores raw elevations `0.01 * hops` (exact multiples of 1/100 in the float
range used) and `Infinity`; the working value `some k` models the raw
elevation `k/100` and `none` models `Infinity`.  All comparisons performed by
the loop are preserved exactly under this correspondence. -/
structure ElevState where
  vals : List (Option ℕ)
  queue : List ℕ
deriving Repr, DecidableEq

/-- Working value of a corner position (out of range reads as `some 0`,
which no relaxation can improve, matching that the source never indexes out
of range). -/
def vAt (vals : List (Option ℕ)) (i : ℕ) : Option ℕ :=
  vals.getD i (some 0)

/-- The relaxation of all neighbors of one popped corner: a non-water
neighbor whose value is improved is updated and enqueued. -/
def elevRelax (g : Graph) (new : Option ℕ) :
    List ℕ → List (Option ℕ) → List ℕ → List (Option ℕ) × List ℕ
  | [], vals, queue => (vals, queue)
  | a :: rest, vals, queue =>
    if !(cAtG g a).water && oltN new (vAt vals a) then
      elevRelax g new rest (vals.set a new) (queue ++ [a])
    else
      elevRelax g new rest vals queue

/-- One pop of the elevation BFS queue. -/
def elevStep (g : Graph) (st : ElevState) : ElevState :=
  match st.queue with
  | [] => st
  | u :: rest =>
    let new := (vAt st.vals u).map (· + 1)
    let res := elevRelax g new (cAtG g u).adjacent st.vals rest
    ⟨res.1, res.2⟩

/-- Iterated elevation BFS steps. -/
def elevIter (g : Graph) : ℕ → ElevState → ElevState
  | 0, st => st
  | k + 1, st => elevIter g k (elevStep g st)

/-- Count of `Infinity` working values: first component of the termination
measure of the BFS loop. -/
def m1 (vals : List (Option ℕ)) : ℕ :=
  (vals.filter (fun v => v.isNone)).length

/-- Sum of the finite working values: second component of the termination
measure. -/
def m2 (vals : List (Option ℕ)) : ℕ :=
  (vals.map (fun v => v.getD 0)).sum

/-- Strict decrease of the two-component value measure (fewer `Infinity`
slots, or equally many and a smaller finite sum). -/
def ValsDec (v' v : List (Option ℕ)) : Prop :=
  m1 v' < m1 v ∨ (m1 v' = m1 v ∧ m2 v' < m2 v)

/-- Strict lexicographic decrease of the full BFS measure. -/
def ElevDec (st' st : ElevState) : Prop :=
  m1 st'.vals < m1 st.vals ∨
  (m1 st'.vals = m1 st.vals ∧ m2 st'.vals < m2 st.vals) ∨
  (st'.vals = st.vals ∧ st'.queue.length < st.queue.length)

/-- `ValsDec` composes. -/
def ValsDec.trans {a b c : List (Option ℕ)} (h1 : ValsDec a b) (h2 : ValsDec b c) :
    ValsDec a c := by
  rcases h1 with h1 | ⟨h1, h1'⟩ <;> rcases h2 with h2 | ⟨h2, h2'⟩
  · exact Or.inl (h1.trans h2)
  · exact Or.inl (h2 ▸ h1)
  · exact Or.inl (h1 ▸ h2)
  · exact Or.inr ⟨h1.trans h2, h1'.trans h2'⟩

/-- `m1` of a cons. -/
def m1_cons (x : Option ℕ) (t : List (Option ℕ)) :
    m1 (x :: t) = (if x.isNone then 1 else 0) + m1 t := by
  cases x
  · simp [m1, List.filter_cons]
    omega
  · simp [m1, List.filter_cons]

/-- `m2` of a cons. -/
def m2_cons (x : Option ℕ) (t : List (Option ℕ)) :
    m2 (x :: t) = x.getD 0 + m2 t := by
  simp [m2]

/-- Setting an `Infinity` slot to a finite value lowers the `Infinity`
count. -/
def m1_set_of_none {l : List (Option ℕ)} : ∀ {a k : ℕ}, l[a]? = some none →
    m1 (l.set a (some k)) < m1 l := by
  induction l with
  | nil => intro a k h; simp at h
  | cons x xs ih =>
    intro a k h
    cases a with
    | zero =>
      simp only [List.getElem?_cons_zero, Option.some.injEq] at h
      subst h
      simp [m1, List.filter_cons]
    | succ n =>
      simp only [List.getElem?_cons_succ] at h
      have hh := @ih n k h
      rw [List.set_cons_succ, m1_cons, m1_cons]
      omega

/-- Overwriting a finite slot keeps the `Infinity` count. -/
def m1_set_of_some {l : List (Option ℕ)} : ∀ {a m k : ℕ}, l[a]? = some (some m) →
    m1 (l.set a (some k)) = m1 l := by
  induction l with
  | nil => intro a m k h; simp at h
  | cons x xs ih =>
    intro a m k h
    cases a with
    | zero =>
      simp only [List.getElem?_cons_zero, Option.some.injEq] at h
      subst h
      simp [m1, List.filter_cons]
    | succ n =>
      simp only [List.getElem?_cons_succ] at h
      have hh := @ih n m k h
      rw [List.set_cons_succ, m1_cons, m1_cons]
      omega

/-- Lowering a finite slot lowers the finite sum. -/
def m2_set_lt {l : List (Option ℕ)} : ∀ {a m k : ℕ}, l[a]? = some (some m) → k < m →
    m2 (l.set a (some k)) < m2 l := by
  induction l with
  | nil => intro a m k h; simp at h
  | cons x xs ih =>
    intro a m k h hk
    cases a with
    | zero =>
      simp only [List.getElem?_cons_zero, Option.some.injEq] at h
      subst h
      rw [List.set_cons_zero, m2_cons, m2_cons]
      simp only [Option.getD_some]
      omega
    | succ n =>
      simp only [List.getElem?_cons_succ] at h
      have hh := @ih n m k h hk
      rw [List.set_cons_succ, m2_cons, m2_cons]
      omega

/-- An accepted relaxation strictly decreases the value measure. -/
def valsDec_of_update {vals : List (Option ℕ)} {a k : ℕ}
    (h : oltN (some k) (vAt vals a) = true) :
    ValsDec (vals.set a (some k)) vals := by
  rcases ha : vals[a]? with _ | v
  · exfalso
    have hva : vAt vals a = some 0 := by
      simp [vAt, List.getD_eq_getElem?_getD, ha]
    rw [hva] at h
    simp [oltN] at h
  · have hva : vAt vals a = v := by
      simp [vAt, List.getD_eq_getElem?_getD, ha]
    rcases v with _ | m
    · exact Or.inl (m1_set_of_none ha)
    · rw [hva] at h
      simp only [oltN, decide_eq_true_eq] at h
      exact Or.inr ⟨m1_set_of_some ha, m2_set_lt ha h⟩

/-- The relaxation loop leaves the state untouched or strictly decreases the
value measure. -/
def elevRelax_dec (g : Graph) (new : Option ℕ) :
    ∀ (adj : List ℕ) (vals : List (Option ℕ)) (queue : List ℕ),
      elevRelax g new adj vals queue = (vals, queue) ∨
      ValsDec (elevRelax g new adj vals queue).1 vals := by
  intro adj
  induction adj with
  | nil => intro vals queue; exact Or.inl rfl
  | cons a rest ih =>
    intro vals queue
    by_cases hg : (!(cAtG g a).water && oltN new (vAt vals a)) = true
    · have hnew : ∃ k, new = some k := by
        rcases new with _ | k
        · rw [Bool.and_eq_true] at hg
          simp [oltN] at hg
        · exact ⟨k, rfl⟩
      obtain ⟨k, rfl⟩ := hnew
      have holt : oltN (some k) (vAt vals a) = true :=
        ((Bool.and_eq_true _ _).mp hg).2
      have hstep : elevRelax g (some k) (a :: rest) vals queue =
          elevRelax g (some k) rest (vals.set a (some k)) (queue ++ [a]) := by
        rw [elevRelax, if_pos hg]
      have hupd := valsDec_of_update holt
      rcases ih (vals.set a (some k)) (queue ++ [a]) with heq | hdec
      · rw [hstep, heq]
        exact Or.inr hupd
      · rw [hstep]
        exact Or.inr (ValsDec.trans hdec hupd)
    · have hstep : elevRelax g new (a :: rest) vals queue =
          elevRelax g new rest vals queue := by
        rw [elevRelax, if_neg hg]
      rw [hstep]
      exact ih vals queue

/-- A step on a nonempty queue strictly decreases the BFS measure. -/
def elevStep_dec (g : Graph) (st : ElevState) (h : st.queue ≠ []) :
    ElevDec (elevStep g st) st := by
  rcases hq : st.queue with _ | ⟨u, rest⟩
  · exact absurd hq h
  · have hstep : elevStep g st =
        ⟨(elevRelax g ((vAt st.vals u).map (· + 1)) (cAtG g u).adjacent st.vals rest).1,
         (elevRelax g ((vAt st.vals u).map (· + 1)) (cAtG g u).adjacent st.vals rest).2⟩ := by
      simp [elevStep, hq]
    rcases elevRelax_dec g ((vAt st.vals u).map (· + 1)) (cAtG g u).adjacent st.vals rest
      with heq | hdec
    · refine Or.inr (Or.inr ?_)
      rw [hstep, heq]
      simp [hq]
    · rw [hstep]
      rcases hdec with h1 | ⟨h1, h2⟩
      · exact Or.inl h1
      · exact Or.inr (Or.inl ⟨h1, h2⟩)

/-- The elevation BFS queue always empties: the measure
(`Infinity` count, finite sum, queue length) strictly decreases at every
pop. -/
def elevTerm (g : Graph) (st : ElevState) : ∃ k, (elevIter g k st).queue = [] :=
  if h : st.queue = [] then ⟨0, by simpa [elevIter] using h⟩
  else by
    have hdec := elevStep_dec g st h
    obtain ⟨k, hk⟩ := elevTerm g (elevStep g st)
    exact ⟨k + 1, by simpa [elevIter] using hk⟩
termination_by (m1 st.vals, m2 st.vals, st.queue.length)
decreasing_by
  rcases hdec with h1 | ⟨h1, h2⟩ | ⟨h1, h2⟩
  · exact Prod.Lex.left _ _ h1
  · rw [h1]
    exact Prod.Lex.right _ (Prod.Lex.left _ _ h2)
  · rw [h1]
    exact Prod.Lex.right _ (Prod.Lex.right _ h2)

/-- The elevation BFS run to completion (the source loops while the queue is
nonempty; `Nat.find` executes exactly that loop). -/
def elevRun (g : Graph) (st : ElevState) : ElevState :=
  elevIter g (Nat.find (elevTerm g st)) st

/-- Initial BFS state of `assignElevation`: ocean and coast corners form the
zero frontier, everything else starts at `Infinity`. -/
def elevInitState (g : Graph) : ElevState :=
  { vals := g.corners.map (fun c => if c.ocean then some 0 else if c.coast then some 0 else none)
    queue := (List.range g.corners.length).filter
      (fun i => (cAtG g i).ocean || (cAtG g i).coast) }

/-- The `landCorners.length - 1 || 1` denominator of the two
rank-normalizations. -/
def elevDenom (len : ℕ) : ℚ :=
  if len - 1 = 0 then 1 else ((len - 1 : ℕ) : ℚ)

/-- `assignElevation(graph, config)` of terrain.ts: BFS from the ocean/coast
frontier in 0.01 steps (hop counts here, see `ElevState`), then
rank-normalize the non-ocean corners to `sqrt(rank/(count-1))`, reset ocean
corners to 0, and average each center over its corners. -/
def assignElevation (g : Graph) (_cfg : MapConfig) : Graph :=
  let n := g.corners.length
  let fin := elevRun g (elevInitState g)
  let landIdx := (List.range n).filter (fun i => !(cAtG g i).ocean)
  let sortedLand := jsSortBy (fun a b => oleN (vAt fin.vals a) (vAt fin.vals b)) landIdx
  let denom := elevDenom sortedLand.length
  let corners1 := (List.range n).map (fun p =>
    let c := cAtG g p
    if c.ocean then { c with elevation := 0 }
    else { c with elevation := sqrtQ (qdiv (sortedLand.indexOf p : ℚ) denom) })
  let g1 : Graph := { g with corners := corners1 }
  { g1 with centers := g1.centers.map (fun c =>
      let s := qsum (c.corners.map (fun ci => (cAtG g1 ci).elevation))
      { c with elevation := qdiv s (if c.corners.length = 0 then 1 else (c.corners.length : ℚ)) }) }


/-- The ocean/coast frontier of the elevation BFS of `assignElevation`:
exactly the corners whose working value starts at `some 0` and that seed the
queue in `elevInitState`. -/
def isFrontier (g : Graph) (i : ℕ) : Bool :=
  (cAtG g i).ocean || (cAtG g i).coast

/-- Hop-capped reachability from the BFS frontier: `connectsB g k i` holds
when corner `i` is reachable from the ocean/coast frontier by a chain of at
most `k` adjacency hops whose relaxed (non-frontier) members are all
non-water — exactly the chains along which the BFS of `assignElevation`
propagates, so the least such `k` is the BFS hop distance of corner `i` from
the frontier. -/
def connectsB (g : Graph) : ℕ → ℕ → Bool
  | 0, i => isFrontier g i
  | k + 1, i =>
    isFrontier g i ||
      (List.range g.corners.length).any (fun u =>
        connectsB g k u && (cAtG g u).adjacent.contains i && !(cAtG g i).water)

/-- Invariant of the elevation BFS carried through `elevIter`: the working
values have the corner count as length, queued corners are in range, every
finite working value is achievable (`connectsB`) in that many hops, and any
still-relaxable adjacent pair has its source corner in the queue. -/
def ElevInv (g : Graph) (st : ElevState) : Prop :=
  st.vals.length = g.corners.length ∧
  (∀ u ∈ st.queue, u < g.corners.length) ∧
  (∀ i k, i < g.corners.length → vAt st.vals i = some k → connectsB g k i = true) ∧
  (∀ u a, u < g.corners.length → a ∈ (cAtG g u).adjacent →
    (cAtG g a).water = false →
    oltN ((vAt st.vals u).map (· + 1)) (vAt st.vals a) = true → u ∈ st.queue)

/-- The sorted list of non-ocean corner positions built by
`assignElevation` (sort key: final raw BFS value). -/
def elevSorted (g : Graph) : List ℕ :=
  jsSortBy (fun a b => oleN (vAt (elevRun g (elevInitState g)).vals a)
      (vAt (elevRun g (elevInitState g)).vals b))
    ((List.range g.corners.length).filter (fun i => !(cAtG g i).ocean))

/-- Two-corner fixture for the elevation-monotonicity witness: corner 0 is a
coast corner (BFS hop distance 0), corner 1 a land corner one hop away. -/
def gE6 : Graph :=
  { centers := []
    corners :=
      [ { index := 0, point := ⟨0, 0⟩, ocean := false, water := false, coast := true
          border := false, elevation := 0, moisture := 0, touches := [], protrudes := []
          adjacent := [1], river := 0, downslope := none, watershed := none, watershedSize := 0 }
      , { index := 1, point := ⟨1, 0⟩, ocean := false, water := false, coast := false
          border := false, elevation := 0, moisture := 0, touches := [], protrudes := []
          adjacent := [0], river := 0, downslope := none, watershed := none, watershedSize := 0 } ]
    edges := [] }

/-- `calculateDownslopes(graph)` of terrain.ts: each corner points to its
strictly lowest adjacent corner (`none` for a local minimum; the source
tracks the running lowest object, starting from the corner itself). -/
def calculateDownslopes (g : Graph) : Graph :=
  { g with corners := g.corners.map (fun c =>
      let best := c.adjacent.foldl
        (fun (acc : Option ℕ × ℚ) a =>
          if (cAtG g a).elevation < acc.2 then (some a, (cAtG g a).elevation) else acc)
        (none, c.elevation)
      { c with downslope := best.1 }) }

/-- Overwrite the river counter of one corner. -/
def setCornerRiver (g : Graph) (i v : ℕ) : Graph :=
  { g with corners := g.corners.set i { cAtG g i with river := v } }

/-- Overwrite the river counter of one edge. -/
def setEdgeRiver (g : Graph) (i v : ℕ) : Graph :=
  { g with edges := g.edges.set i { eAtG g i with river := v } }

/-- The per-edge river marking of `createRivers`: bump the river counter of
an edge joining the current corner to its downslope. -/
def riverEdgeMark (cu ds : ℕ) (gg : Graph) (ei : ℕ) : Graph :=
  if ((eAtG gg ei).v0 == some cu && (eAtG gg ei).v1 == some ds) ||
     ((eAtG gg ei).v1 == some cu && (eAtG gg ei).v0 == some ds) then
    setEdgeRiver gg ei ((eAtG gg ei).river + 1)
  else gg

/-- The downhill trace of one river of `createRivers`: increment the corner
counter, mark the edge toward the downslope (`riverEdgeMark`), move on; stop
at the ocean, when joining an existing river (after one extra increment), or
at a local minimum.  The chain strictly descends in elevation, so
`corners.length + 1` fuel always suffices on graphs produced by
`calculateDownslopes`. -/
def riverTrace (cfg : MapConfig) : ℕ → Graph → Option ℕ → Graph
  | 0, g, _ => g
  | _ + 1, g, none => g
  | fuel + 1, g, some cu =>
    let c := cAtG g cu
    if c.ocean then g
    else if c.river > 0 then setCornerRiver g cu (c.river + 1)
    else
      let g1 := setCornerRiver g cu (c.river + 1)
      let g2 :=
        match c.downslope with
        | none => g1
        | some ds => c.protrudes.foldl (riverEdgeMark cu ds) g1
      riverTrace cfg fuel g2 c.downslope

/-- The source loop of `createRivers`: trace from each shuffled candidate
until `riverCount` candidates have been processed. -/
def riversGo (cfg : MapConfig) : List ℕ → ℕ → Graph → Graph
  | [], _, g => g
  | c :: cs, cnt, g =>
    if cfg.riverCount ≤ cnt then g
    else riversGo cfg cs (cnt + 1) (riverTrace cfg (g.corners.length + 1) g (some c))

/-- `createRivers(graph, config, random)` of terrain.ts. -/
def createRivers (g : Graph) (cfg : MapConfig) (r : Random) : Graph × Random :=
  let g1 := calculateDownslopes g
  let candidates := (List.range g1.corners.length).filter (fun i =>
    let c := cAtG g1 i
    !c.ocean && !c.coast && decide (c.elevation > mkRat 3 10))
  let (shuffled, r') := r.shuffle candidates
  (riversGo cfg shuffled 0 g1, r')

/-- Follow the downslope chain from a corner: stop at an ocean corner or a
corner with no downslope. -/
def dsChain (g : Graph) : ℕ → ℕ → ℕ
  | 0, c => c
  | fuel + 1, c =>
    if (cAtG g c).ocean then c
    else
      match (cAtG g c).downslope with
      | none => c
      | some d => dsChain g fuel d

/-- The number of corners strictly below a corner: the strictly decreasing
measure of the downslope chain. -/
def dsMeasure (g : Graph) (c : ℕ) : ℕ :=
  ((Finset.range g.corners.length).filter
    (fun j => (cAtG g j).elevation < (cAtG g c).elevation)).card

/-- The river-edge invariant of `createRivers`: every edge carrying river
flow joins two in-range corners, one the downslope of the other. -/
def RiverEdgesOK (g : Graph) : Prop :=
  ∀ ei, 0 < (eAtG g ei).river →
    ∃ a b, (eAtG g ei).v0 = some a ∧ (eAtG g ei).v1 = some b ∧
      a < g.corners.length ∧ b < g.corners.length ∧
      ((cAtG g a).downslope = some b ∨ (cAtG g b).downslope = some a)

/-- The corner data the river tracer never touches: corner count and each
corner's downslope, elevation and ocean flag. -/
def TraceFrame (g g' : Graph) : Prop :=
  g'.corners.length = g.corners.length ∧
  ∀ j, (cAtG g' j).downslope = (cAtG g j).downslope ∧
       (cAtG g' j).elevation = (cAtG g j).elevation ∧
       (cAtG g' j).ocean = (cAtG g j).ocean

/-- Every downslope target is an in-range corner. -/
def DownslopeInRange (g : Graph) : Prop :=
  ∀ j d, (cAtG g j).downslope = some d → d < g.corners.length

/-- Every downslope hop goes to an in-range corner of strictly smaller
elevation (the shape `calculateDownslopes` establishes). -/
def SlopeDec (g : Graph) : Prop :=
  ∀ j d, (cAtG g j).downslope = some d →
    d < g.corners.length ∧ (cAtG g d).elevation < (cAtG g j).elevation

/-- Working state of the moisture spread of `assignMoisture`. -/
structure MoistState where
  corners : List Corner
  queue : List ℕ
deriving Repr, DecidableEq

/-- One pop of the moisture queue: propagate `moisture * 0.9` to any
adjacent corner holding a smaller value and re-enqueue it (the source
deliberately allows re-visits, spec design note). -/
def moistStep (st : MoistState) : MoistState :=
  match st.queue with
  | [] => st
  | u :: rest =>
    let res := (st.corners.getD u cornerDefault).adjacent.foldl
      (fun (acc : List Corner × List ℕ) a =>
        let cu := acc.1.getD u cornerDefault
        let ac := acc.1.getD a cornerDefault
        let new := qmul cu.moisture (mkRat 9 10)
        if decide (new > ac.moisture) then
          (acc.1.set a { ac with moisture := new }, acc.2 ++ [a])
        else acc)
      (st.corners, rest)
    ⟨res.1, res.2⟩

/-- The fueled moisture flood fill.  Termination of the source loop rests on
the discreteness of the decayed seed values; no claim under study depends on
the final moisture values, so the fuel is generous and immaterial. -/
def moistLoop : ℕ → MoistState → MoistState
  | 0, st => st
  | fuel + 1, st =>
    match st.queue with
    | [] => st
    | _ :: _ => moistLoop fuel (moistStep st)

/-- `assignMoisture(graph)` of terrain.ts: seed water corners at 1 and river
corners at `min(3, flow * 0.2)`, spread with 0.9 decay keeping maxima,
rank-normalize the non-ocean corners to `rank/(count-1)`, and average each
center over its corners. -/
def assignMoisture (g : Graph) : Graph :=
  let n := g.corners.length
  let corners0 := g.corners.map (fun c =>
    if c.water || c.river > 0 then
      { c with moisture := if c.river > 0 then qmin 3 (qmul (c.river : ℚ) (mkRat 2 10)) else 1 }
    else { c with moisture := 0 })
  let queue0 := (List.range n).filter (fun i =>
    (g.corners.getD i cornerDefault).water || (g.corners.getD i cornerDefault).river > 0)
  let fin := moistLoop ((n + 2) * (n + 2)) ⟨corners0, queue0⟩
  let landIdx := (List.range n).filter (fun i => !(fin.corners.getD i cornerDefault).ocean)
  let sortedLand := jsSortBy (fun a b =>
    decide ((fin.corners.getD a cornerDefault).moisture ≤
      (fin.corners.getD b cornerDefault).moisture)) landIdx
  let denom := elevDenom sortedLand.length
  let corners1 := (List.range n).map (fun p =>
    let c := fin.corners.getD p cornerDefault
    if !c.ocean then { c with moisture := qdiv (sortedLand.indexOf p : ℚ) denom } else c)
  let g1 : Graph := { g with corners := corners1 }
  { g1 with centers := g1.centers.map (fun c =>
      let s := qsum (c.corners.map (fun ci => (cAtG g1 ci).moisture))
      { c with moisture := qdiv s (if c.corners.length = 0 then 1 else (c.corners.length : ℚ)) }) }

/-! ### Graph builder (voronoi.ts) -/

/-- The result shape of the external Delaunator triangulation at the
interface boundary used by voronoi.ts: the flat triangle-vertex list and the
half-edge opposite table (-1 for hull edges).  Delaunator is an external
library dependency, not repository code, and is a pure function of the input
points; the graph builder is therefore parametrized over it. -/
structure Triangulation where
  triangles : List ℕ
  halfedges : List ℤ
deriving Repr, DecidableEq

/-- `getCircumcenter(a, b, c)` of voronoi.ts (centroid fallback for nearly
degenerate triangles). -/
def getCircumcenter (a b c : Point) : Point :=
  let sqa := qadd (qmul a.x a.x) (qmul a.y a.y)
  let sqb := qadd (qmul b.x b.x) (qmul b.y b.y)
  let sqc := qadd (qmul c.x c.x) (qmul c.y c.y)
  let d := qmul 2 (qadd (qadd (qmul a.x (qsub b.y c.y)) (qmul b.x (qsub c.y a.y)))
    (qmul c.x (qsub a.y b.y)))
  if qabs d < mkRat 1 10000000000 then
    ⟨qdiv (qadd (qadd a.x b.x) c.x) 3, qdiv (qadd (qadd a.y b.y) c.y) 3⟩
  else
    let ux := qdiv (qadd (qadd (qmul sqa (qsub b.y c.y)) (qmul sqb (qsub c.y a.y)))
      (qmul sqc (qsub a.y b.y))) d
    let uy := qdiv (qadd (qadd (qmul sqa (qsub c.x b.x)) (qmul sqb (qsub a.x c.x)))
      (qmul sqc (qsub b.x a.x))) d
    ⟨ux, uy⟩

/-- The triangle-vertex triples of the flat `triangles` array. -/
def triTriples : List ℕ → List (ℕ × ℕ × ℕ)
  | a :: b :: c :: rest => (a, b, c) :: triTriples rest
  | _ => []

/-- Default origin point for indexed access. -/
def pdefault : Point := ⟨0, 0⟩

/-- `calculateCentroids(points, delaunay, config)` of voronoi.ts: average the
in-bounds circumcenters of the triangles around each input point, clamped to
the margin. -/
def calculateCentroids (points : List Point) (tri : Triangulation) (cfg : MapConfig) :
    List (Option Point) :=
  let n := points.length
  let res := (triTriples tri.triangles).foldl
    (fun (acc : List (ℚ × ℚ) × List ℕ) t =>
      let cc := getCircumcenter (points.getD t.1 pdefault) (points.getD t.2.1 pdefault)
        (points.getD t.2.2 pdefault)
      if 0 ≤ cc.x ∧ cc.x ≤ cfg.width ∧ 0 ≤ cc.y ∧ cc.y ≤ cfg.height then
        [t.1, t.2.1, t.2.2].foldl
          (fun acc2 p =>
            (acc2.1.set p (qadd (acc2.1.getD p (0, 0)).1 cc.x, qadd (acc2.1.getD p (0, 0)).2 cc.y),
             acc2.2.set p (acc2.2.getD p 0 + 1)))
          acc
      else acc)
    (List.replicate n ((0 : ℚ), (0 : ℚ)), List.replicate n 0)
  (List.range n).map (fun i =>
    let cnt := res.2.getD i 0
    if cnt > 0 then
      some ⟨qmax 10 (qmin (qsub cfg.width 10) (qdiv (res.1.getD i (0, 0)).1 (cnt : ℚ))),
            qmax 10 (qmin (qsub cfg.height 10) (qdiv (res.1.getD i (0, 0)).2 (cnt : ℚ)))⟩
    else none)

/-- `generatePoints(config, random)` of voronoi.ts: uniform scatter followed
by two rounds of Lloyd relaxation. -/
def generatePoints (cfg : MapConfig) (delaunay : List Point → Triangulation) (r : Random) :
    List Point × Random :=
  let init := (List.range cfg.numPoints).foldl
    (fun (acc : List Point × Random) _ =>
      let (x, r1) := acc.2.float 10 (qsub cfg.width 10)
      let (y, r2) := r1.float 10 (qsub cfg.height 10)
      (acc.1 ++ [⟨x, y⟩], r2))
    ([], r)
  let pts := (List.range 2).foldl
    (fun ps _ =>
      let tri := delaunay ps
      let centroids := calculateCentroids ps tri cfg
      (List.range ps.length).map (fun i =>
        match centroids.getD i none with
        | some c => c
        | none => ps.getD i pdefault))
    init.1
  (pts, init.2)

/-- Mutable state of `buildGraph`: growing corner arena with the
string-keyed dedup map of `getCorner` (keys become rounded coordinate
pairs), plus the center and edge arenas. -/
structure BuildState where
  centers : List Center
  corners : List Corner
  cornerKeys : List ((ℤ × ℤ) × ℕ)
  edges : List Edge
deriving Repr, DecidableEq

/-- `getCorner(p)` of `buildGraph`: clamp to bounds, dedup by the rounded
10x-coordinate key, append a fresh corner when unseen. -/
def getCorner (cfg : MapConfig) (st : BuildState) (p : Point) : ℕ × BuildState :=
  let x := qmax 0 (qmin cfg.width p.x)
  let y := qmax 0 (qmin cfg.height p.y)
  let key := (jsRound (qmul x 10), jsRound (qmul y 10))
  match st.cornerKeys.find? (fun e => e.1 == key) with
  | some e => (e.2, st)
  | none =>
    let idx := st.corners.length
    let c : Corner :=
      { index := idx, point := ⟨x, y⟩, ocean := false, water := false, coast := false
        border := decide (x ≤ 1) || decide (x ≥ qsub cfg.width 1) ||
          decide (y ≤ 1) || decide (y ≥ qsub cfg.height 1)
        elevation := 0, moisture := 0, touches := [], protrudes := [], adjacent := []
        river := 0, downslope := none, watershed := none, watershedSize := 0 }
    (idx, { st with corners := st.corners ++ [c], cornerKeys := st.cornerKeys ++ [(key, idx)] })

/-- In-place update of one corner of the build state. -/
def bsModifyCorner (st : BuildState) (i : ℕ) (f : Corner → Corner) : BuildState :=
  { st with corners := st.corners.set i (f (st.corners.getD i cornerDefault)) }

/-- In-place update of one center of the build state. -/
def bsModifyCenter (st : BuildState) (i : ℕ) (f : Center → Center) : BuildState :=
  { st with centers := st.centers.set i (f (st.centers.getD i cdefault)) }

/-- The triangle-membership loop of `buildGraph`: dedup the circumcenter
into a corner and connect it with the three centers (with `includes`
checks). -/
def buildTouches (cfg : MapConfig) (points : List Point) (st : BuildState)
    (t : ℕ × ℕ × ℕ) : BuildState :=
  let cc := getCircumcenter (points.getD t.1 pdefault) (points.getD t.2.1 pdefault)
    (points.getD t.2.2 pdefault)
  let (ci, st1) := getCorner cfg st cc
  [t.1, t.2.1, t.2.2].foldl
    (fun s p =>
      let s1 :=
        if (s.corners.getD ci cornerDefault).touches.contains p then s
        else bsModifyCorner s ci (fun c => { c with touches := c.touches ++ [p] })
      if (s1.centers.getD p cdefault).corners.contains ci then s1
      else bsModifyCenter s1 p (fun c => { c with corners := c.corners ++ [ci] }))
    st1

/-- The half-edge loop of `buildGraph`: record each undirected edge once,
with corners at the adjacent triangle circumcenters, and wire neighbor,
border, protrude and adjacency lists. -/
def buildEdge (cfg : MapConfig) (points : List Point) (tri : Triangulation)
    (st : BuildState) (e : ℕ) : BuildState :=
  let opposite := tri.halfedges.getD e (-1)
  if (e : ℤ) < opposite || opposite == -1 then
    let t1 := e / 3
    let p0 := tri.triangles.getD e 0
    let p1 := tri.triangles.getD (if e % 3 == 2 then e - 2 else e + 1) 0
    let cc1 := getCircumcenter (points.getD (tri.triangles.getD (t1 * 3) 0) pdefault)
      (points.getD (tri.triangles.getD (t1 * 3 + 1) 0) pdefault)
      (points.getD (tri.triangles.getD (t1 * 3 + 2) 0) pdefault)
    let (c1, st1) := getCorner cfg st cc1
    let (c2, st2) :=
      if opposite == -1 then ((none : Option ℕ), st1)
      else
        let t2 := opposite.toNat / 3
        let cc2 := getCircumcenter (points.getD (tri.triangles.getD (t2 * 3) 0) pdefault)
          (points.getD (tri.triangles.getD (t2 * 3 + 1) 0) pdefault)
          (points.getD (tri.triangles.getD (t2 * 3 + 2) 0) pdefault)
        let r := getCorner cfg st1 cc2
        (some r.1, r.2)
    let eidx := st2.edges.length
    let mid : Option Point :=
      match c2 with
      | some c2v => some ⟨qdiv (qadd (st2.corners.getD c1 cornerDefault).point.x
            (st2.corners.getD c2v cornerDefault).point.x) 2,
          qdiv (qadd (st2.corners.getD c1 cornerDefault).point.y
            (st2.corners.getD c2v cornerDefault).point.y) 2⟩
      | none => none
    let edge : Edge :=
      { index := eidx, d0 := some p0, d1 := some p1, v0 := some c1, v1 := c2
        midpoint := mid, river := 0 }
    let st3 := { st2 with edges := st2.edges ++ [edge] }
    let st4 :=
      if (st3.centers.getD p0 cdefault).neighbors.contains p1 then st3
      else bsModifyCenter st3 p0 (fun c => { c with neighbors := c.neighbors ++ [p1] })
    let st5 :=
      if (st4.centers.getD p1 cdefault).neighbors.contains p0 then st4
      else bsModifyCenter st4 p1 (fun c => { c with neighbors := c.neighbors ++ [p0] })
    let st6 := bsModifyCenter st5 p0 (fun c => { c with borders := c.borders ++ [eidx] })
    let st7 := bsModifyCenter st6 p1 (fun c => { c with borders := c.borders ++ [eidx] })
    let st8 := bsModifyCorner st7 c1 (fun c => { c with protrudes := c.protrudes ++ [eidx] })
    match c2 with
    | none => st8
    | some c2v =>
      let st9 := bsModifyCorner st8 c2v (fun c => { c with protrudes := c.protrudes ++ [eidx] })
      let stA :=
        if (st9.corners.getD c1 cornerDefault).adjacent.contains c2v then st9
        else bsModifyCorner st9 c1 (fun c => { c with adjacent := c.adjacent ++ [c2v] })
      if (stA.corners.getD c2v cornerDefault).adjacent.contains c1 then stA
      else bsModifyCorner stA c2v (fun c => { c with adjacent := c.adjacent ++ [c1] })
  else st

/-- Angular class of a direction under `atan2` in (-pi, pi]: below the axis,
on the positive axis (also the origin), above the axis, on the negative
axis. -/
def angClass (d : Point) : ℕ :=
  if d.y < 0 then 0
  else if d.y = 0 then (if d.x < 0 then 3 else 1)
  else 2

/-- z-component of the cross product. -/
def crossZ (a b : Point) : ℚ :=
  qsub (qmul a.x b.y) (qmul a.y b.x)

/-- Exact comparator for the `atan2`-based angular sort of `sortCorners`:
orders directions by angle in (-pi, pi]; within an open half-plane the order
is the sign of the cross product, which the rationals decide exactly. -/
def angLe (a b : Point) : Bool :=
  let ca := angClass a
  let cb := angClass b
  if ca < cb then true
  else if cb < ca then false
  else if ca == 1 || ca == 3 then true
  else decide (0 ≤ crossZ a b)

/-- Difference of two points. -/
def psub (a b : Point) : Point :=
  ⟨qsub a.x b.x, qsub a.y b.y⟩

/-- `sortCorners(center)` of voronoi.ts: sort the corner list angularly
around the center (stable sort with the `atan2` comparator). -/
def sortCornersOf (corners : List Corner) (c : Center) : Center :=
  { c with corners := jsSortBy (fun i j =>
      angLe (psub (corners.getD i cornerDefault).point c.point)
        (psub (corners.getD j cornerDefault).point c.point)) c.corners }

/-- `buildGraph(config, random)` of voronoi.ts, parametrized over the
external Delaunator triangulation. -/
def buildGraph (delaunay : List Point → Triangulation) (cfg : MapConfig) (r : Random) :
    Graph × Random :=
  let (points, r1) := generatePoints cfg delaunay r
  let tri := delaunay points
  let centers0 := (List.range points.length).map (fun i =>
    { index := i, point := points.getD i pdefault, ocean := false, water := false
      coast := false, border := false, elevation := 0, moisture := 0
      biome := Biome.OCEAN, neighbors := [], borders := [], corners := [] : Center })
  let st0 : BuildState := { centers := centers0, corners := [], cornerKeys := [], edges := [] }
  let st1 := (triTriples tri.triangles).foldl (buildTouches cfg points) st0
  let st2 := (List.range tri.halfedges.length).foldl (buildEdge cfg points tri) st1
  let centers1 := st2.centers.map (sortCornersOf st2.corners)
  ({ centers := centers1, corners := st2.corners, edges := st2.edges }, r1)

/-- `generateMap(userConfig)` of generator.ts: seed one `Random` from the
config, build the graph, then run the terrain stages in order, threading the
same generator.  The caller-side spread over `DEFAULT_CONFIG` is received as
the merged configuration. -/
def generateMap (delaunay : List Point → Triangulation) (cfg : MapConfig) : MapData :=
  let random := Random.ofSeed cfg.seed
  let (graph, r1) := buildGraph delaunay cfg random
  let (g1, r2) := assignWater graph cfg r1
  let g2 := assignElevation g1 cfg
  let (g3, _) := createRivers g2 cfg r2
  let g4 := assignMoisture g3
  let g5 := assignBiomes g4
  { centers := g5.centers, corners := g5.corners, edges := g5.edges, config := cfg }

/-! ### Settlement placement (towns.ts) -/

/-- The placement category union of `TownPlacementRule.type`. -/
inductive TownType where
  | shoreline | river | elevation | inland
deriving Repr, DecidableEq

/-- `TownSize` of towns.ts. -/
inductive TownSize where
  | large | medium | small
deriving Repr, DecidableEq

/-- `TownPlacementRule` of towns.ts (`type` is renamed `ttype`). -/
structure TownPlacementRule where
  ttype : TownType
  targetPercent : ℚ
  minCount : ℕ
  maxCount : ℕ
  elevationMin : Option ℚ
  elevationMax : Option ℚ
  priority : ℚ
deriving Repr, DecidableEq

/-- `TownConfig` of towns.ts. -/
structure TownConfig where
  totalTowns : ℕ
  minDistance : ℚ
  rules : List TownPlacementRule
  seed : Option ℤ
deriving Repr, DecidableEq

/-- `DEFAULT_TOWN_CONFIG` of towns.ts. -/
def DEFAULT_TOWN_CONFIG : TownConfig :=
  { totalTowns := 15
    minDistance := 40
    rules :=
      [ { ttype := TownType.shoreline, targetPercent := mkRat 3 10, minCount := 2
          maxCount := 0, elevationMin := none, elevationMax := none, priority := 10 }
      , { ttype := TownType.river, targetPercent := mkRat 1 4, minCount := 2
          maxCount := 0, elevationMin := none, elevationMax := none, priority := 8 }
      , { ttype := TownType.elevation, targetPercent := mkRat 3 20, minCount := 1
          maxCount := 3, elevationMin := some (mkRat 6 10), elevationMax := some 1, priority := 6 }
      , { ttype := TownType.elevation, targetPercent := mkRat 1 5, minCount := 1
          maxCount := 0, elevationMin := some (mkRat 3 10), elevationMax := some (mkRat 6 10), priority := 4 }
      , { ttype := TownType.inland, targetPercent := mkRat 1 10, minCount := 0
          maxCount := 0, elevationMin := none, elevationMax := none, priority := 2 } ]
    seed := none }

/-- `Town` of towns.ts.  `center` is the position of the owning center in the
map arena (object identity); `rule` is the position of the placing rule in the
original `config.rules` array (the source compares rules with `===`, and all
rule objects originate from that array).  The `name` field is omitted: the
name synthesizer runs on its own `Random` instance (townNames.ts constructs
`new Random(seed)` privately), so it can influence neither the placement
stream nor any claim under study. -/
structure Town where
  id : ℕ
  center : ℕ
  ttype : TownType
  elevation : ℚ
  rule : ℕ
  x : ℚ
  y : ℚ
  size : TownSize
deriving Repr, DecidableEq

/-- Placeholder town for list indexing. -/
def tdefault : Town :=
  { id := 0, center := 0, ttype := TownType.inland, elevation := 0, rule := 0
    x := 0, y := 0, size := TownSize.small }

/-- Per-type counters backing `stats.byType` (a JS string-keyed record over
the four closed categories). -/
structure ByType where
  shoreline : ℕ
  river : ℕ
  elevation : ℕ
  inland : ℕ
deriving Repr, DecidableEq

/-- Increment the counter of one category. -/
def ByType.bump (b : ByType) : TownType → ByType
  | TownType.shoreline => { b with shoreline := b.shoreline + 1 }
  | TownType.river => { b with river := b.river + 1 }
  | TownType.elevation => { b with elevation := b.elevation + 1 }
  | TownType.inland => { b with inland := b.inland + 1 }

/-- `TownGeneratorResult.stats` of towns.ts. -/
structure TGStats where
  total : ℕ
  byType : ByType
  rulesFullfilled : Bool
deriving Repr, DecidableEq

/-- `TownGeneratorResult` of towns.ts. -/
structure TownGeneratorResult where
  towns : List Town
  stats : TGStats
deriving Repr, DecidableEq

/-- The `TownGenerator` instance state after the constructor ran: map data,
merged config, RNG, and the location caches of `cacheValidLocations`. -/
structure TownGen where
  mapData : MapData
  config : TownConfig
  random : Random
  shorelineCenters : List ℕ
  riverCenters : List ℕ
  landCenters : List ℕ
deriving Repr, DecidableEq

/-- `cacheValidLocations` river-center accumulation: JS `Set` insertion with
first-occurrence order. -/
def addOnce (l : List ℕ) (p : ℕ) : List ℕ :=
  if p ∈ l then l else l ++ [p]

/-- The `TownGenerator` constructor of towns.ts: seeds the RNG from the
config (falling back to the map seed) and precomputes the candidate caches.
The merged config is received whole (the source spreads the caller fragment
over `DEFAULT_TOWN_CONFIG`). -/
def mkTownGenerator (md : MapData) (config : TownConfig) : TownGen :=
  let seed := config.seed.getD md.config.seed
  let landCenters := (List.range md.centers.length).filter
    (fun p => !(cAt md p).water && !(cAt md p).ocean)
  let shorelineCenters := landCenters.filter (fun p => (cAt md p).coast)
  let riverCenters := md.edges.foldl
    (fun acc e =>
      if e.river > 0 then
        let acc1 := match e.d0 with
          | some p => if !(cAt md p).water then addOnce acc p else acc
          | none => acc
        match e.d1 with
          | some p => if !(cAt md p).water then addOnce acc1 p else acc1
          | none => acc1
      else acc) []
  { mapData := md, config := config, random := Random.ofSeed seed
    shorelineCenters := shorelineCenters, riverCenters := riverCenters
    landCenters := landCenters }

/-- Models `Math.sqrt s < m` for `s ≥ 0` without leaving the rationals
(`s` is a squared distance). -/
def sqrtLtB (s m : ℚ) : Bool :=
  decide (0 < m) && decide (s < qmul m m)

/-- `isValidPlacement(center, placedCenters)` of towns.ts: not already
placed, and no placed town closer than `minDistance`. -/
def isValidPlacement (md : MapData) (minDistance : ℚ) (c : ℕ) (placed : List ℕ) : Bool :=
  !(placed.contains c) &&
    placed.all (fun p => !(sqrtLtB (distSq (cAt md c).point (cAt md p).point) minDistance))

/-- `getCandidatesForRule(rule)` of towns.ts. -/
def getCandidatesForRule (gen : TownGen) (rule : TownPlacementRule) : List ℕ :=
  match rule.ttype with
  | TownType.shoreline => gen.shorelineCenters
  | TownType.river => gen.riverCenters.filter (fun p => !(cAt gen.mapData p).coast)
  | TownType.elevation =>
    let minElev := rule.elevationMin.getD 0
    let maxElev := rule.elevationMax.getD 1
    gen.landCenters.filter (fun p =>
      decide (minElev ≤ (cAt gen.mapData p).elevation) &&
      decide ((cAt gen.mapData p).elevation ≤ maxElev) &&
      !(cAt gen.mapData p).coast)
  | TownType.inland =>
    gen.landCenters.filter (fun p =>
      !(cAt gen.mapData p).coast && !(gen.riverCenters.contains p))

/-- `determineTownSize(type)` of towns.ts: one `next()` roll against the
per-category distribution table. -/
def determineTownSize (r : Random) (t : TownType) : TownSize × Random :=
  let (roll, r') := r.next
  let size :=
    match t with
    | TownType.shoreline =>
      if roll < mkRat 35 100 then TownSize.large
      else if roll < mkRat 75 100 then TownSize.medium
      else TownSize.small
    | TownType.river =>
      if roll < mkRat 2 10 then TownSize.large
      else if roll < mkRat 7 10 then TownSize.medium
      else TownSize.small
    | TownType.elevation =>
      if roll < mkRat 15 100 then TownSize.large
      else if roll < mkRat 45 100 then TownSize.medium
      else TownSize.small
    | TownType.inland =>
      if roll < mkRat 1 10 then TownSize.large
      else if roll < mkRat 45 100 then TownSize.medium
      else TownSize.small
  (size, r')

/-- Rule of a config at a given position of the `rules` array. -/
def ruleAt (cfg : TownConfig) (i : ℕ) : TownPlacementRule :=
  cfg.rules.getD i
    { ttype := TownType.inland, targetPercent := 0, minCount := 0, maxCount := 0
      elevationMin := none, elevationMax := none, priority := 0 }

/-- `createTown(id, center, rule)` of towns.ts (name synthesis omitted, see
`Town`). -/
def createTown (md : MapData) (cfg : TownConfig) (r : Random) (id centerPos ruleIdx : ℕ) :
    Town × Random :=
  let (size, r') := determineTownSize r (ruleAt cfg ruleIdx).ttype
  ({ id := id, center := centerPos, ttype := (ruleAt cfg ruleIdx).ttype
     elevation := (cAt md centerPos).elevation, rule := ruleIdx
     x := (cAt md centerPos).point.x, y := (cAt md centerPos).point.y
     size := size }, r')

/-- Mutable state of `TownGenerator.generate`. -/
structure PlaceState where
  towns : List Town
  placed : List ℕ
  random : Random
  byType : ByType
  rulesFullfilled : Bool
deriving Repr, DecidableEq

/-- `findValidCenter(rule, placedCenters)` of towns.ts: filter the rule
candidates by `isValidPlacement`, shuffle, take the first. -/
def findValidCenter (gen : TownGen) (ruleIdx : ℕ) (placed : List ℕ) (r : Random) :
    Option ℕ × Random :=
  let candidates := getCandidatesForRule gen (ruleAt gen.config ruleIdx)
  let valid := candidates.filter
    (fun c => isValidPlacement gen.mapData gen.config.minDistance c placed)
  if valid.isEmpty then (none, r)
  else
    let (sh, r') := r.shuffle valid
    (sh.head?, r')

/-- `findFallbackRule(rules, placedCenters)` of towns.ts: first rule in the
priority-sorted order with at least one valid candidate. -/
def findFallbackRule (gen : TownGen) (sortedRules : List ℕ) (placed : List ℕ) : Option ℕ :=
  sortedRules.find? (fun ri =>
    !((getCandidatesForRule gen (ruleAt gen.config ri)).filter
        (fun c => isValidPlacement gen.mapData gen.config.minDistance c placed)).isEmpty)

/-- `-Infinity`-seeded strict comparison for the deficit maximum: the left
side is the current best (none standing for `-Infinity`). -/
def dltO (best : Option ℤ) (d : ℤ) : Bool :=
  match best with
  | none => true
  | some b => decide (b < d)

/-- `currentTowns.filter(t => t.rule === rule).length` of
`selectRuleByTarget`. -/
def ruleCount (towns : List Town) (ri : ℕ) : ℕ :=
  (towns.filter (fun t => t.rule == ri)).length

/-- `Math.floor(rule.targetPercent * totalTarget) - currentCount` of
`selectRuleByTarget`. -/
def ruleDeficit (gen : TownGen) (towns : List Town) (ri : ℕ) : ℤ :=
  qfloor (qmul (ruleAt gen.config ri).targetPercent (gen.config.totalTowns : ℚ)) -
    (ruleCount towns ri : ℤ)

/-- One iteration of the best-deficit scan of `selectRuleByTarget`: skip a
rule at its max count, else keep the strictly larger deficit. -/
def selectFoldStep (gen : TownGen) (towns : List Town)
    (acc : Option ℕ × Option ℤ) (ri : ℕ) : Option ℕ × Option ℤ :=
  if (ruleAt gen.config ri).maxCount > 0 &&
      ruleCount towns ri ≥ (ruleAt gen.config ri).maxCount then acc
  else if dltO acc.2 (ruleDeficit gen towns ri) then
    (some ri, some (ruleDeficit gen towns ri))
  else acc

/-- A rule the best-deficit scan does not skip (`maxCount` is 0 or the count
is still below it). -/
def ruleEligible (gen : TownGen) (towns : List Town) (ri : ℕ) : Bool :=
  !((ruleAt gen.config ri).maxCount > 0 &&
    ruleCount towns ri ≥ (ruleAt gen.config ri).maxCount)

/-- Invariant of the best-deficit scan of `selectRuleByTarget` over the
rules already processed: the accumulator is empty only while every processed
rule was skipped for being at its max count, and otherwise holds a
processed, eligible rule of maximal deficit together with that deficit. -/
def SelInv (gen : TownGen) (towns : List Town) (processed : List ℕ) :
    Option ℕ × Option ℤ → Prop
  | (none, dopt) => dopt = none ∧ ∀ rj ∈ processed, ruleEligible gen towns rj = false
  | (some ri, dopt) => dopt = some (ruleDeficit gen towns ri) ∧ ri ∈ processed ∧
      ruleEligible gen towns ri = true ∧
      ∀ rj ∈ processed, ruleEligible gen towns rj = true →
        ruleDeficit gen towns rj ≤ ruleDeficit gen towns ri

/-- `selectRuleByTarget(currentTowns, rules)` of towns.ts.  Rules are given
as positions into the original config array, in priority-sorted order. -/
def selectRuleByTarget (gen : TownGen) (currentTowns : List Town) (sortedRules : List ℕ)
    (r : Random) : Option ℕ × Random :=
  let best := sortedRules.foldl (selectFoldStep gen currentTowns) (none, none)
  let deficitNonpos := match best.2 with
    | none => true
    | some d => decide (d ≤ 0)
  if deficitNonpos then
    let availableRules := sortedRules.filter (fun ri =>
      let rule := ruleAt gen.config ri
      let count := ruleCount currentTowns ri
      rule.maxCount == 0 || count < rule.maxCount)
    if availableRules.isEmpty then (none, r)
    else
      let (j, r') := r.int 0 ((availableRules.length : ℤ) - 1)
      (some (availableRules.getD j.toNat 0), r')
  else (best.1, r)

/-- Push one town placed by a rule onto the generation state. -/
def placeTown (gen : TownGen) (st : PlaceState) (centerPos ruleIdx : ℕ) (r : Random) :
    PlaceState :=
  let (town, r') := createTown gen.mapData gen.config r st.towns.length centerPos ruleIdx
  { st with
    towns := st.towns ++ [town],
    placed := st.placed ++ [centerPos],
    random := r',
    byType := st.byType.bump (ruleAt gen.config ruleIdx).ttype }

/-- The inner `while placed < minNeeded` loop of pass 1 for one rule. -/
def pass1Rule (gen : TownGen) (ruleIdx : ℕ) : ℕ → PlaceState → PlaceState
  | 0, st => st
  | needed + 1, st =>
    if st.towns.length < gen.config.totalTowns then
      match findValidCenter gen ruleIdx st.placed st.random with
      | (none, r') => { st with random := r', rulesFullfilled := false }
      | (some c, r') => pass1Rule gen ruleIdx needed (placeTown gen { st with random := r' } c ruleIdx r')
    else st

/-- Pass 1 of `generate`: fulfill rule minimums in priority order. -/
def pass1 (gen : TownGen) (sortedRules : List ℕ) (st : PlaceState) : PlaceState :=
  sortedRules.foldl (fun s ri => pass1Rule gen ri (ruleAt gen.config ri).minCount s) st

/-- One iteration body of the pass-2 `while` loop; returns `none` on `break`. -/
def pass2Step (gen : TownGen) (sortedRules : List ℕ) (st : PlaceState) : Option PlaceState :=
  match selectRuleByTarget gen st.towns sortedRules st.random with
  | (none, _) => none
  | (some ruleIdx, r1) =>
    match findValidCenter gen ruleIdx st.placed r1 with
    | (some c, r2) => some (placeTown gen { st with random := r2 } c ruleIdx r2)
    | (none, r2) =>
      match findFallbackRule gen sortedRules st.placed with
      | none => none
      | some fallbackIdx =>
        match findValidCenter gen fallbackIdx st.placed r2 with
        | (none, _) => none
        | (some fc, r3) => some (placeTown gen { st with random := r3 } fc fallbackIdx r3)

/-- The pass-2 `while towns.length < totalTowns` loop.  The gas parameter
only bounds the iteration count; each non-breaking iteration places a town,
so `totalTowns + 1` gas reproduces the source loop exactly. -/
def pass2Go (gen : TownGen) (sortedRules : List ℕ) : ℕ → PlaceState → PlaceState
  | 0, st => st
  | gas + 1, st =>
    if st.towns.length < gen.config.totalTowns then
      match pass2Step gen sortedRules st with
      | none => st
      | some st' => pass2Go gen sortedRules gas st'
    else st

/-- Stable sort of the rule positions by descending priority (the source
copies `config.rules` and sorts with `(a, b) => b.priority - a.priority`;
ES2019 sort is stable). -/
def sortedRuleIdxs (cfg : TownConfig) : List ℕ :=
  jsSortBy (fun i j => decide ((ruleAt cfg j).priority ≤ (ruleAt cfg i).priority))
    (List.range cfg.rules.length)

/-- `TownGenerator.generate()` of towns.ts. -/
def TownGen.generate (gen : TownGen) : TownGeneratorResult :=
  let sortedRules := sortedRuleIdxs gen.config
  let st0 : PlaceState :=
    { towns := [], placed := [], random := gen.random
      byType := ⟨0, 0, 0, 0⟩, rulesFullfilled := true }
  let st1 := pass1 gen sortedRules st0
  let st2 := pass2Go gen sortedRules (gen.config.totalTowns + 1) st1
  { towns := st2.towns
    stats := { total := st2.towns.length, byType := st2.byType
               rulesFullfilled := st2.rulesFullfilled } }

/-- `new TownGenerator(mapData, config).generate()`. -/
def generateTowns (md : MapData) (cfg : TownConfig) : TownGeneratorResult :=
  (mkTownGenerator md cfg).generate

/-! ### Road network (roads.ts) -/

/-- `Road` of roads.ts (`from`/`to` renamed, they are Lean keywords). -/
structure Road where
  fromTown : Town
  toTown : Town
  path : List Point
  length : ℚ
deriving Repr, DecidableEq

/-- `RoadNetwork` of roads.ts; the JS `Map<number, number[]>` becomes an
insertion-ordered association list. -/
structure RoadNetwork where
  roads : List Road
  adjacency : List (ℕ × List ℕ)
deriving Repr, DecidableEq

/-- JS `Map.set`: replace in place if the key exists, else append. -/
def amSet (m : List (ℕ × List ℕ)) (k : ℕ) (v : List ℕ) : List (ℕ × List ℕ) :=
  if m.any (fun p => p.1 == k) then
    m.map (fun p => if p.1 == k then (k, v) else p)
  else m ++ [(k, v)]

/-- JS `Map.get`. -/
def amGet (m : List (ℕ × List ℕ)) (k : ℕ) : Option (List ℕ) :=
  (m.find? (fun p => p.1 == k)).map (fun p => p.2)

/-- `adjacency.get(k)!.push(v)` of roads.ts: the entry is always present. -/
def amPush (m : List (ℕ × List ℕ)) (k : ℕ) (v : ℕ) : List (ℕ × List ℕ) :=
  m.map (fun p => if p.1 == k then (p.1, p.2 ++ [v]) else p)

/-- Strict `<` with `none` standing for `Infinity`: models the JS float
comparisons of roads.ts where absent map entries and unreached cost slots
read as `Infinity`. -/
def oltQ (a b : Option ℚ) : Bool :=
  match a, b with
  | some x, some y => decide (x < y)
  | some _, none => true
  | none, _ => false

/-- State of Prim's algorithm in `buildMST`: `minCost`/`minEdge` mirror the
`Float64Array`/`Int32Array` (Infinity becomes `none`, -1 becomes `none`). -/
structure MSTState where
  edges : List (ℕ × ℕ)
  inMST : List ℕ
  minCost : List (Option ℚ)
  minEdge : List (Option ℕ)
deriving Repr, DecidableEq

/-- One candidate check of the cheapest-vertex selection loop of
`buildMST`. -/
def mstPickStep (inMST : List ℕ) (minCost : List (Option ℚ)) (u : Option ℕ) (v : ℕ) :
    Option ℕ :=
  if inMST.contains v then u
  else
    match u with
    | none => some v
    | some u0 => if oltQ (minCost.getD v none) (minCost.getD u0 none) then some v else u0

/-- The cheapest-vertex selection loop of `buildMST`. -/
def mstPick (inMST : List ℕ) (minCost : List (Option ℚ)) (n : ℕ) : Option ℕ :=
  (List.range n).foldl (mstPickStep inMST minCost) none

/-- Point of the owning center of the town at a list position (the source
reads `towns[i].center.point` through the object reference). -/
def townCenterPt (md : MapData) (towns : List Town) (i : ℕ) : Point :=
  (cAt md (towns.getD i tdefault).center).point

/-- One cost relaxation of the Prim update loop of `buildMST`. -/
def mstUpdateStep (md : MapData) (towns : List Town) (u : ℕ) (s : MSTState) (v : ℕ) :
    MSTState :=
  if s.inMST.contains v then s
  else
    if oltQ (some (euclidean (townCenterPt md towns u) (townCenterPt md towns v)))
        (s.minCost.getD v none) then
      { s with
        minCost := s.minCost.set v
          (some (euclidean (townCenterPt md towns u) (townCenterPt md towns v))),
        minEdge := s.minEdge.set v (some u) }
    else s

/-- One iteration of the Prim loop of `buildMST`. -/
def mstIter (md : MapData) (towns : List Town) (st : MSTState) : MSTState :=
  let n := towns.length
  match mstPick st.inMST st.minCost n with
  | none => st
  | some u =>
    let st1 : MSTState :=
      { st with
        inMST := st.inMST ++ [u],
        edges :=
          match st.minEdge.getD u none with
          | none => st.edges
          | some p => st.edges ++ [(u, p)] }
    (List.range n).foldl (mstUpdateStep md towns u) st1

/-- `buildMST(towns)` of roads.ts: Prim's algorithm over town positions. -/
def buildMST (md : MapData) (towns : List Town) : List (ℕ × ℕ) :=
  let n := towns.length
  let st0 : MSTState :=
    { edges := [], inMST := []
      minCost := (List.replicate n (none : Option ℚ)).set 0 (some 0)
      minEdge := List.replicate n none }
  ((List.range n).foldl (fun s _ => mstIter md towns s) st0).edges

/-- One undirected hop along an edge list (either orientation). -/
def EStep (E : List (ℕ × ℕ)) (a b : ℕ) : Prop :=
  (a, b) ∈ E ∨ (b, a) ∈ E

/-- Reachability along an undirected edge list. -/
def EReach (E : List (ℕ × ℕ)) : ℕ → ℕ → Prop :=
  Relation.ReflTransGen (EStep E)

/-- Invariant of Prim's loop in `buildMST` over `n` towns: the tree vertex
list is duplicate-free and in range, the cost/parent arrays keep length `n`,
every recorded parent is a tree vertex, every recorded edge joins two
distinct in-range vertices, tree vertices are pairwise connected through the
recorded edges, and (except before the first iteration, where the arrays
still hold their initial values) every out-of-tree vertex has a recorded
parent. -/
def MSTInv (n : ℕ) (st : MSTState) : Prop :=
  st.inMST.Nodup ∧
  (∀ v ∈ st.inMST, v < n) ∧
  st.minCost.length = n ∧
  st.minEdge.length = n ∧
  (∀ v p, st.minEdge.getD v none = some p → p ∈ st.inMST) ∧
  (∀ e ∈ st.edges, e.1 < n ∧ e.2 < n ∧ e.1 ≠ e.2) ∧
  (∀ a ∈ st.inMST, ∀ b ∈ st.inMST, EReach st.edges a b) ∧
  ((st.inMST = [] ∧ st.minCost = (List.replicate n none).set 0 (some 0) ∧
      st.minEdge = List.replicate n (none : Option ℕ)) ∨
    (∀ v, v < n → v ∉ st.inMST → (st.minEdge.getD v none).isSome))

/-- Normalized undirected pair key, models the `"min-max"` strings of
`addExtraEdges`. -/
def pairKey (a b : ℕ) : ℕ × ℕ :=
  (min a b, max a b)

/-- The accept loop of `addExtraEdges`: walk the sorted candidates, draw one
float per candidate, stop once `maxExtras` are accepted. -/
def acceptExtras (r : Random) (maxExtras : ℕ) :
    List (ℕ × ℕ) → List (ℕ × ℕ) → List (ℕ × ℕ) × Random
  | [], extras => (extras, r)
  | c :: cs, extras =>
    if maxExtras ≤ extras.length then (extras, r)
    else
      let (u, r') := r.next
      if u < mkRat 6 10 then acceptExtras r' maxExtras cs (extras ++ [c])
      else acceptExtras r' maxExtras cs extras

/-- `addExtraEdges(towns, mstEdges, random)` of roads.ts. -/
def addExtraEdges (md : MapData) (towns : List Town) (mstEdges : List (ℕ × ℕ))
    (r : Random) : List (ℕ × ℕ) × Random :=
  let n := towns.length
  let existing := mstEdges.map (fun e => pairKey e.1 e.2)
  let candidates := ((List.range n).flatMap (fun i =>
      ((List.range n).filter (fun j => i < j)).filterMap (fun j =>
        if existing.contains (i, j) then none
        else some (i, j, euclidean (townCenterPt md towns i) (townCenterPt md towns j)))))
  let sorted := jsSortBy (fun a b => decide (a.2.2 ≤ b.2.2)) candidates
  let maxExtras := max 1 (qfloor (qmul (mstEdges.length : ℚ) (mkRat 3 10))).toNat
  acceptExtras r maxExtras (sorted.map (fun c => (c.1, c.2.1))) []

/-- JS `Map` keyed by arbitrary numbers (used for `centerByIndex`, `gScore`,
`fScore`, `cameFrom` of `findPath`). -/
def nmSet {α : Type} (m : List (ℕ × α)) (k : ℕ) (v : α) : List (ℕ × α) :=
  if m.any (fun p => p.1 == k) then
    m.map (fun p => if p.1 == k then (k, v) else p)
  else m ++ [(k, v)]

/-- JS `Map.get` for number-keyed maps. -/
def nmGet {α : Type} (m : List (ℕ × α)) (k : ℕ) : Option α :=
  (m.find? (fun p => p.1 == k)).map (fun p => p.2)

/-- `centerByIndex` of `findPath`: maps the `index` field of every center to
its arena position (the source stores the object itself). -/
def centerByIndexMap (md : MapData) : List (ℕ × ℕ) :=
  (List.range md.centers.length).foldl
    (fun m p => nmSet m (cAt md p).index p) []

/-- `centerByIndex.get(i)!` (the source asserts presence). -/
def cbiGet (cbi : List (ℕ × ℕ)) (k : ℕ) : ℕ :=
  (nmGet cbi k).getD 0

/-- Mutable state of the A* loop of `findPath`.  `openSet` is a JS `Set`:
insertion-ordered, duplicate-free. -/
structure AStarState where
  openSet : List ℕ
  cameFrom : List (ℕ × ℕ)
  gScore : List (ℕ × ℚ)
  fScore : List (ℕ × ℚ)
deriving Repr, DecidableEq

/-- JS `Set.add` on the open set. -/
def osAdd (l : List ℕ) (k : ℕ) : List ℕ :=
  if l.contains k then l else l ++ [k]

/-- The cheapest-node scan of the A* loop: first node of the open set (in
insertion order) with strictly smallest f-score; absent f entries read
`Infinity`. -/
def argminF (fScore : List (ℕ × ℚ)) (openSet : List ℕ) : Option ℕ :=
  (openSet.foldl
    (fun (acc : Option ℕ × Option ℚ) idx =>
      let f := nmGet fScore idx
      if oltQ f acc.2 then (some idx, f) else acc)
    (none, none)).1

/-- Path reconstruction of `findPath`: follow `cameFrom` from the goal and
prepend.  The chain length is bounded by the map size (each key was inserted
once); the fuel makes the recursion structural. -/
def recon (cameFrom : List (ℕ × ℕ)) : ℕ → ℕ → List ℕ
  | 0, node => [node]
  | fuel + 1, node =>
    match nmGet cameFrom node with
    | none => [node]
    | some p => recon cameFrom fuel p ++ [node]

/-- The body of the neighbor relaxation of one A* iteration (one neighbor):
skip ocean, skip inland water unless it is the start or end region, otherwise
relax with cost `distance * (1 + 2 * elevation)` plus straight-line
heuristic. -/
def astarRelaxStep (md : MapData) (current startIdx endIdx : ℕ) (cc : Center)
    (endPt : Point) (s : AStarState) (npos : ℕ) : AStarState :=
  if (cAt md npos).ocean then s
  else if (cAt md npos).water && (cAt md npos).index != endIdx
      && (cAt md npos).index != startIdx then s
  else
    match nmGet s.gScore current with
    | none => s
    | some g =>
      if oltQ (some (qadd g (qmul (euclidean cc.point (cAt md npos).point)
            (qadd 1 (qmul (cAt md npos).elevation 2)))))
          (nmGet s.gScore (cAt md npos).index) then
        { openSet := osAdd s.openSet (cAt md npos).index
          cameFrom := nmSet s.cameFrom (cAt md npos).index current
          gScore := nmSet s.gScore (cAt md npos).index
            (qadd g (qmul (euclidean cc.point (cAt md npos).point)
              (qadd 1 (qmul (cAt md npos).elevation 2))))
          fScore := nmSet s.fScore (cAt md npos).index
            (qadd (qadd g (qmul (euclidean cc.point (cAt md npos).point)
                (qadd 1 (qmul (cAt md npos).elevation 2))))
              (euclidean (cAt md npos).point endPt)) }
      else s

/-- The neighbor relaxation of one A* iteration: fold the relaxation body
over the current center's neighbors. -/
def astarRelax (md : MapData) (current : ℕ) (cc : Center) (startIdx endIdx : ℕ)
    (endPt : Point) (st : AStarState) : AStarState :=
  cc.neighbors.foldl (astarRelaxStep md current startIdx endIdx cc endPt) st

/-- One iteration of the A* `while` loop: `Sum.inl` is loop exit (`none` =
open set exhausted, fall back; `some` = goal reached, reconstructed index
path), `Sum.inr` continues. -/
def astarStep (md : MapData) (cbi : List (ℕ × ℕ)) (startIdx endIdx : ℕ) (endPt : Point)
    (st : AStarState) : Sum (Option (List ℕ)) AStarState :=
  if st.openSet.isEmpty then Sum.inl none
  else
    match argminF st.fScore st.openSet with
    | none => Sum.inl none
    | some current =>
      if current == endIdx then
        Sum.inl (some (recon st.cameFrom (st.cameFrom.length + 1) endIdx))
      else
        let st1 := { st with openSet := st.openSet.erase current }
        let cc := cAt md (cbiGet cbi current)
        Sum.inr (astarRelax md current cc startIdx endIdx endPt st1)

/-- The fueled A* loop.  The source loop runs until the open set empties;
every property proved below is a per-step invariant, so the amount of fuel is
immaterial (exhaustion falls back to the straight line, like an empty open
set). -/
def astarLoop (md : MapData) (cbi : List (ℕ × ℕ)) (startIdx endIdx : ℕ) (endPt : Point) :
    ℕ → AStarState → Option (List ℕ)
  | 0, _ => none
  | fuel + 1, st =>
    match astarStep md cbi startIdx endIdx endPt st with
    | Sum.inl r => r
    | Sum.inr st' => astarLoop md cbi startIdx endIdx endPt fuel st'

/-- The A* search of `findPath(start, end, mapData)` on center positions,
returning the successful index path (`none` = fallback).  Only called with
`startPos ≠ endPos`. -/
def findPathCore (md : MapData) (startPos endPos : ℕ) : Option (List ℕ) :=
  let cbi := centerByIndexMap md
  let s := cAt md startPos
  let e := cAt md endPos
  let st0 : AStarState :=
    { openSet := [s.index], cameFrom := [], gScore := [(s.index, 0)]
      fScore := [(s.index, euclidean s.point e.point)] }
  astarLoop md cbi s.index e.index e.point ((md.centers.length + 2) * (md.centers.length + 2)) st0

/-- `findPath(start, end, mapData)` of roads.ts, on center positions. -/
def findPath (md : MapData) (startPos endPos : ℕ) : List Point :=
  if startPos == endPos then [(cAt md startPos).point]
  else
    match findPathCore md startPos endPos with
    | some idxs => idxs.map (fun i => (cAt md (cbiGet (centerByIndexMap md) i)).point)
    | none => [(cAt md startPos).point, (cAt md endPos).point]

/-- A position a reconstructed A* path may legitimately contain: the start
position, or an in-range non-ocean position whose region, when inland water,
is the start or the end position itself. -/
def AStarOK (md : MapData) (sp ep i : ℕ) : Prop :=
  i = sp ∨ (i < md.centers.length ∧ (cAt md i).ocean = false ∧
    ((cAt md i).water = true → i = ep ∨ i = sp))

/-- A* loop invariant: every open-set member and every `cameFrom` key and
value is a legitimate path element. -/
def AStarInv (md : MapData) (sp ep : ℕ) (st : AStarState) : Prop :=
  (∀ k ∈ st.openSet, AStarOK md sp ep k) ∧
  (∀ p ∈ st.cameFrom, AStarOK md sp ep p.1 ∧ AStarOK md sp ep p.2)

/-- A* parent invariant: every open-set member other than the start index
has a recorded `cameFrom` parent (so a reconstructed path to a non-start
goal has at least two nodes). -/
def AStarParent (si : ℕ) (st : AStarState) : Prop :=
  ∀ k ∈ st.openSet, k = si ∨ (nmGet st.cameFrom k).isSome = true

/-- One directed adjacency hop of a road network's adjacency map. -/
def adjEdge (m : List (ℕ × List ℕ)) (a b : ℕ) : Prop :=
  b ∈ (amGet m a).getD []

/-- Reachability by following the adjacency lists of a road network. -/
def AdjReach (m : List (ℕ × List ℕ)) : ℕ → ℕ → Prop :=
  Relation.ReflTransGen (adjEdge m)

/-- `pathLength(path)` of roads.ts. -/
def pathLength : List Point → ℚ
  | [] => 0
  | p :: ps => (ps.foldl (fun (acc : ℚ × Point) q => (qadd acc.1 (euclidean acc.2 q), q)) (0, p)).1

/-- The per-edge body of the road loop of `generateRoads`: pathfind the
edge, and keep the road and both adjacency entries when the path has at
least two points. -/
def roadStep (towns : List Town) (md : MapData)
    (acc : List Road × List (ℕ × List ℕ)) (e : ℕ × ℕ) : List Road × List (ℕ × List ℕ) :=
  let townA := towns.getD e.1 tdefault
  let townB := towns.getD e.2 tdefault
  let path := findPath md townA.center townB.center
  if 2 ≤ path.length then
    (acc.1 ++ [{ fromTown := townA, toTown := townB, path := path
                 length := pathLength path }],
     amPush (amPush acc.2 townA.id townB.id) townB.id townA.id)
  else acc

/-- `generateRoads(towns, mapData, seed)` of roads.ts. -/
def generateRoads (towns : List Town) (md : MapData) (seed : ℤ) : RoadNetwork :=
  if towns.length < 2 then { roads := [], adjacency := [] }
  else
    let random := Random.ofSeed (seed + 9999)
    let mstEdges := buildMST md towns
    let (extraEdges, _) := addExtraEdges md towns mstEdges random
    let allEdges := mstEdges ++ extraEdges
    let adj0 := towns.foldl (fun m t => amSet m t.id []) []
    let fin := allEdges.foldl (roadStep towns md) ([], adj0)
    { roads := fin.1, adjacency := fin.2 }

/-- The settlement-generation invariant: the placed set mirrors the towns
list, towns own pairwise distinct centers, and pairwise squared distances
meet the configured minimum. -/
def PlacedInv (md : MapData) (m : ℚ) (st : PlaceState) : Prop :=
  st.placed = st.towns.map (fun t => t.center) ∧
  st.towns.Pairwise (fun a b => a.center ≠ b.center ∧
    (0 ≤ m → m ^ 2 ≤ distSq (cAt md a.center).point (cAt md b.center).point))

/-! ### Concrete fixtures for witnesses and counterexamples -/

/-- A miniature map: two adjacent land centers. -/
def mdA : MapData :=
  { centers :=
      [ { cdefault with index := 0, point := ⟨0, 0⟩, neighbors := [1] }
      , { cdefault with index := 1, point := ⟨30, 40⟩, neighbors := [0] } ]
    corners := [], edges := [], config := DEFAULT_CONFIG }

/-- Two towns on the two centers of `mdA`. -/
def townsA : List Town :=
  [ { tdefault with id := 0, center := 0 }
  , { tdefault with id := 1, center := 1 } ]

/-- A miniature map whose first center is ocean, adjacent to one land
center. -/
def mdO : MapData :=
  { centers :=
      [ { cdefault with
            index := 0, point := ⟨0, 0⟩, ocean := true, water := true, neighbors := [1] }
      , { cdefault with index := 1, point := ⟨30, 40⟩, neighbors := [0] } ]
    corners := [], edges := [], config := DEFAULT_CONFIG }

/-- Two towns of `mdO`: town 0 on the land center, town 1 on the ocean
center (so the spanning-tree road starts at the ocean region). -/
def townsO : List Town :=
  [ { tdefault with id := 0, center := 1 }
  , { tdefault with id := 1, center := 0 } ]

/-- Two always-available inland rules, both targeting half of 4 towns. -/
def cfgS : TownConfig :=
  { totalTowns := 4, minDistance := 0
    rules :=
      [ { ttype := TownType.inland, targetPercent := mkRat 1 2, minCount := 0
          maxCount := 0, elevationMin := none, elevationMax := none, priority := 2 }
      , { ttype := TownType.inland, targetPercent := mkRat 1 2, minCount := 0
          maxCount := 0, elevationMin := none, elevationMax := none, priority := 1 } ]
    seed := some 0 }

/-- A town generator over `mdA` with the two-rule config. -/
def genS : TownGen :=
  { mapData := mdA, config := cfgS, random := Random.ofSeed 0
    shorelineCenters := [], riverCenters := [], landCenters := [0, 1] }

/-- Five already-placed towns: three by rule 0, two by rule 1, so both
deficits are nonpositive and rule 1's deficit (0) strictly exceeds rule 0's
(-1). -/
def townsS : List Town :=
  [ { tdefault with id := 0, rule := 0 }
  , { tdefault with id := 1, rule := 0 }
  , { tdefault with id := 2, rule := 0 }
  , { tdefault with id := 3, rule := 1 }
  , { tdefault with id := 4, rule := 1 } ]

/-- Three towns at a right triangle (extra-edge counterexample): the
spanning tree has 2 edges, one non-tree pair remains. -/
def mdT : MapData :=
  { centers :=
      [ { cdefault with index := 0, point := ⟨0, 0⟩ }
      , { cdefault with index := 1, point := ⟨10, 0⟩ }
      , { cdefault with index := 2, point := ⟨0, 10⟩ } ]
    corners := [], edges := [], config := DEFAULT_CONFIG }

/-- Towns on the three centers of `mdT`. -/
def townsT : List Town :=
  [ { tdefault with id := 0, center := 0 }
  , { tdefault with id := 1, center := 1 }
  , { tdefault with id := 2, center := 2 } ]

/-- A two-corner river graph: corner 0 a high candidate, corner 1 a lower
inland local minimum (not ocean), one edge joining them. -/
def gR : Graph :=
  { centers := []
    corners :=
      [ { cornerDefault with
            index := 0, elevation := mkRat 1 2, adjacent := [1], protrudes := [0] }
      , { cornerDefault with index := 1, elevation := mkRat 1 4, adjacent := [0] } ]
    edges := [ { edgeDefault with v0 := some 0, v1 := some 1 } ] }

/-- Three far-apart plain land centers (settlement witness map). -/
def mdW2 : MapData :=
  { centers :=
      [ { cdefault with index := 0, point := ⟨0, 0⟩ }
      , { cdefault with index := 1, point := ⟨50, 0⟩ }
      , { cdefault with index := 2, point := ⟨0, 50⟩ } ]
    corners := [], edges := [], config := DEFAULT_CONFIG }

/-- A one-rule config placing 2 inland towns at least 5 apart. -/
def cfgW2 : TownConfig :=
  { totalTowns := 2, minDistance := 5
    rules := [ { ttype := TownType.inland, targetPercent := 1, minCount := 0
                 maxCount := 0, elevationMin := none, elevationMax := none, priority := 1 } ]
    seed := some 7 }

/-- Degenerate triangulation function (no triangles) used to evaluate the
full pipeline concretely in witnesses. -/
def delaunayW : List Point → Triangulation :=
  fun _ => { triangles := [], halfedges := [] }

/-- Tiny configuration for concrete pipeline runs. -/
def cfgW : MapConfig :=
  { width := 100, height := 100, numPoints := 2, seed := 1
    islandFactor := 1, lakeFactor := 3/10, riverCount := 1 }

/-! ## Theorems -/

/-! ### The computable rational operations agree with the standard ones -/

theorem qadd_eq (a b : ℚ) : qadd a b = a + b := by
  rw [qadd, Rat.divInt_eq_div]
  have ha : ((a.den : ℚ)) ≠ 0 := Nat.cast_ne_zero.mpr a.den_nz
  have hb : ((b.den : ℚ)) ≠ 0 := Nat.cast_ne_zero.mpr b.den_nz
  conv_rhs => rw [← Rat.num_div_den a, ← Rat.num_div_den b]
  push_cast
  rw [div_add_div _ _ ha hb]
  ring_nf

theorem qneg_eq (a : ℚ) : qneg a = -a := by
  rw [qneg, Rat.divInt_eq_div]
  have ha : ((a.den : ℚ)) ≠ 0 := Nat.cast_ne_zero.mpr a.den_nz
  conv_rhs => rw [← Rat.num_div_den a]
  push_cast
  rw [neg_div]

theorem qsub_eq (a b : ℚ) : qsub a b = a - b := by
  rw [qsub, qadd_eq, qneg_eq]
  ring

theorem qmul_eq (a b : ℚ) : qmul a b = a * b := by
  rw [qmul, Rat.divInt_eq_div]
  have ha : ((a.den : ℚ)) ≠ 0 := Nat.cast_ne_zero.mpr a.den_nz
  have hb : ((b.den : ℚ)) ≠ 0 := Nat.cast_ne_zero.mpr b.den_nz
  conv_rhs => rw [← Rat.num_div_den a, ← Rat.num_div_den b]
  push_cast
  rw [div_mul_div_comm]

theorem qdiv_eq (a b : ℚ) : qdiv a b = a / b := by
  rcases eq_or_ne b 0 with hb0 | hb0
  · subst hb0
    simp [qdiv, Rat.divInt_eq_div]
  · rw [qdiv, Rat.divInt_eq_div]
    have ha : ((a.den : ℚ)) ≠ 0 := Nat.cast_ne_zero.mpr a.den_nz
    have hb : ((b.den : ℚ)) ≠ 0 := Nat.cast_ne_zero.mpr b.den_nz
    have hbn : ((b.num : ℚ)) ≠ 0 := by
      intro h
      exact hb0 (by rw [← Rat.num_div_den b, (by exact_mod_cast h : (b.num : ℚ) = 0)]; simp)
    conv_rhs => rw [← Rat.num_div_den a, ← Rat.num_div_den b]
    push_cast
    field_simp

theorem qfloor_eq (q : ℚ) : qfloor q = ⌊q⌋ := by
  rw [Rat.floor_def, qfloor, Int.fdiv_eq_ediv _ (by positivity)]

theorem qmin_eq (a b : ℚ) : qmin a b = min a b := by
  rw [qmin, min_def]

theorem qmax_eq (a b : ℚ) : qmax a b = max a b := by
  rw [qmax, max_def]

theorem qabs_eq (a : ℚ) : qabs a = |a| := by
  rw [qabs]
  rcases lt_or_le a 0 with h | h
  · rw [if_pos h, qneg_eq, abs_of_neg h]
  · rw [if_neg (not_lt.mpr h), abs_of_nonneg h]

/-- C10: called with fewer than 2 towns, `generateRoads` returns an empty
road list and an empty adjacency map; the result does not depend on the map
data in any way (the guard runs before the map is touched, and the embedding
is pure, so the map is also unchanged by construction). -/
theorem generateRoads_trivial_under_two (towns : List Town) (md : MapData) (seed : ℤ)
    (h : towns.length < 2) :
    generateRoads towns md seed = { roads := [], adjacency := [] } ∧
    (∀ md' : MapData, generateRoads towns md' seed = generateRoads towns md seed) := by
  refine ⟨?_, ?_⟩
  · simp [generateRoads, h]
  · intro md'
    simp [generateRoads, h]

/-- Witness for C10 at a concrete input. -/
theorem generateRoads_trivial_under_two_witness :
    [tdefault].length < 2 ∧
      generateRoads [tdefault] mdA 0 = { roads := [], adjacency := [] } :=
  ⟨by decide, (generateRoads_trivial_under_two [tdefault] mdA 0 (by decide)).1⟩

set_option maxHeartbeats 1600000 in
/-- C5: `getBiome` is a deterministic total function: every center (in
particular every (elevation, moisture) pair) gets exactly one biome, the
elevation bands split exclusively at 0.8/0.6/0.3, and the moisture cutoffs
within the bands are 0.5/0.33/0.16, 0.66/0.33, 0.83/0.5/0.16 and
0.66/0.33/0.16. -/
theorem getBiome_band_table (c : Center) :
    (∃! b : Biome, getBiome c = b) ∧
    (c.ocean = true → getBiome c = Biome.OCEAN) ∧
    (c.ocean = false → c.water = true →
      ((c.elevation < 1/10 → getBiome c = Biome.MARSH) ∧
       (¬ c.elevation < 1/10 → getBiome c = Biome.LAKE))) ∧
    (c.ocean = false → c.water = false → c.coast = true → getBiome c = Biome.BEACH) ∧
    (c.ocean = false → c.water = false → c.coast = false →
      ((8/10 < c.elevation →
         ((1/2 < c.moisture → getBiome c = Biome.SNOW) ∧
          (33/100 < c.moisture → c.moisture ≤ 1/2 → getBiome c = Biome.TUNDRA) ∧
          (16/100 < c.moisture → c.moisture ≤ 33/100 → getBiome c = Biome.BARE) ∧
          (c.moisture ≤ 16/100 → getBiome c = Biome.SCORCHED))) ∧
       (6/10 < c.elevation → c.elevation ≤ 8/10 →
         ((66/100 < c.moisture → getBiome c = Biome.TAIGA) ∧
          (33/100 < c.moisture → c.moisture ≤ 66/100 → getBiome c = Biome.SHRUBLAND) ∧
          (c.moisture ≤ 33/100 → getBiome c = Biome.TEMPERATE_DESERT))) ∧
       (3/10 < c.elevation → c.elevation ≤ 6/10 →
         ((83/100 < c.moisture → getBiome c = Biome.TEMPERATE_RAIN_FOREST) ∧
          (1/2 < c.moisture → c.moisture ≤ 83/100 →
            getBiome c = Biome.TEMPERATE_DECIDUOUS_FOREST) ∧
          (16/100 < c.moisture → c.moisture ≤ 1/2 → getBiome c = Biome.GRASSLAND) ∧
          (c.moisture ≤ 16/100 → getBiome c = Biome.TEMPERATE_DESERT))) ∧
       (c.elevation ≤ 3/10 →
         ((66/100 < c.moisture → getBiome c = Biome.TROPICAL_RAIN_FOREST) ∧
          (33/100 < c.moisture → c.moisture ≤ 66/100 →
            getBiome c = Biome.TROPICAL_SEASONAL_FOREST) ∧
          (16/100 < c.moisture → c.moisture ≤ 33/100 → getBiome c = Biome.GRASSLAND) ∧
          (c.moisture ≤ 16/100 → getBiome c = Biome.SUBTROPICAL_DESERT))))) := by
  refine ⟨⟨getBiome c, rfl, fun y hy => hy.symm⟩, ?_, ?_, ?_, ?_⟩
  · intro ho
    simp [getBiome, ho]
  · intro ho hw
    refine ⟨fun he => ?_, fun he => ?_⟩ <;>
      (simp only [getBiome, Rat.mkRat_eq_div, ho, hw, Bool.false_eq_true, if_false, if_true];
       split_ifs <;> first | rfl | linarith)
  · intro ho hw hc
    simp only [getBiome, Rat.mkRat_eq_div, ho, hw, hc, Bool.false_eq_true, if_false, if_true]
  · intro ho hw hc
    refine ⟨fun he => ⟨fun hm => ?_, fun hm1 hm2 => ?_, fun hm1 hm2 => ?_, fun hm => ?_⟩,
      fun he1 he2 => ⟨fun hm => ?_, fun hm1 hm2 => ?_, fun hm => ?_⟩,
      fun he1 he2 => ⟨fun hm => ?_, fun hm1 hm2 => ?_, fun hm1 hm2 => ?_, fun hm => ?_⟩,
      fun he => ⟨fun hm => ?_, fun hm1 hm2 => ?_, fun hm1 hm2 => ?_, fun hm => ?_⟩⟩ <;>
      (simp only [getBiome, Rat.mkRat_eq_div, ho, hw, hc, Bool.false_eq_true, if_false];
       split_ifs <;> first | rfl | linarith)

set_option maxRecDepth 8000 in
/-- C7 as stated is false: `addExtraEdges` accepts up to
`max(1, floor(0.3 * treeEdges))` pairs, which exceeds `0.3 * treeEdges`
for small trees.  With the three towns of `townsT` the tree has 2 edges,
the bound is `max(1, 0) = 1`, and the single remaining pair is accepted,
while `0.3 * 2 = 0.6 < 1`. -/
theorem addExtraEdges_bound_counterexample :
    ¬ (∀ (md : MapData) (towns : List Town) (r : Random),
        (((addExtraEdges md towns (buildMST md towns) r).1.length : ℚ) ≤
          (3/10) * ((buildMST md towns).length : ℚ))) := by
  intro h
  have hx := h mdT townsT (Random.ofSeed 0)
  have h1 : (addExtraEdges mdT townsT (buildMST mdT townsT) (Random.ofSeed 0)).1.length = 1 := by
    decide
  have h2 : (buildMST mdT townsT).length = 2 := by
    decide
  rw [h1, h2] at hx
  norm_num at hx

/-- The accept loop never exceeds its cap (nor shrinks the accumulator). -/
theorem acceptExtras_length (maxE : ℕ) :
    ∀ (cands : List (ℕ × ℕ)) (r : Random) (extras : List (ℕ × ℕ)),
      (acceptExtras r maxE cands extras).1.length ≤ max maxE extras.length := by
  intro cands
  induction cands with
  | nil =>
    intro r extras
    simp [acceptExtras]
  | cons c cs ih =>
    intro r extras
    rw [acceptExtras]
    by_cases hm : maxE ≤ extras.length
    · rw [if_pos hm]
      exact le_max_right _ _
    · rw [if_neg hm]
      have hlen : extras.length + 1 ≤ maxE := Nat.succ_le_of_lt (Nat.lt_of_not_le hm)
      rcases hrn : r.next with ⟨u, r'⟩
      simp only [hrn]
      by_cases hu : u < mkRat 6 10
      · rw [if_pos hu]
        refine le_trans (ih r' (extras ++ [c])) ?_
        simp only [List.length_append, List.length_cons, List.length_nil]
        exact le_trans (max_le (le_max_left _ _) (le_trans hlen (le_max_left _ _)))
          (max_le (le_max_left _ _) (le_max_left _ _))
      · rw [if_neg hu]
        exact ih r' extras

/-- C7 amended: the number of extra pairs accepted by the road generator is
at most `max(1, floor(0.3 * treeEdgeCount))` (the claim holds whenever the
spanning tree has at least 4 edges; the `max(1, _)` floor is what the
counterexample forces). -/
theorem addExtraEdges_bound (md : MapData) (towns : List Town) (mst : List (ℕ × ℕ))
    (r : Random) :
    (addExtraEdges md towns mst r).1.length ≤
      max 1 (⌊(mst.length : ℚ) * (3/10)⌋.toNat) := by
  have hq : qfloor (qmul (mst.length : ℚ) (mkRat 3 10)) = ⌊(mst.length : ℚ) * (3/10)⌋ := by
    rw [qfloor_eq, qmul_eq, Rat.mkRat_eq_div]
    norm_num
  have h := acceptExtras_length (max 1 (qfloor (qmul (mst.length : ℚ) (mkRat 3 10))).toNat)
  rw [addExtraEdges]
  rw [← hq]
  refine le_trans (h _ _ []) ?_
  simp

/-- C1: `generateMap` is deterministic.  The embedding threads one explicit
seeded generator and the spec-modelled noise through the pipeline and reads
no other state (the external Delaunator triangulation, a pure function of
the points, is the `delaunay` parameter): two runs over identical
configurations agree on every flag, scalar, biome and river value at every
center, corner and edge index. -/
theorem generateMap_deterministic (delaunay : List Point → Triangulation) (cfg : MapConfig)
    (md1 md2 : MapData)
    (h1 : md1 = generateMap delaunay cfg) (h2 : md2 = generateMap delaunay cfg) :
    (∀ i : ℕ,
      (cAt md1 i).ocean = (cAt md2 i).ocean ∧
      (cAt md1 i).water = (cAt md2 i).water ∧
      (cAt md1 i).coast = (cAt md2 i).coast ∧
      (cAt md1 i).border = (cAt md2 i).border ∧
      (cAt md1 i).elevation = (cAt md2 i).elevation ∧
      (cAt md1 i).moisture = (cAt md2 i).moisture ∧
      (cAt md1 i).biome = (cAt md2 i).biome) ∧
    (∀ i : ℕ,
      (crAt md1 i).ocean = (crAt md2 i).ocean ∧
      (crAt md1 i).water = (crAt md2 i).water ∧
      (crAt md1 i).coast = (crAt md2 i).coast ∧
      (crAt md1 i).border = (crAt md2 i).border ∧
      (crAt md1 i).elevation = (crAt md2 i).elevation ∧
      (crAt md1 i).moisture = (crAt md2 i).moisture ∧
      (crAt md1 i).river = (crAt md2 i).river) ∧
    (∀ i : ℕ, (edAt md1 i).river = (edAt md2 i).river) := by
  rw [h1, h2]
  exact ⟨fun _ => ⟨rfl, rfl, rfl, rfl, rfl, rfl, rfl⟩,
    fun _ => ⟨rfl, rfl, rfl, rfl, rfl, rfl, rfl⟩, fun _ => rfl⟩

/-- Witness for C1: the two runs at a concrete configuration. -/
theorem generateMap_deterministic_witness :
    (cAt (generateMap delaunayW cfgW) 0).biome = (cAt (generateMap delaunayW cfgW) 0).biome :=
  (((generateMap_deterministic delaunayW cfgW _ _ rfl rfl).1) 0).2.2.2.2.2.2

/-! ### C2: settlement uniqueness and spacing -/

/-- `distSq` in standard arithmetic. -/
theorem distSq_eq (a b : Point) :
    distSq a b = (a.x - b.x) * (a.x - b.x) + (a.y - b.y) * (a.y - b.y) := by
  simp [distSq, qadd_eq, qmul_eq, qsub_eq]

theorem distSq_nonneg (a b : Point) : 0 ≤ distSq a b := by
  rw [distSq_eq]
  exact add_nonneg (mul_self_nonneg _) (mul_self_nonneg _)

theorem distSq_comm (a b : Point) : distSq a b = distSq b a := by
  rw [distSq_eq, distSq_eq]
  ring

/-- A failed `sqrt < minDistance` test bounds the squared distance from
below. -/
theorem sqrtLtB_false {s m : ℚ} (hs : 0 ≤ s) (h : sqrtLtB s m = false) (hm : 0 ≤ m) :
    m ^ 2 ≤ s := by
  rw [sqrtLtB] at h
  rcases eq_or_lt_of_le hm with hm0 | hmpos
  · rw [← hm0]
    simpa using hs
  · have : ¬ (s < qmul m m) := by
      intro hlt
      simp [decide_eq_true hmpos, decide_eq_true hlt] at h
    rw [qmul_eq] at this
    rw [pow_two]
    exact not_lt.mp this

/-- Members of a swap are members of the original list. -/
theorem listSwap_mem {α : Type} {l : List α} {i j : ℕ} {x : α}
    (h : x ∈ listSwap l i j) : x ∈ l := by
  unfold listSwap at h
  rcases hi : l[i]? with _ | a <;> rw [hi] at h
  · exact h
  · rcases hj : l[j]? with _ | b <;> rw [hj] at h
    · exact h
    · rcases List.mem_or_eq_of_mem_set h with h2 | h2
      · rcases List.mem_or_eq_of_mem_set h2 with h3 | h3
        · exact h3
        · subst h3
          exact List.getElem?_mem hj
      · subst h2
        exact List.getElem?_mem hi

/-- Unfolding of one Fisher-Yates step. -/
theorem shuffleGo_succ {α : Type} (r : Random) (l : List α) (i : ℕ) :
    shuffleGo (i + 1) r l =
      shuffleGo i (r.int 0 (i + 1)).2 (listSwap l (i + 1) (r.int 0 (i + 1)).1.toNat) := rfl

/-- Members of a Fisher-Yates pass are members of the input. -/
theorem shuffleGo_mem {α : Type} {x : α} :
    ∀ (i : ℕ) (r : Random) (l : List α), x ∈ (shuffleGo i r l).1 → x ∈ l := by
  intro i
  induction i with
  | zero => intro r l h; exact h
  | succ n ih =>
    intro r l h
    rw [shuffleGo_succ] at h
    exact listSwap_mem (ih _ _ h)

/-- Members of a shuffle are members of the input. -/
theorem shuffle_mem {α : Type} {x : α} {r : Random} {l : List α}
    (h : x ∈ (r.shuffle l).1) : x ∈ l := by
  rw [Random.shuffle] at h
  rcases hl : l.length with _ | n <;> rw [hl] at h
  · exact h
  · exact shuffleGo_mem n r l h

/-- A center returned by `findValidCenter` passed `isValidPlacement`. -/
theorem findValidCenter_sound {gen : TownGen} {ruleIdx : ℕ} {placed : List ℕ}
    {r r' : Random} {c : ℕ}
    (h : findValidCenter gen ruleIdx placed r = (some c, r')) :
    isValidPlacement gen.mapData gen.config.minDistance c placed = true := by
  unfold findValidCenter at h
  by_cases he : ((getCandidatesForRule gen (ruleAt gen.config ruleIdx)).filter
      (fun c => isValidPlacement gen.mapData gen.config.minDistance c placed)).isEmpty
  · rw [if_pos he] at h
    exact absurd h (by simp)
  · rw [if_neg he] at h
    rcases hsh : (r.shuffle ((getCandidatesForRule gen (ruleAt gen.config ruleIdx)).filter
        (fun c => isValidPlacement gen.mapData gen.config.minDistance c placed))) with ⟨sh, r2⟩
    rw [hsh] at h
    have hc : c ∈ sh := by
      rcases sh with _ | ⟨a, rest⟩
      · exact absurd h (by simp)
      · simp only [List.head?_cons, Option.some.injEq, Prod.mk.injEq] at h
        rw [← h.1]
        exact List.mem_cons_self _ _
    have hmem : c ∈ (getCandidatesForRule gen (ruleAt gen.config ruleIdx)).filter
        (fun c => isValidPlacement gen.mapData gen.config.minDistance c placed) := by
      exact @shuffle_mem ℕ c r _ (by rw [hsh]; exact hc)
    exact (List.mem_filter.mp hmem).2

/-- Placing a validated center preserves the invariant. -/
theorem placeTown_inv {gen : TownGen} {st : PlaceState} {c ri : ℕ} {r : Random}
    (hInv : PlacedInv gen.mapData gen.config.minDistance st)
    (hval : isValidPlacement gen.mapData gen.config.minDistance c st.placed = true) :
    PlacedInv gen.mapData gen.config.minDistance (placeTown gen st c ri r) := by
  obtain ⟨hmap, hpw⟩ := hInv
  rw [isValidPlacement, Bool.and_eq_true] at hval
  obtain ⟨hnotmem, hdists⟩ := hval
  have hc_not : c ∉ st.placed := by
    intro hmem
    simp [hmem] at hnotmem
  constructor
  · simp [placeTown, createTown, hmap]
  · rw [placeTown]
    simp only [List.pairwise_append]
    refine ⟨hpw, List.pairwise_singleton _ _, ?_⟩
    intro a ha b hb
    have hb' : b = (createTown gen.mapData gen.config r st.towns.length c ri).1 := by
      simpa using hb
    have hbc : b.center = c := by
      rw [hb', createTown]
    have hac : a.center ∈ st.placed := by
      rw [hmap]
      exact List.mem_map_of_mem _ ha
    constructor
    · intro heq
      rw [hbc] at heq
      exact hc_not (heq ▸ hac)
    · intro hm
      rw [hbc]
      have hdist := List.all_eq_true.mp hdists _ hac
      have : sqrtLtB (distSq (cAt gen.mapData c).point
          (cAt gen.mapData a.center).point) gen.config.minDistance = false := by
        simpa using hdist
      have hge := sqrtLtB_false (distSq_nonneg _ _) this hm
      rw [distSq_comm] at hge
      exact hge

/-- The pass-1 inner loop preserves the invariant. -/
theorem pass1Rule_inv {gen : TownGen} {ri : ℕ} :
    ∀ (needed : ℕ) (st : PlaceState),
      PlacedInv gen.mapData gen.config.minDistance st →
      PlacedInv gen.mapData gen.config.minDistance (pass1Rule gen ri needed st) := by
  intro needed
  induction needed with
  | zero => intro st h; exact h
  | succ k ih =>
    intro st h
    rw [pass1Rule]
    by_cases hlt : st.towns.length < gen.config.totalTowns
    · rw [if_pos hlt]
      rcases hfv : findValidCenter gen ri st.placed st.random with ⟨copt, r'⟩
      rcases copt with _ | c
      · exact ⟨h.1, h.2⟩
      · exact ih _ (placeTown_inv ⟨h.1, h.2⟩ (findValidCenter_sound hfv))
    · rw [if_neg hlt]
      exact h

/-- Pass 1 preserves the invariant. -/
theorem pass1_inv {gen : TownGen} (rules : List ℕ) (st : PlaceState)
    (h : PlacedInv gen.mapData gen.config.minDistance st) :
    PlacedInv gen.mapData gen.config.minDistance (pass1 gen rules st) := by
  induction rules generalizing st with
  | nil => exact h
  | cons ri rest ih =>
    rw [pass1, List.foldl_cons]
    exact ih _ (pass1Rule_inv _ _ h)

/-- One pass-2 step preserves the invariant. -/
theorem pass2Step_inv {gen : TownGen} {rules : List ℕ} {st st' : PlaceState}
    (h : PlacedInv gen.mapData gen.config.minDistance st)
    (hstep : pass2Step gen rules st = some st') :
    PlacedInv gen.mapData gen.config.minDistance st' := by
  rw [pass2Step] at hstep
  split at hstep
  · exact absurd hstep (by simp)
  · rename_i ri r1 heq
    split at hstep
    · rename_i c r2 heq2
      simp only [Option.some.injEq] at hstep
      exact hstep ▸ placeTown_inv h (findValidCenter_sound heq2)
    · rename_i r2 heq2
      split at hstep
      · exact absurd hstep (by simp)
      · rename_i fri hfb
        split at hstep
        · exact absurd hstep (by simp)
        · rename_i fc r3 heq3
          simp only [Option.some.injEq] at hstep
          exact hstep ▸ placeTown_inv h (findValidCenter_sound heq3)

/-- The pass-2 loop preserves the invariant. -/
theorem pass2Go_inv {gen : TownGen} {rules : List ℕ} :
    ∀ (gas : ℕ) (st : PlaceState),
      PlacedInv gen.mapData gen.config.minDistance st →
      PlacedInv gen.mapData gen.config.minDistance (pass2Go gen rules gas st) := by
  intro gas
  induction gas with
  | zero => intro st h; exact h
  | succ k ih =>
    intro st h
    rw [pass2Go]
    by_cases hlt : st.towns.length < gen.config.totalTowns
    · rw [if_pos hlt]
      rcases hstep : pass2Step gen rules st with _ | st'
      · exact h
      · exact ih _ (pass2Step_inv h hstep)
    · rw [if_neg hlt]
      exact h

/-- C2: in every `TownGenerator.generate` result, towns own pairwise
distinct centers, and whenever the configured `minDistance` is nonnegative
the pairwise center-to-center Euclidean distances are at least
`minDistance` (stated on squared distances, since the source compares
`sqrt(distSq) < minDistance`). -/
theorem townGenerator_spacing (md : MapData) (cfg : TownConfig) :
    (generateTowns md cfg).towns.Pairwise (fun a b =>
      a.center ≠ b.center ∧
      (0 ≤ cfg.minDistance →
        cfg.minDistance ^ 2 ≤ distSq (cAt md a.center).point (cAt md b.center).point)) := by
  have hgen : (mkTownGenerator md cfg).mapData = md := rfl
  have hcfg : (mkTownGenerator md cfg).config = cfg := rfl
  have h0 : PlacedInv (mkTownGenerator md cfg).mapData
      (mkTownGenerator md cfg).config.minDistance
      { towns := [], placed := [], random := (mkTownGenerator md cfg).random
        byType := ⟨0, 0, 0, 0⟩, rulesFullfilled := true } :=
    ⟨rfl, List.Pairwise.nil⟩
  have h1 := pass1_inv (sortedRuleIdxs (mkTownGenerator md cfg).config) _ h0
  have h2 := @pass2Go_inv (mkTownGenerator md cfg)
    (sortedRuleIdxs (mkTownGenerator md cfg).config)
    ((mkTownGenerator md cfg).config.totalTowns + 1) _ h1
  have := h2.2
  rw [hgen, hcfg] at this
  exact this

/-- Witness for C2: on the concrete `mdW2`/`cfgW2` run, the two placed towns
sit on distinct centers at squared distance at least `5^2`. -/
theorem townGenerator_spacing_witness :
    ∃ t0 t1 : Town, (generateTowns mdW2 cfgW2).towns = [t0, t1] ∧
      t0.center ≠ t1.center ∧
      (25 : ℚ) ≤ distSq (cAt mdW2 t0.center).point (cAt mdW2 t1.center).point := by
  have h := townGenerator_spacing mdW2 cfgW2
  have hts : (generateTowns mdW2 cfgW2).towns =
      [(generateTowns mdW2 cfgW2).towns.getD 0 tdefault,
       (generateTowns mdW2 cfgW2).towns.getD 1 tdefault] := by
    decide
  refine ⟨_, _, hts, ?_⟩
  rw [hts] at h
  have hp := (List.pairwise_cons.mp h).1 _ (List.mem_cons_self _ _)
  refine ⟨hp.1, ?_⟩
  have h25 : (0 : ℚ) ≤ cfgW2.minDistance := by
    rw [show cfgW2.minDistance = 5 from rfl]
    norm_num
  have := hp.2 h25
  rw [show cfgW2.minDistance = 5 from rfl] at this
  calc (25 : ℚ) = 5 ^ 2 := by norm_num
    _ ≤ _ := this

/-- `nmGet` returning a value means the pair is in the map. -/
theorem nmGet_mem {α : Type} {m : List (ℕ × α)} {k : ℕ} {v : α}
    (h : nmGet m k = some v) : (k, v) ∈ m := by
  rw [nmGet] at h
  rcases hf : m.find? (fun p => p.1 == k) with _ | p <;> rw [hf] at h
  · exact absurd h (by simp)
  · have hm := List.mem_of_find?_eq_some hf
    have hk : p.1 = k := by simpa using List.find?_some hf
    have hv : p.2 = v := by simpa using h
    have : (k, v) = p := by
      rcases p with ⟨a, b⟩
      simp only at hk hv
      rw [hk, hv]
    rw [this]
    exact hm

/-- Members of `nmSet m k v` are members of `m` or the new pair. -/
theorem nmSet_mem {α : Type} {m : List (ℕ × α)} {k : ℕ} {v : α} {p : ℕ × α}
    (h : p ∈ nmSet m k v) : p ∈ m ∨ p = (k, v) := by
  rw [nmSet] at h
  by_cases hc : m.any (fun q => q.1 == k) <;> simp only [hc, if_true, if_false,
    Bool.false_eq_true] at h
  · rcases List.mem_map.mp h with ⟨q, hq, hpq⟩
    by_cases hqk : (q.1 == k) = true
    · rw [if_pos hqk] at hpq
      exact Or.inr hpq.symm
    · rw [if_neg hqk] at hpq
      exact Or.inl (hpq ▸ hq)
  · rcases List.mem_append.mp h with h2 | h2
    · exact Or.inl h2
    · exact Or.inr (by simpa using h2)

/-- Members of `osAdd l j` are members of `l` or `j` itself. -/
theorem osAdd_mem {l : List ℕ} {j k : ℕ} (h : k ∈ osAdd l j) : k ∈ l ∨ k = j := by
  rw [osAdd] at h
  by_cases hc : l.contains j
  · rw [if_pos hc] at h
    exact Or.inl h
  · rw [if_neg hc] at h
    rcases List.mem_append.mp h with h2 | h2
    · exact Or.inl h2
    · exact Or.inr (by simpa using h2)

/-- The accumulator of the cheapest-node scan stays inside the scanned
list. -/
theorem argminF_foldl_mem {u : ℕ} {f : List (ℕ × ℚ)} :
    ∀ (l : List ℕ) (acc : Option ℕ × Option ℚ),
      ((l.foldl
        (fun (acc : Option ℕ × Option ℚ) idx =>
          if oltQ (nmGet f idx) acc.2 then (some idx, nmGet f idx) else acc)
        acc).1 = some u) →
      u ∈ l ∨ acc.1 = some u := by
  intro l
  induction l with
  | nil => intro acc h; exact Or.inr h
  | cons x xs ih =>
    intro acc h
    rw [List.foldl_cons] at h
    rcases ih _ h with h2 | h2
    · exact Or.inl (List.mem_cons_of_mem _ h2)
    · by_cases hc : oltQ (nmGet f x) acc.2 = true
      · rw [if_pos hc] at h2
        have : x = u := by simpa using h2
        exact Or.inl (this ▸ List.mem_cons_self _ _)
      · rw [if_neg hc] at h2
        exact Or.inr h2

/-- The cheapest node of the A* scan is a member of the open set. -/
theorem argminF_mem {f : List (ℕ × ℚ)} {os : List ℕ} {u : ℕ}
    (h : argminF f os = some u) : u ∈ os := by
  rw [argminF] at h
  rcases argminF_foldl_mem os (none, none) h with h2 | h2
  · exact h2
  · exact absurd h2 (by simp)

/-- Every element of a reconstructed path is the starting node or a stored
`cameFrom` value. -/
theorem recon_mem {cameFrom : List (ℕ × ℕ)} {P : ℕ → Prop}
    (hvals : ∀ p ∈ cameFrom, P p.2) :
    ∀ (fuel node : ℕ), P node → ∀ x ∈ recon cameFrom fuel node, P x := by
  intro fuel
  induction fuel with
  | zero =>
    intro node hn x hx
    simp only [recon, List.mem_singleton] at hx
    rw [hx]
    exact hn
  | succ m ih =>
    intro node hn x hx
    rw [recon] at hx
    rcases hg : nmGet cameFrom node with _ | p <;> rw [hg] at hx
    · simp only [List.mem_singleton] at hx
      rw [hx]
      exact hn
    · rcases List.mem_append.mp hx with h2 | h2
      · exact ih p (hvals _ (nmGet_mem hg)) x h2
      · simp only [List.mem_singleton] at h2
        rw [h2]
        exact hn

/-- `find?` over the duplicated range list. -/
theorem find_dup : ∀ (n i : ℕ),
    ((List.range n).map (fun p => (p, p))).find? (fun q => q.1 == i) =
      if i < n then some (i, i) else none := by
  intro n
  induction n with
  | zero => intro i; simp
  | succ m ih =>
    intro i
    rw [List.range_succ, List.map_append, List.find?_append, ih i]
    by_cases h : i < m
    · rw [if_pos h, if_pos (Nat.lt_succ_of_lt h)]
      rfl
    · rw [if_neg h]
      by_cases h2 : i = m
      · rw [if_pos (by omega)]
        subst h2
        simp
      · rw [if_neg (by omega)]
        simp [Ne.symm h2]

/-- With coherent center indices, `centerByIndex` maps every position to
itself. -/
theorem centerByIndexMap_eq {md : MapData}
    (hIdx : ∀ p, p < md.centers.length → (cAt md p).index = p) :
    centerByIndexMap md = (List.range md.centers.length).map (fun p => (p, p)) := by
  rw [centerByIndexMap]
  suffices h : ∀ n, n ≤ md.centers.length →
      (List.range n).foldl (fun m p => nmSet m (cAt md p).index p) [] =
        (List.range n).map (fun p => (p, p)) from h _ le_rfl
  intro n
  induction n with
  | zero => intro _; rfl
  | succ m ih =>
    intro hle
    rw [List.range_succ, List.foldl_append, List.map_append, ih (by omega)]
    simp only [List.foldl_cons, List.foldl_nil, List.map_cons, List.map_nil]
    rw [hIdx m (by omega), nmSet]
    have hany : (((List.range m).map (fun p => (p, p))).any (fun q => q.1 == m)) = false := by
      rw [List.any_eq_false]
      intro q hq
      rcases List.mem_map.mp hq with ⟨p, hp, hpq⟩
      have : p < m := List.mem_range.mp hp
      rw [← hpq]
      simp
      omega
    rw [hany]
    simp

/-- With coherent center indices, `centerByIndex.get(i)!` is `i`. -/
theorem cbiGet_eq {md : MapData}
    (hIdx : ∀ p, p < md.centers.length → (cAt md p).index = p)
    {i : ℕ} (h : i < md.centers.length) :
    cbiGet (centerByIndexMap md) i = i := by
  rw [cbiGet, centerByIndexMap_eq hIdx, nmGet, find_dup, if_pos h]
  rfl

/-- One neighbor relaxation preserves the A* invariant. -/
theorem astarRelaxStep_inv {md : MapData} {sp ep current npos : ℕ} {cc : Center}
    {endPt : Point} {s : AStarState}
    (hIdx : ∀ p, p < md.centers.length → (cAt md p).index = p)
    (hnp : npos < md.centers.length)
    (hcur : AStarOK md sp ep current)
    (hs : AStarInv md sp ep s) :
    AStarInv md sp ep (astarRelaxStep md current sp ep cc endPt s npos) := by
  rw [astarRelaxStep, hIdx npos hnp]
  by_cases ho : (cAt md npos).ocean = true
  · rw [if_pos ho]
    exact hs
  · rw [if_neg ho]
    by_cases hw : ((cAt md npos).water && npos != ep && npos != sp) = true
    · rw [if_pos hw]
      exact hs
    · rw [if_neg hw]
      have hOKn : AStarOK md sp ep npos := by
        right
        refine ⟨hnp, by simpa using ho, ?_⟩
        intro hwt
        by_contra hne
        push_neg at hne
        apply hw
        simp [hwt, hne.1, hne.2]
      split
      · exact hs
      · split
        · constructor
          · intro k hk
            rcases osAdd_mem hk with h2 | h2
            · exact hs.1 k h2
            · rw [h2]
              exact hOKn
          · intro p hp
            rcases nmSet_mem hp with h2 | h2
            · exact hs.2 p h2
            · rw [h2]
              exact ⟨hOKn, hcur⟩
        · exact hs

/-- The full neighbor relaxation preserves the A* invariant. -/
theorem astarRelax_inv {md : MapData} {sp ep current : ℕ} {cc : Center} {endPt : Point}
    {st : AStarState}
    (hIdx : ∀ p, p < md.centers.length → (cAt md p).index = p)
    (hnbrs : ∀ q ∈ cc.neighbors, q < md.centers.length)
    (hcur : AStarOK md sp ep current)
    (hst : AStarInv md sp ep st) :
    AStarInv md sp ep (astarRelax md current cc sp ep endPt st) := by
  rw [astarRelax]
  have main : ∀ (l : List ℕ), (∀ q ∈ l, q < md.centers.length) → ∀ (s : AStarState),
      AStarInv md sp ep s →
      AStarInv md sp ep (l.foldl (astarRelaxStep md current sp ep cc endPt) s) := by
    intro l
    induction l with
    | nil => intro _ s h; exact h
    | cons a as ih =>
      intro hr s h
      rw [List.foldl_cons]
      exact ih (fun q hq => hr q (List.mem_cons_of_mem _ hq)) _
        (astarRelaxStep_inv hIdx (hr a (List.mem_cons_self _ _)) hcur h)
  exact main cc.neighbors hnbrs st hst

/-- A continuing A* iteration preserves the invariant. -/
theorem astarStep_inv {md : MapData} {sp ep : ℕ} {endPt : Point}
    (hIdx : ∀ p, p < md.centers.length → (cAt md p).index = p)
    (hNbr : ∀ p, p < md.centers.length →
      ∀ q ∈ (cAt md p).neighbors, q < md.centers.length)
    (hsp : sp < md.centers.length)
    {st st' : AStarState} (hInv : AStarInv md sp ep st)
    (hstep : astarStep md (centerByIndexMap md) sp ep endPt st = Sum.inr st') :
    AStarInv md sp ep st' := by
  rw [astarStep] at hstep
  by_cases he : st.openSet.isEmpty
  · rw [if_pos he] at hstep
    exact absurd hstep (by simp)
  · rw [if_neg he] at hstep
    split at hstep
    · exact absurd hstep (by simp)
    · rename_i current hmin
      by_cases hce : (current == ep) = true
      · rw [if_pos hce] at hstep
        exact absurd hstep (by simp)
      · rw [if_neg hce] at hstep
        have hcur : AStarOK md sp ep current := hInv.1 current (argminF_mem hmin)
        have hclt : current < md.centers.length := by
          rcases hcur with h2 | h2
          · rw [h2]; exact hsp
          · exact h2.1
        have hInv1 : AStarInv md sp ep { st with openSet := st.openSet.erase current } := by
          refine ⟨?_, hInv.2⟩
          intro k hk
          exact hInv.1 k (List.mem_of_mem_erase hk)
        simp only [Sum.inr.injEq] at hstep
        rw [← hstep, cbiGet_eq hIdx hclt]
        exact astarRelax_inv hIdx (hNbr current hclt) hcur hInv1

/-- A successful A* exit yields a path of legitimate elements. -/
theorem astarStep_path {md : MapData} {sp ep : ℕ} {endPt : Point}
    {st : AStarState} {idxs : List ℕ}
    (hInv : AStarInv md sp ep st)
    (hstep : astarStep md (centerByIndexMap md) sp ep endPt st = Sum.inl (some idxs)) :
    ∀ x ∈ idxs, AStarOK md sp ep x := by
  rw [astarStep] at hstep
  by_cases he : st.openSet.isEmpty
  · rw [if_pos he] at hstep
    exact absurd hstep (by simp)
  · rw [if_neg he] at hstep
    split at hstep
    · exact absurd hstep (by simp)
    · rename_i current hmin
      by_cases hce : (current == ep) = true
      · rw [if_pos hce] at hstep
        simp only [Sum.inl.injEq, Option.some.injEq] at hstep
        rw [← hstep]
        have hcur : AStarOK md sp ep current := hInv.1 current (argminF_mem hmin)
        have hepOK : AStarOK md sp ep ep := by
          have hc2 : current = ep := by simpa using hce
          exact hc2 ▸ hcur
        exact recon_mem (fun p hp => (hInv.2 p hp).2) _ ep hepOK
      · rw [if_neg hce] at hstep
        exact absurd hstep (by simp)

/-- Every successful run of the fueled A* loop yields a path of legitimate
elements. -/
theorem astarLoop_path {md : MapData} {sp ep : ℕ} {endPt : Point}
    (hIdx : ∀ p, p < md.centers.length → (cAt md p).index = p)
    (hNbr : ∀ p, p < md.centers.length →
      ∀ q ∈ (cAt md p).neighbors, q < md.centers.length)
    (hsp : sp < md.centers.length) :
    ∀ (fuel : ℕ) (st : AStarState), AStarInv md sp ep st →
      ∀ {idxs : List ℕ},
        astarLoop md (centerByIndexMap md) sp ep endPt fuel st = some idxs →
        ∀ x ∈ idxs, AStarOK md sp ep x := by
  intro fuel
  induction fuel with
  | zero =>
    intro st _ idxs h
    exact absurd h (by simp [astarLoop])
  | succ n ih =>
    intro st hInv idxs h
    rw [astarLoop] at h
    split at h
    · rename_i r hs
      rw [h] at hs
      exact astarStep_path hInv hs
    · rename_i st' hs
      exact ih st' (astarStep_inv hIdx hNbr hsp hInv hs) h

/-- C9 amended: under coherent center indices and in-range neighbor lists,
every index of a path resolved by the A* search of `findPath` is either the
start position itself (which the source never checks, so it may be ocean or
water), or an in-range non-ocean position that, when inland water, is the
start or end position.  The claim as stated is false at the start position:
`findPath_visits_ocean_counterexample` exhibits an A*-resolved road path
through an ocean start region. -/
theorem astar_path_water_soundness (md : MapData) (sp ep : ℕ)
    (hIdx : ∀ p, p < md.centers.length → (cAt md p).index = p)
    (hNbr : ∀ p, p < md.centers.length →
      ∀ q ∈ (cAt md p).neighbors, q < md.centers.length)
    (hsp : sp < md.centers.length) (hep : ep < md.centers.length)
    {idxs : List ℕ} (h : findPathCore md sp ep = some idxs) :
    ∀ x ∈ idxs, AStarOK md sp ep x := by
  simp only [findPathCore] at h
  rw [hIdx sp hsp, hIdx ep hep] at h
  have h0 : AStarInv md sp ep
      { openSet := [sp], cameFrom := [],
        gScore := [(sp, 0)],
        fScore := [(sp, euclidean (cAt md sp).point (cAt md ep).point)] } := by
    constructor
    · intro k hk
      simp only [List.mem_singleton] at hk
      rw [hk]
      exact Or.inl rfl
    · intro p hp
      exact absurd hp (List.not_mem_nil p)
  exact astarLoop_path hIdx hNbr hsp _ _ h0 h

/-- Witness for the amended C9 on the two-land-center map: both positions of
the resolved path `[0, 1]` satisfy the soundness predicate. -/
theorem astar_path_water_soundness_witness :
    AStarOK mdA 0 1 0 ∧ AStarOK mdA 0 1 1 := by
  have h := @astar_path_water_soundness mdA 0 1 (by decide) (by decide) (by decide)
    (by decide) [0, 1] (by decide)
  exact ⟨h 0 (by decide), h 1 (by decide)⟩

/-- C9 as stated is false: the A* of `findPath` never checks the start
region, so a road resolved by A* can start at an ocean region.  On `mdO`
(center 0 ocean, center 1 land) with a town on each, the single
spanning-tree road is A*-resolved (not a fallback) and its path visits the
ocean region's point. -/
theorem findPath_visits_ocean_counterexample :
    (cAt mdO 0).ocean = true ∧
    findPathCore mdO 0 1 = some [0, 1] ∧
    (generateRoads townsO mdO 0).roads.map (fun r => r.path) =
      [[(cAt mdO 0).point, (cAt mdO 1).point]] := by
  decide

/-- One best-deficit scan step preserves the scan invariant. -/
theorem selectFoldStep_inv {gen : TownGen} {towns : List Town} {processed : List ℕ}
    {acc : Option ℕ × Option ℤ} (h : SelInv gen towns processed acc) (ri : ℕ) :
    SelInv gen towns (processed ++ [ri]) (selectFoldStep gen towns acc ri) := by
  have hcond : ((ruleAt gen.config ri).maxCount > 0 &&
      ruleCount towns ri ≥ (ruleAt gen.config ri).maxCount : Bool) =
      !(ruleEligible gen towns ri) := by
    rw [ruleEligible, Bool.not_not]
  rw [selectFoldStep, hcond]
  by_cases helig : ruleEligible gen towns ri = true
  · rw [helig]
    simp only [Bool.not_true, Bool.false_eq_true, if_false]
    rcases acc with ⟨aopt, adopt⟩
    rcases aopt with _ | ra
    · obtain ⟨hd, hall⟩ := h
      subst hd
      simp only [dltO, if_true]
      refine ⟨rfl, List.mem_append_right _ (by simp), helig, ?_⟩
      intro rj hrj hej
      rcases List.mem_append.mp hrj with h2 | h2
      · exact absurd (hall rj h2) (by simp [hej])
      · have h3 : rj = ri := by simpa using h2
        rw [h3]
    · obtain ⟨hd, hmem, hel, hmax⟩ := h
      subst hd
      simp only [dltO]
      by_cases hlt : ruleDeficit gen towns ra < ruleDeficit gen towns ri
      · rw [if_pos (decide_eq_true hlt)]
        refine ⟨rfl, List.mem_append_right _ (by simp), helig, ?_⟩
        intro rj hrj hej
        rcases List.mem_append.mp hrj with h2 | h2
        · exact le_of_lt (lt_of_le_of_lt (hmax rj h2 hej) hlt)
        · have h3 : rj = ri := by simpa using h2
          rw [h3]
      · rw [if_neg (by simpa using hlt)]
        refine ⟨rfl, List.mem_append_left _ hmem, hel, ?_⟩
        intro rj hrj hej
        rcases List.mem_append.mp hrj with h2 | h2
        · exact hmax rj h2 hej
        · have h3 : rj = ri := by simpa using h2
          rw [h3]
          exact le_of_not_lt hlt
  · have helig' : ruleEligible gen towns ri = false := by
      simpa using helig
    rw [helig']
    simp only [Bool.not_false, if_true]
    rcases acc with ⟨aopt, adopt⟩
    rcases aopt with _ | ra
    · obtain ⟨hd, hall⟩ := h
      refine ⟨hd, ?_⟩
      intro rj hrj
      rcases List.mem_append.mp hrj with h2 | h2
      · exact hall rj h2
      · have h3 : rj = ri := by simpa using h2
        rw [h3]
        exact helig'
    · obtain ⟨hd, hmem, hel, hmax⟩ := h
      refine ⟨hd, List.mem_append_left _ hmem, hel, ?_⟩
      intro rj hrj hej
      rcases List.mem_append.mp hrj with h2 | h2
      · exact hmax rj h2 hej
      · have h3 : rj = ri := by simpa using h2
        rw [h3] at hej
        exact absurd hej (by simp [helig'])

/-- The whole best-deficit scan satisfies the scan invariant. -/
theorem selectFold_spec (gen : TownGen) (towns : List Town) (rules : List ℕ) :
    SelInv gen towns rules (rules.foldl (selectFoldStep gen towns) (none, none)) := by
  have main : ∀ (rs processed : List ℕ) (acc : Option ℕ × Option ℤ),
      SelInv gen towns processed acc →
      SelInv gen towns (processed ++ rs) (rs.foldl (selectFoldStep gen towns) acc) := by
    intro rs
    induction rs with
    | nil =>
      intro processed acc h
      simpa using h
    | cons a as ih =>
      intro processed acc h
      rw [List.foldl_cons]
      have h2 := ih (processed ++ [a]) _ (selectFoldStep_inv h a)
      simpa [List.append_assoc] using h2
  have h0 : SelInv gen towns [] ((none, none) : Option ℕ × Option ℤ) :=
    ⟨rfl, fun x hx => absurd hx (List.not_mem_nil x)⟩
  have h := main rules [] (none, none) h0
  simpa using h

/-- C8 amended: whenever some rule below its max count is strictly under its
target (positive deficit), the rule `selectRuleByTarget` picks for the next
pass-2 town is an eligible rule of maximal deficit.  Without that proviso the
claim fails: `selectRuleByTarget_counterexample` shows the
all-deficits-nonpositive branch picking a rule of strictly smaller deficit
uniformly at random among available rules. -/
theorem selectRuleByTarget_max_deficit (gen : TownGen) (towns : List Town)
    (rules : List ℕ) (r : Random) (ri : ℕ)
    (hpos : ∃ rj ∈ rules, ruleEligible gen towns rj = true ∧ 0 < ruleDeficit gen towns rj)
    (h : (selectRuleByTarget gen towns rules r).1 = some ri) :
    ri ∈ rules ∧ ruleEligible gen towns ri = true ∧
      ∀ rj ∈ rules, ruleEligible gen towns rj = true →
        ruleDeficit gen towns rj ≤ ruleDeficit gen towns ri := by
  obtain ⟨rj, hrj, heligj, hdefj⟩ := hpos
  have hinv := selectFold_spec gen towns rules
  rcases hfold : rules.foldl (selectFoldStep gen towns) (none, none) with ⟨bopt, dopt⟩
  rw [hfold] at hinv
  rcases bopt with _ | ri'
  · obtain ⟨-, hall⟩ := hinv
    exact absurd (hall rj hrj) (by simp [heligj])
  · obtain ⟨hdopt, hmem, helig', hmax⟩ := hinv
    subst hdopt
    have hdpos : 0 < ruleDeficit gen towns ri' :=
      lt_of_lt_of_le hdefj (hmax rj hrj heligj)
    simp only [selectRuleByTarget] at h
    rw [hfold] at h
    simp only [dltO, decide_eq_false (not_le.mpr hdpos), Bool.false_eq_true, if_false] at h
    have h2 : ri' = ri := by simpa using h
    rw [← h2]
    exact ⟨hmem, helig', hmax⟩

/-- Witness for the amended C8: with no town placed yet both rules have
deficit 2, and the scan returns the first maximal-deficit rule. -/
theorem selectRuleByTarget_max_deficit_witness :
    (0 : ℕ) ∈ [0, 1] ∧ ruleEligible genS ([] : List Town) 0 = true ∧
      ∀ rj ∈ [(0 : ℕ), 1], ruleEligible genS ([] : List Town) rj = true →
        ruleDeficit genS [] rj ≤ ruleDeficit genS [] 0 :=
  selectRuleByTarget_max_deficit genS [] [0, 1] (Random.ofSeed 0) 0
    ⟨0, by decide, by decide, by decide⟩ (by decide)

/-- C8 as stated is false: when every eligible rule's deficit is
nonpositive, `selectRuleByTarget` picks uniformly among the available rules
rather than a maximal-deficit one.  On `genS`/`townsS`, rule 1 is eligible
with deficit 0, yet the draw returns rule 0 whose deficit is -1. -/
theorem selectRuleByTarget_counterexample :
    (selectRuleByTarget genS townsS [0, 1] (Random.ofSeed 0)).1 = some 0 ∧
    ruleEligible genS townsS 1 = true ∧
    ruleDeficit genS townsS 0 < ruleDeficit genS townsS 1 := by
  decide

/-- `getD` after `set` in one case split. -/
theorem getD_set_cases {α : Type} (l : List α) (i j : ℕ) (a d : α) :
    (l.set i a).getD j d = if i = j ∧ j < l.length then a else l.getD j d := by
  by_cases hij : i = j
  · subst hij
    by_cases hlen : i < l.length
    · rw [if_pos ⟨rfl, hlen⟩, List.getD_eq_getElem _ _ (by simpa using hlen),
        List.getElem_set_self]
    · rw [if_neg (by tauto), List.set_eq_of_length_le (by omega)]
  · rw [if_neg (by tauto), List.getD, List.get?_set_ne a l hij, List.getD]

/-- `getD` of a replicated list. -/
theorem getD_replicate {α : Type} {n i : ℕ} (a d : α) :
    (List.replicate n a).getD i d = if i < n then a else d := by
  by_cases h : i < n
  · rw [if_pos h, List.getD_eq_getElem _ _ (by simpa using h), List.getElem_replicate]
  · rw [if_neg h, List.getD, List.get?_eq_none.mpr (by simpa using h)]
    rfl

/-- Reachability is monotone in the edge list. -/
theorem EReach_mono {E E' : List (ℕ × ℕ)} (hsub : ∀ e ∈ E, e ∈ E') {a b : ℕ}
    (h : EReach E a b) : EReach E' a b := by
  refine Relation.ReflTransGen.mono ?_ h
  intro x y hxy
  rcases hxy with h2 | h2
  · exact Or.inl (hsub _ h2)
  · exact Or.inr (hsub _ h2)

/-- Undirected reachability is symmetric. -/
theorem EReach_symm {E : List (ℕ × ℕ)} {a b : ℕ} (h : EReach E a b) : EReach E b a := by
  induction h with
  | refl => exact Relation.ReflTransGen.refl
  | tail hab hbc ih =>
    exact Relation.ReflTransGen.head (Or.symm hbc) ih

/-- Unfolding of the scan step at an empty accumulator. -/
theorem mstPickStep_none (inMST : List ℕ) (mc : List (Option ℚ)) (v : ℕ) :
    mstPickStep inMST mc none v = if inMST.contains v then none else some v := rfl

/-- Unfolding of the scan step at a held candidate. -/
theorem mstPickStep_some (inMST : List ℕ) (mc : List (Option ℚ)) (u0 v : ℕ) :
    mstPickStep inMST mc (some u0) v =
      if inMST.contains v then some u0
      else if oltQ (mc.getD v none) (mc.getD u0 none) then some v else some u0 := rfl

/-- The cheapest-vertex scan only ever holds an in-range vertex outside the
tree. -/
theorem mstPick_fold_spec {inMST : List ℕ} {mc : List (Option ℚ)} {n : ℕ} :
    ∀ (l : List ℕ) (acc : Option ℕ), (∀ v ∈ l, v < n) →
      (acc = none ∨ ∃ w, acc = some w ∧ w < n ∧ w ∉ inMST) →
      (l.foldl (mstPickStep inMST mc) acc = none ∨
        ∃ w, l.foldl (mstPickStep inMST mc) acc = some w ∧ w < n ∧ w ∉ inMST) := by
  intro l
  induction l with
  | nil => intro acc _ h; exact h
  | cons v vs ih =>
    intro acc hl h
    rw [List.foldl_cons]
    refine ih _ (fun w hw => hl w (List.mem_cons_of_mem _ hw)) ?_
    have hvn : v < n := hl v (List.mem_cons_self _ _)
    rcases h with h | ⟨w, hw, hwn, hwm⟩
    · rw [h, mstPickStep_none]
      by_cases hc : inMST.contains v = true
      · rw [if_pos hc]
        exact Or.inl rfl
      · rw [if_neg hc]
        exact Or.inr ⟨v, rfl, hvn, fun hm => hc (List.elem_iff.mpr hm)⟩
    · rw [hw, mstPickStep_some]
      by_cases hc : inMST.contains v = true
      · rw [if_pos hc]
        exact Or.inr ⟨w, rfl, hwn, hwm⟩
      · rw [if_neg hc]
        by_cases ho : oltQ (mc.getD v none) (mc.getD w none) = true
        · rw [if_pos ho]
          exact Or.inr ⟨v, rfl, hvn, fun hm => hc (List.elem_iff.mpr hm)⟩
        · rw [if_neg ho]
          exact Or.inr ⟨w, rfl, hwn, hwm⟩

/-- A successful pick is in range and outside the tree. -/
theorem mstPick_spec {inMST : List ℕ} {mc : List (Option ℚ)} {n u : ℕ}
    (h : mstPick inMST mc n = some u) : u < n ∧ u ∉ inMST := by
  rcases mstPick_fold_spec (List.range n) none (fun v hv => List.mem_range.mp hv)
      (Or.inl rfl) with h2 | ⟨w, hw, hwn, hwm⟩
  · rw [mstPick] at h
    rw [h2] at h
    exact absurd h (by simp)
  · rw [mstPick] at h
    rw [hw] at h
    have : w = u := by simpa using h
    exact this ▸ ⟨hwn, hwm⟩

/-- The scan cannot return `none` while an in-range vertex is missing. -/
theorem mstPick_progress {inMST : List ℕ} {mc : List (Option ℚ)} {n : ℕ}
    (hex : ∃ v, v < n ∧ v ∉ inMST) : mstPick inMST mc n ≠ none := by
  obtain ⟨v, hvn, hvm⟩ := hex
  have main : ∀ (l : List ℕ) (acc : Option ℕ),
      (acc ≠ none ∨ ∃ w ∈ l, w ∉ inMST) →
      l.foldl (mstPickStep inMST mc) acc ≠ none := by
    intro l
    induction l with
    | nil =>
      intro acc h
      rcases h with h | ⟨w, hw, _⟩
      · exact h
      · exact absurd hw (List.not_mem_nil w)
    | cons a as ih =>
      intro acc h
      rw [List.foldl_cons]
      refine ih _ ?_
      by_cases hc : inMST.contains a = true
      · have hstep : mstPickStep inMST mc acc a = acc := by
          rcases acc with _ | u0
          · rw [mstPickStep_none, if_pos hc]
          · rw [mstPickStep_some, if_pos hc]
        rw [hstep]
        rcases h with h | ⟨w, hw, hwm⟩
        · exact Or.inl h
        · rcases List.mem_cons.mp hw with h2 | h2
          · exact absurd (List.elem_iff.mp hc) (h2 ▸ hwm)
          · exact Or.inr ⟨w, h2, hwm⟩
      · left
        rcases acc with _ | u0
        · rw [mstPickStep_none, if_neg hc]
          simp
        · rw [mstPickStep_some, if_neg hc]
          split <;> simp
  exact main (List.range n) none (Or.inr ⟨v, List.mem_range.mpr hvn, hvm⟩)

/-- From the freshly initialized cost array the scan picks vertex 0. -/
theorem mstPick_init {n : ℕ} (hn : n ≠ 0) :
    mstPick [] ((List.replicate n (none : Option ℚ)).set 0 (some 0)) n = some 0 := by
  obtain ⟨m, rfl⟩ : ∃ m, n = m + 1 := ⟨n - 1, by omega⟩
  rw [mstPick, List.range_succ_eq_map, List.foldl_cons]
  have h0 : mstPickStep [] ((List.replicate (m + 1) (none : Option ℚ)).set 0 (some 0))
      none 0 = some 0 := rfl
  rw [h0]
  clear h0
  have main : ∀ (l : List ℕ), (∀ v ∈ l, v ≠ 0) →
      l.foldl (mstPickStep [] ((List.replicate (m + 1) (none : Option ℚ)).set 0 (some 0)))
        (some 0) = some 0 := by
    intro l
    induction l with
    | nil => intro _; rfl
    | cons a as ih =>
      intro hl
      rw [List.foldl_cons, mstPickStep_some]
      have ha : a ≠ 0 := hl a (List.mem_cons_self _ _)
      have hcost : ((List.replicate (m + 1) (none : Option ℚ)).set 0 (some 0)).getD a none
          = none := by
        rw [getD_set_cases]
        rw [if_neg (by tauto)]
        rw [getD_replicate]
        split <;> rfl
      rw [if_neg (by simp), hcost]
      have hred : (if oltQ none
            (((List.replicate (m + 1) (none : Option ℚ)).set 0 (some 0)).getD 0 none) = true
          then some a else some 0) = some 0 := rfl
      rw [hred]
      exact ih (fun v hv => hl v (List.mem_cons_of_mem _ hv))
  refine main _ ?_
  intro v hv
  rcases List.mem_map.mp hv with ⟨w, _, hw⟩
  omega

/-- The Prim update step changes neither the tree nor the edge list, and
keeps the array lengths. -/
theorem mstUpdateStep_frame (md : MapData) (towns : List Town) (u : ℕ) (s : MSTState)
    (v : ℕ) :
    (mstUpdateStep md towns u s v).inMST = s.inMST ∧
    (mstUpdateStep md towns u s v).edges = s.edges ∧
    (mstUpdateStep md towns u s v).minCost.length = s.minCost.length ∧
    (mstUpdateStep md towns u s v).minEdge.length = s.minEdge.length := by
  rw [mstUpdateStep]
  split
  · exact ⟨rfl, rfl, rfl, rfl⟩
  · split
    · exact ⟨rfl, rfl, by simp, by simp⟩
    · exact ⟨rfl, rfl, rfl, rfl⟩

/-- The whole Prim update fold changes neither the tree nor the edge list,
and keeps the array lengths. -/
theorem mstUpdateFold_frame (md : MapData) (towns : List Town) (u : ℕ) :
    ∀ (l : List ℕ) (s : MSTState),
      ((l.foldl (mstUpdateStep md towns u) s).inMST = s.inMST ∧
       (l.foldl (mstUpdateStep md towns u) s).edges = s.edges ∧
       (l.foldl (mstUpdateStep md towns u) s).minCost.length = s.minCost.length ∧
       (l.foldl (mstUpdateStep md towns u) s).minEdge.length = s.minEdge.length) := by
  intro l
  induction l with
  | nil => intro s; exact ⟨rfl, rfl, rfl, rfl⟩
  | cons a as ih =>
    intro s
    rw [List.foldl_cons]
    obtain ⟨h1, h2, h3, h4⟩ := ih (mstUpdateStep md towns u s a)
    obtain ⟨g1, g2, g3, g4⟩ := mstUpdateStep_frame md towns u s a
    exact ⟨h1.trans g1, h2.trans g2, h3.trans g3, h4.trans g4⟩

/-- The update step keeps every recorded parent inside the tree, as long as
`u` is a tree vertex. -/
theorem mstUpdateStep_targets {md : MapData} {towns : List Town} {u : ℕ} {s : MSTState}
    (hu : u ∈ s.inMST)
    (h : ∀ w p, s.minEdge.getD w none = some p → p ∈ s.inMST) (v : ℕ) :
    ∀ w p, (mstUpdateStep md towns u s v).minEdge.getD w none = some p →
      p ∈ (mstUpdateStep md towns u s v).inMST := by
  obtain ⟨hi, -, -, -⟩ := mstUpdateStep_frame md towns u s v
  rw [hi, mstUpdateStep]
  split
  · exact h
  · split
    · intro w p hw
      rw [getD_set_cases] at hw
      by_cases hvw : v = w ∧ w < s.minEdge.length
      · rw [if_pos hvw] at hw
        have : p = u := by simpa using hw.symm
        exact this ▸ hu
      · rw [if_neg hvw] at hw
        exact h w p hw
    · exact h

/-- The update fold keeps every recorded parent inside the tree. -/
theorem mstUpdateFold_targets {md : MapData} {towns : List Town} {u : ℕ} :
    ∀ (l : List ℕ) (s : MSTState), u ∈ s.inMST →
      (∀ w p, s.minEdge.getD w none = some p → p ∈ s.inMST) →
      ∀ w p, (l.foldl (mstUpdateStep md towns u) s).minEdge.getD w none = some p →
        p ∈ (l.foldl (mstUpdateStep md towns u) s).inMST := by
  intro l
  induction l with
  | nil => intro s _ h; exact h
  | cons a as ih =>
    intro s hu h
    rw [List.foldl_cons]
    obtain ⟨hi, -, -, -⟩ := mstUpdateStep_frame md towns u s a
    exact ih _ (hi ▸ hu) (fun w p hw => (hi.symm ▸ mstUpdateStep_targets hu h a w p hw))

/-- The update step never erases a recorded parent. -/
theorem mstUpdateStep_isSome {md : MapData} {towns : List Town} {u : ℕ} {s : MSTState}
    {w : ℕ} (h : (s.minEdge.getD w none).isSome = true) (v : ℕ) :
    ((mstUpdateStep md towns u s v).minEdge.getD w none).isSome = true := by
  rw [mstUpdateStep]
  split
  · exact h
  · split
    · rw [getD_set_cases]
      split
      · rfl
      · exact h
    · exact h

/-- The update fold never erases a recorded parent. -/
theorem mstUpdateFold_isSome {md : MapData} {towns : List Town} {u : ℕ} :
    ∀ (l : List ℕ) (s : MSTState) (w : ℕ),
      (s.minEdge.getD w none).isSome = true →
      (((l.foldl (mstUpdateStep md towns u) s).minEdge).getD w none).isSome = true := by
  intro l
  induction l with
  | nil => intro s w h; exact h
  | cons a as ih =>
    intro s w h
    rw [List.foldl_cons]
    exact ih _ w (mstUpdateStep_isSome h a)

/-- After the update fold, every processed out-of-tree vertex whose cost slot
was still empty (or whose parent was already recorded) has a recorded
parent. -/
theorem mstUpdateFold_covers {md : MapData} {towns : List Town} {u : ℕ} :
    ∀ (l : List ℕ) (s : MSTState),
      (∀ v ∈ l, v < s.minEdge.length) →
      (∀ v ∈ l, v ∉ s.inMST →
        (s.minCost.getD v none = none ∨ (s.minEdge.getD v none).isSome = true)) →
      ∀ v ∈ l, v ∉ s.inMST →
        (((l.foldl (mstUpdateStep md towns u) s).minEdge).getD v none).isSome = true := by
  intro l
  induction l with
  | nil => intro s _ _ v hv; exact absurd hv (List.not_mem_nil v)
  | cons a as ih =>
    intro s hlen hdisj v hv hvm
    rw [List.foldl_cons]
    obtain ⟨hfi, -, -, hfe⟩ := mstUpdateStep_frame md towns u s a
    have hstep_some : ∀ w, w ∈ a :: as → w ∉ s.inMST → w = a →
        ((mstUpdateStep md towns u s a).minEdge.getD a none).isSome = true := by
      intro w hw hwm hwa
      subst hwa
      rw [mstUpdateStep]
      rw [if_neg (by simpa [List.elem_iff] using hwm)]
      rcases hdisj w hw hwm with hc | hc
      · have hT : oltQ (some (euclidean (townCenterPt md towns u) (townCenterPt md towns w)))
            none = true := rfl
        rw [hc, if_pos hT, getD_set_cases, if_pos ⟨rfl, hlen w hw⟩]
        rfl
      · split
        · rw [getD_set_cases]
          split
          · rfl
          · exact hc
        · exact hc
    rcases eq_or_ne v a with hva | hva
    · subst hva
      exact mstUpdateFold_isSome as _ v (hstep_some v hv hvm rfl)
    · refine ih _ ?_ ?_ v (by rcases List.mem_cons.mp hv with h | h; exact absurd h hva; exact h) (hfi ▸ hvm)
      · intro w hw
        rw [hfe]
        exact hlen w (List.mem_cons_of_mem _ hw)
      · intro w hw hwm
        rw [hfi] at hwm
        rcases eq_or_ne w a with hwa | hwa
        · subst hwa
          exact Or.inr (hstep_some w (List.mem_cons_of_mem _ hw) hwm rfl)
        · rcases hdisj w (List.mem_cons_of_mem _ hw) hwm with hc | hc
          · left
            rw [mstUpdateStep]
            split
            · exact hc
            · split
              · rw [getD_set_cases, if_neg (by tauto)]
                exact hc
              · exact hc
          · exact Or.inr (mstUpdateStep_isSome hc a)

/-- One Prim iteration preserves the invariant, and grows the tree by one
vertex while an in-range vertex is missing. -/
theorem mstIter_inv {md : MapData} {towns : List Town} {st : MSTState}
    (hInv : MSTInv towns.length st) :
    MSTInv towns.length (mstIter md towns st) ∧
    ((∃ v, v < towns.length ∧ v ∉ st.inMST) →
      (mstIter md towns st).inMST.length = st.inMST.length + 1) := by
  obtain ⟨hnd, hbd, hlc, hle, htg, heb, hpw, hlast⟩ := hInv
  rcases hpick : mstPick st.inMST st.minCost towns.length with _ | u
  · have hit : mstIter md towns st = st := by
      rw [mstIter, hpick]
    rw [hit]
    refine ⟨⟨hnd, hbd, hlc, hle, htg, heb, hpw, hlast⟩, ?_⟩
    intro hex
    exact absurd hpick (mstPick_progress hex)
  · obtain ⟨hun, hum⟩ := mstPick_spec hpick
    have hit : mstIter md towns st =
        (List.range towns.length).foldl (mstUpdateStep md towns u)
          { st with
            inMST := st.inMST ++ [u],
            edges := match st.minEdge.getD u none with
              | none => st.edges
              | some p => st.edges ++ [(u, p)] } := by
      rw [mstIter, hpick]
    rw [hit]
    rcases hlast with ⟨hempty, hmc0, hme0⟩ | hcov
    · have hn0 : towns.length ≠ 0 := by omega
      have hu0 : u = 0 := by
        rw [hempty, hmc0, mstPick_init hn0] at hpick
        simpa using hpick.symm
      have h1 : st.minEdge.getD u none = none := by
        rw [hme0, getD_replicate]
        split <;> rfl
      have hedge : (match st.minEdge.getD u none with
          | none => st.edges | some p => st.edges ++ [(u, p)]) = st.edges := by
        rw [h1]
      rw [hedge]
      obtain ⟨hfI, hfE, hfC, hfEl⟩ := mstUpdateFold_frame md towns u
        (List.range towns.length) { st with inMST := st.inMST ++ [u], edges := st.edges }
      constructor
      · refine ⟨?_, ?_, ?_, ?_, ?_, ?_, ?_, Or.inr ?_⟩
        · rw [hfI, hempty]
          simp
        · rw [hfI]
          intro v hv
          rcases List.mem_append.mp hv with h2 | h2
          · exact hbd v h2
          · have h3 : v = u := List.mem_singleton.mp h2
            omega
        · rw [hfC]
          exact hlc
        · rw [hfEl]
          exact hle
        · refine mstUpdateFold_targets _ _ ?_ ?_
          · exact List.mem_append_right _ (by simp)
          · intro w p hw
            have hw' : st.minEdge.getD w none = some p := hw
            rw [hme0, getD_replicate] at hw'
            exact absurd hw' (by split <;> simp)
        · rw [hfE]
          exact heb
        · rw [hfI, hfE, hempty]
          intro a ha b hb
          have ha' : a = u := by simpa using ha
          have hb' : b = u := by simpa using hb
          rw [ha', hb']
          exact Relation.ReflTransGen.refl
        · intro v hv hvm
          rw [hfI] at hvm
          refine mstUpdateFold_covers (List.range towns.length) _ ?_ ?_ v
            (List.mem_range.mpr hv) hvm
          · intro w hw
            have hw' : w < towns.length := List.mem_range.mp hw
            show w < st.minEdge.length
            omega
          · intro w hw hwm
            left
            have hw0 : w ≠ 0 := by
              intro hzero
              apply hwm
              refine List.mem_append_right _ ?_
              rw [hu0, hzero]
              simp
            show st.minCost.getD w none = none
            rw [hmc0, getD_set_cases, if_neg (by tauto), getD_replicate]
            split <;> rfl
      · intro _
        rw [hfI, List.length_append]
        simp
    · have hg := hcov u hun hum
      rcases hp : st.minEdge.getD u none with _ | p
      · rw [hp] at hg
        simp at hg
      · have hedge : (match (some p : Option ℕ) with
            | none => st.edges | some q => st.edges ++ [(u, q)]) = st.edges ++ [(u, p)] := rfl
        rw [hedge]
        have hpm : p ∈ st.inMST := htg u p hp
        obtain ⟨hfI, hfE, hfC, hfEl⟩ := mstUpdateFold_frame md towns u
          (List.range towns.length)
          { st with inMST := st.inMST ++ [u], edges := st.edges ++ [(u, p)] }
        constructor
        · refine ⟨?_, ?_, ?_, ?_, ?_, ?_, ?_, Or.inr ?_⟩
          · rw [hfI, List.nodup_append]
            exact ⟨hnd, List.nodup_singleton u,
              fun a ha hb => hum ((List.mem_singleton.mp hb) ▸ ha)⟩
          · rw [hfI]
            intro v hv
            rcases List.mem_append.mp hv with h2 | h2
            · exact hbd v h2
            · have h3 : v = u := List.mem_singleton.mp h2
              omega
          · rw [hfC]
            exact hlc
          · rw [hfEl]
            exact hle
          · refine mstUpdateFold_targets _ _ ?_ ?_
            · exact List.mem_append_right _ (by simp)
            · intro w q hw
              have hw' : st.minEdge.getD w none = some q := hw
              exact List.mem_append_left _ (htg w q hw')
          · rw [hfE]
            intro e he
            rcases List.mem_append.mp he with h2 | h2
            · exact heb e h2
            · have h3 : e = (u, p) := List.mem_singleton.mp h2
              rw [h3]
              refine ⟨hun, hbd p hpm, ?_⟩
              intro hup
              have hup' : u = p := hup
              exact hum (hup' ▸ hpm)
          · rw [hfI, hfE]
            have hmono : ∀ a b, EReach st.edges a b → EReach (st.edges ++ [(u, p)]) a b :=
              fun a b h => EReach_mono (fun e he => List.mem_append_left _ he) h
            have hupr : EReach (st.edges ++ [(u, p)]) u p :=
              Relation.ReflTransGen.single (Or.inl (List.mem_append_right _ (by simp)))
            intro a ha b hb
            rcases List.mem_append.mp ha with ha2 | ha2 <;>
              rcases List.mem_append.mp hb with hb2 | hb2
            · exact hmono _ _ (hpw a ha2 b hb2)
            · rw [List.mem_singleton.mp hb2]
              exact Relation.ReflTransGen.trans (hmono _ _ (hpw a ha2 p hpm))
                (EReach_symm hupr)
            · rw [List.mem_singleton.mp ha2]
              exact Relation.ReflTransGen.trans hupr (hmono _ _ (hpw p hpm b hb2))
            · rw [List.mem_singleton.mp ha2, List.mem_singleton.mp hb2]
              exact Relation.ReflTransGen.refl
          · intro v hv hvm
            rw [hfI] at hvm
            have hvm' : v ∉ st.inMST := fun h => hvm (List.mem_append_left _ h)
            exact mstUpdateFold_isSome _ _ v (hcov v hv hvm')
        · intro _
          rw [hfI, List.length_append]
          simp

/-- A Prim iteration never shrinks the tree. -/
theorem mstIter_le {md : MapData} {towns : List Town} (st : MSTState) :
    st.inMST.length ≤ (mstIter md towns st).inMST.length := by
  rcases hpick : mstPick st.inMST st.minCost towns.length with _ | u
  · have hit : mstIter md towns st = st := by
      rw [mstIter, hpick]
    rw [hit]
  · have hit : mstIter md towns st =
        (List.range towns.length).foldl (mstUpdateStep md towns u)
          { st with
            inMST := st.inMST ++ [u],
            edges := match st.minEdge.getD u none with
              | none => st.edges
              | some p => st.edges ++ [(u, p)] } := by
      rw [mstIter, hpick]
    rw [hit]
    rw [(mstUpdateFold_frame md towns u (List.range towns.length)
      { st with
        inMST := st.inMST ++ [u],
        edges := match st.minEdge.getD u none with
          | none => st.edges
          | some p => st.edges ++ [(u, p)] }).1]
    simp

/-- The Prim outer fold never shrinks the tree. -/
theorem mstRun_le {md : MapData} {towns : List Town} :
    ∀ (l : List ℕ) (s : MSTState),
      s.inMST.length ≤ (l.foldl (fun s2 _ => mstIter md towns s2) s).inMST.length := by
  intro l
  induction l with
  | nil => intro s; exact le_rfl
  | cons a as ih =>
    intro s
    rw [List.foldl_cons]
    exact le_trans (mstIter_le s) (ih _)

/-- A duplicate-free list containing every natural below `n` has length at
least `n`. -/
theorem nodup_full_length {l : List ℕ} {n : ℕ} (hnd : l.Nodup)
    (hmiss : ∀ v, v < n → v ∈ l) : n ≤ l.length := by
  have hsub : List.range n ⊆ l := fun v hv => hmiss v (List.mem_range.mp hv)
  have h := List.Subperm.length_le (List.subperm_of_subset (List.nodup_range n) hsub)
  simpa using h

/-- The Prim outer fold preserves the invariant and fills the tree. -/
theorem mstRun_spec {md : MapData} {towns : List Town} :
    ∀ (l : List ℕ) (s : MSTState), MSTInv towns.length s →
      MSTInv towns.length (l.foldl (fun s2 _ => mstIter md towns s2) s) ∧
      min (s.inMST.length + l.length) towns.length ≤
        (l.foldl (fun s2 _ => mstIter md towns s2) s).inMST.length := by
  intro l
  induction l with
  | nil =>
    intro s h
    refine ⟨h, ?_⟩
    simp
  | cons a as ih =>
    intro s h
    rw [List.foldl_cons]
    obtain ⟨hInv', hgrow⟩ := @mstIter_inv md towns s h
    obtain ⟨hres, hlen⟩ := ih _ hInv'
    refine ⟨hres, ?_⟩
    by_cases hex : ∃ v, v < towns.length ∧ v ∉ s.inMST
    · have h1 := hgrow hex
      refine le_trans ?_ hlen
      rw [h1]
      have h2 : s.inMST.length + (a :: as).length =
          s.inMST.length + 1 + as.length := by
        simp [List.length_cons]
        omega
      rw [h2]
    · push_neg at hex
      have hn : towns.length ≤ s.inMST.length :=
        nodup_full_length h.1 (fun v hv => hex v hv)
      have hmono : s.inMST.length ≤
          (as.foldl (fun s2 _ => mstIter md towns s2) (mstIter md towns s)).inMST.length :=
        le_trans (mstIter_le s) (mstRun_le as _)
      exact le_trans (min_le_right _ _) (le_trans hn hmono)

/-- `buildMST` spans the towns: every recorded edge joins two distinct
in-range indices, and every pair of town indices is connected through the
edge list. -/
theorem buildMST_spec (md : MapData) (towns : List Town) :
    (∀ e ∈ buildMST md towns, e.1 < towns.length ∧ e.2 < towns.length ∧ e.1 ≠ e.2) ∧
    (∀ i, i < towns.length → ∀ j, j < towns.length →
      EReach (buildMST md towns) i j) := by
  have h0 : MSTInv towns.length
      { edges := [], inMST := []
        minCost := (List.replicate towns.length (none : Option ℚ)).set 0 (some 0)
        minEdge := List.replicate towns.length none } := by
    refine ⟨List.nodup_nil, ?_, by simp, by simp, ?_, ?_, ?_, Or.inl ⟨rfl, rfl, rfl⟩⟩
    · intro v hv
      exact absurd hv (List.not_mem_nil v)
    · intro w p hw
      have hw' : (List.replicate towns.length (none : Option ℕ)).getD w none = some p := hw
      rw [getD_replicate] at hw'
      exact absurd hw' (by split <;> simp)
    · intro e he
      exact absurd he (List.not_mem_nil e)
    · intro a ha
      exact absurd ha (List.not_mem_nil a)
  obtain ⟨hInv, hlen⟩ := mstRun_spec (List.range towns.length) _ h0
  have hlen' : towns.length ≤ ((List.range towns.length).foldl
      (fun s2 _ => mstIter md towns s2)
      { edges := [], inMST := []
        minCost := (List.replicate towns.length (none : Option ℚ)).set 0 (some 0)
        minEdge := List.replicate towns.length none }).inMST.length := by
    refine le_trans ?_ hlen
    simp
  have hfull : ∀ v, v < towns.length → v ∈ ((List.range towns.length).foldl
      (fun s2 _ => mstIter md towns s2)
      { edges := [], inMST := []
        minCost := (List.replicate towns.length (none : Option ℚ)).set 0 (some 0)
        minEdge := List.replicate towns.length none }).inMST := by
    intro v hv
    have hsub := List.subperm_of_subset hInv.1 (fun w hw => List.mem_range.mpr (hInv.2.1 w hw))
    have hperm := List.Subperm.perm_of_length_le hsub (by simpa using hlen')
    exact hperm.mem_iff.mpr (List.mem_range.mpr hv)
  have hbe : buildMST md towns = ((List.range towns.length).foldl
      (fun s2 _ => mstIter md towns s2)
      { edges := [], inMST := []
        minCost := (List.replicate towns.length (none : Option ℚ)).set 0 (some 0)
        minEdge := List.replicate towns.length none }).edges := by
    rw [buildMST]
  rw [hbe]
  refine ⟨hInv.2.2.2.2.2.1, ?_⟩
  intro i hi j hj
  exact hInv.2.2.2.2.2.2.1 i (hfull i hi) j (hfull j hj)

/-- `find?` by key commutes with a key-preserving map. -/
theorem find_keyfix {α : Type} (f : ℕ × α → ℕ × α) (hf : ∀ p, (f p).1 = p.1)
    (k' : ℕ) : ∀ (m : List (ℕ × α)),
      (m.map f).find? (fun p => p.1 == k') = (m.find? (fun p => p.1 == k')).map f := by
  intro m
  induction m with
  | nil => rfl
  | cons p ps ih =>
    rw [List.map_cons]
    by_cases hp : (p.1 == k') = true
    · rw [@List.find?_cons_of_pos (ℕ × α) (fun q => q.1 == k') (f p) (ps.map f)
        (by show ((f p).1 == k') = true; rw [hf]; exact hp),
        @List.find?_cons_of_pos (ℕ × α) (fun q => q.1 == k') p ps hp]
      rfl
    · rw [@List.find?_cons_of_neg (ℕ × α) (fun q => q.1 == k') (f p) (ps.map f)
        (by show ¬((f p).1 == k') = true; rw [hf]; exact hp),
        @List.find?_cons_of_neg (ℕ × α) (fun q => q.1 == k') p ps hp]
      exact ih

/-- The JS-map update of `nmSet` preserves entry keys. -/
theorem nmSet_keyfix {α : Type} (k : ℕ) (v : α) :
    ∀ p : ℕ × α, ((if p.1 == k then (k, v) else p) : ℕ × α).1 = p.1 := by
  intro p
  by_cases h : (p.1 == k) = true
  · rw [if_pos h]
    have h2 : p.1 = k := by simpa using h
    rw [h2]
  · rw [if_neg h]

/-- Reading a JS map right after `set`: the set key reads the new value,
every other key is unchanged. -/
theorem nmGet_nmSet {α : Type} (m : List (ℕ × α)) (k : ℕ) (v : α) (k' : ℕ) :
    nmGet (nmSet m k v) k' = if k' = k then some v else nmGet m k' := by
  rw [nmSet]
  by_cases hany : m.any (fun p => p.1 == k) = true
  · rw [if_pos hany, nmGet,
      find_keyfix (fun p => if p.1 == k then (k, v) else p) (nmSet_keyfix k v) k' m]
    by_cases hk : k' = k
    · subst hk
      rw [if_pos rfl]
      rcases hf : m.find? (fun p => p.1 == k') with _ | q
      · rw [List.find?_eq_none] at hf
        rcases List.any_eq_true.mp hany with ⟨x, hx, hxk⟩
        exact absurd hxk (by simpa using hf x hx)
      · have hq : (q.1 == k') = true := by simpa using List.find?_some hf
        rw [hf]
        simp only [Option.map_some']
        rw [if_pos hq]
    · rw [if_neg hk]
      rcases hf : m.find? (fun p => p.1 == k') with _ | q
      · rw [nmGet, hf]
        rfl
      · have hq : (q.1 == k') = true := by simpa using List.find?_some hf
        have hqk : (q.1 == k) = false := by
          have h2 : q.1 = k' := by simpa using hq
          rw [h2]
          exact beq_false_of_ne hk
        rw [nmGet, hf]
        simp only [Option.map_some']
        rw [if_neg (by simp [hqk])]
  · rw [if_neg hany, nmGet, List.find?_append]
    by_cases hk : k' = k
    · subst hk
      have hnone : m.find? (fun p => p.1 == k') = none := by
        rw [List.find?_eq_none]
        intro x hx hpred
        exact hany (List.any_eq_true.mpr ⟨x, hx, hpred⟩)
      rw [hnone]
      simp
    · rw [if_neg hk]
      rcases hf : m.find? (fun p => p.1 == k') with _ | q
      · rw [nmGet, hf]
        simp [beq_false_of_ne (Ne.symm hk)]
      · rw [nmGet, hf]
        simp

/-- `amPush` preserves entry keys. -/
theorem amPush_keyfix (k v : ℕ) :
    ∀ p : ℕ × List ℕ,
      ((if p.1 == k then (p.1, p.2 ++ [v]) else p) : ℕ × List ℕ).1 = p.1 := by
  intro p
  by_cases h : (p.1 == k) = true
  · rw [if_pos h]
  · rw [if_neg h]

/-- Reading the adjacency map after `push`: the pushed key's list gains the
new element, every other key is unchanged. -/
theorem amGet_amPush (m : List (ℕ × List ℕ)) (k v k' : ℕ) :
    amGet (amPush m k v) k' =
      if k' = k then (amGet m k).map (fun l => l ++ [v]) else amGet m k' := by
  rw [amPush, amGet,
    find_keyfix (fun p => if p.1 == k then (p.1, p.2 ++ [v]) else p) (amPush_keyfix k v) k' m]
  by_cases hk : k' = k
  · subst hk
    rw [if_pos rfl]
    rcases hf : m.find? (fun p => p.1 == k') with _ | q
    · rw [amGet, hf]
      rfl
    · have hq : (q.1 == k') = true := by simpa using List.find?_some hf
      rw [hf, amGet, hf]
      simp only [Option.map_some']
      rw [if_pos hq]
  · rw [if_neg hk]
    rcases hf : m.find? (fun p => p.1 == k') with _ | q
    · rw [amGet, hf]
      rfl
    · have hq : (q.1 == k') = true := by simpa using List.find?_some hf
      have hqk : (q.1 == k) = false := by
        have h2 : q.1 = k' := by simpa using hq
        rw [h2]
        exact beq_false_of_ne hk
      rw [hf, amGet, hf]
      simp only [Option.map_some']
      rw [if_neg (by simp [hqk])]

/-- `amSet` and `amGet` are the generic JS-map operations. -/
theorem amGet_amSet (m : List (ℕ × List ℕ)) (k : ℕ) (v : List ℕ) (k' : ℕ) :
    amGet (amSet m k v) k' = if k' = k then some v else amGet m k' := by
  have h1 : amSet m k v = nmSet m k v := rfl
  have h2 : ∀ (m' : List (ℕ × List ℕ)) (k0 : ℕ), amGet m' k0 = nmGet m' k0 :=
    fun _ _ => rfl
  rw [h1, h2, nmGet_nmSet]
  by_cases hk : k' = k
  · rw [if_pos hk, if_pos hk]
  · rw [if_neg hk, if_neg hk, h2]

/-- An adjacency hop survives a push. -/
theorem adjEdge_amPush_mono {m : List (ℕ × List ℕ)} {k v a b : ℕ}
    (h : adjEdge m a b) : adjEdge (amPush m k v) a b := by
  rw [adjEdge, amGet_amPush]
  by_cases hak : a = k
  · rw [if_pos hak]
    rw [adjEdge] at h
    rcases ho : amGet m a with _ | l
    · rw [ho] at h
      exact absurd h (by simp)
    · rw [ho] at h
      rw [hak] at ho
      rw [ho]
      simp only [Option.map_some', Option.getD_some]
      exact List.mem_append_left _ (by simpa using h)
  · rw [if_neg hak]
    exact h

/-- A push on a present key records the pushed hop. -/
theorem adjEdge_amPush_self {m : List (ℕ × List ℕ)} {k v : ℕ}
    (h : (amGet m k).isSome = true) : adjEdge (amPush m k v) k v := by
  rw [adjEdge, amGet_amPush, if_pos rfl]
  rcases ho : amGet m k with _ | l
  · rw [ho] at h
    exact absurd h (by simp)
  · simp

/-- A push keeps every present key present. -/
theorem amGet_amPush_isSome {m : List (ℕ × List ℕ)} {k v a : ℕ}
    (h : (amGet m a).isSome = true) : (amGet (amPush m k v) a).isSome = true := by
  rw [amGet_amPush]
  by_cases hak : a = k
  · rw [if_pos hak, ← hak]
    rcases ho : amGet m a with _ | l
    · rw [ho] at h
      exact absurd h (by simp)
    · rfl
  · rw [if_neg hak]
    exact h

/-- Every town id seeded into the adjacency map is present after the seeding
fold. -/
theorem amFold_present :
    ∀ (l : List Town) (m : List (ℕ × List ℕ)) (t : Town),
      (t ∈ l ∨ (amGet m t.id).isSome = true) →
      (amGet (l.foldl (fun m2 t2 => amSet m2 t2.id []) m) t.id).isSome = true := by
  intro l
  induction l with
  | nil =>
    intro m t h
    rcases h with h | h
    · exact absurd h (List.not_mem_nil t)
    · exact h
  | cons a as ih =>
    intro m t h
    rw [List.foldl_cons]
    refine ih _ t ?_
    rcases h with h | h
    · rcases List.mem_cons.mp h with h2 | h2
      · right
        rw [h2, amGet_amSet, if_pos rfl]
        rfl
      · exact Or.inl h2
    · right
      rw [amGet_amSet]
      by_cases hta : t.id = a.id
      · rw [if_pos hta]
        rfl
      · rw [if_neg hta]
        exact h

/-- One road step keeps every adjacency hop. -/
theorem roadStep_adj_mono {towns : List Town} {md : MapData}
    {acc : List Road × List (ℕ × List ℕ)} {e : ℕ × ℕ} {a b : ℕ}
    (h : adjEdge acc.2 a b) : adjEdge (roadStep towns md acc e).2 a b := by
  simp only [roadStep]
  split
  · exact adjEdge_amPush_mono (adjEdge_amPush_mono h)
  · exact h

/-- One road step keeps every present adjacency key. -/
theorem roadStep_present {towns : List Town} {md : MapData}
    {acc : List Road × List (ℕ × List ℕ)} {e : ℕ × ℕ} {a : ℕ}
    (h : (amGet acc.2 a).isSome = true) :
    (amGet (roadStep towns md acc e).2 a).isSome = true := by
  simp only [roadStep]
  split
  · exact amGet_amPush_isSome (amGet_amPush_isSome h)
  · exact h

/-- The road fold keeps every adjacency hop. -/
theorem roadFold_adj_mono {towns : List Town} {md : MapData} :
    ∀ (es : List (ℕ × ℕ)) (acc : List Road × List (ℕ × List ℕ)) {a b : ℕ},
      adjEdge acc.2 a b → adjEdge ((es.foldl (roadStep towns md) acc).2) a b := by
  intro es
  induction es with
  | nil => intro acc a b h; exact h
  | cons e es ih =>
    intro acc a b h
    rw [List.foldl_cons]
    exact ih _ (roadStep_adj_mono h)

/-- A processed edge with a two-point path leaves both of its directed
adjacency hops in the final map. -/
theorem roadFold_edge {towns : List Town} {md : MapData} :
    ∀ (es : List (ℕ × ℕ)) (acc : List Road × List (ℕ × List ℕ)) (e : ℕ × ℕ),
      e ∈ es →
      2 ≤ (findPath md (towns.getD e.1 tdefault).center
        (towns.getD e.2 tdefault).center).length →
      (amGet acc.2 (towns.getD e.1 tdefault).id).isSome = true →
      (amGet acc.2 (towns.getD e.2 tdefault).id).isSome = true →
      adjEdge ((es.foldl (roadStep towns md) acc).2)
        (towns.getD e.1 tdefault).id (towns.getD e.2 tdefault).id ∧
      adjEdge ((es.foldl (roadStep towns md) acc).2)
        (towns.getD e.2 tdefault).id (towns.getD e.1 tdefault).id := by
  intro es
  induction es with
  | nil => intro acc e he _ _ _; exact absurd he (List.not_mem_nil e)
  | cons f fs ih =>
    intro acc e he hpath hA hB
    rw [List.foldl_cons]
    rcases List.mem_cons.mp he with h2 | h2
    · subst h2
      have hstep2 : (roadStep towns md acc e).2 =
          amPush (amPush acc.2 (towns.getD e.1 tdefault).id (towns.getD e.2 tdefault).id)
            (towns.getD e.2 tdefault).id (towns.getD e.1 tdefault).id := by
        simp only [roadStep]
        rw [if_pos hpath]
      constructor
      · refine roadFold_adj_mono fs _ ?_
        rw [hstep2]
        exact adjEdge_amPush_mono (adjEdge_amPush_self hA)
      · refine roadFold_adj_mono fs _ ?_
        rw [hstep2]
        exact adjEdge_amPush_self (amGet_amPush_isSome hB)
    · exact ih _ e h2 hpath (roadStep_present hA) (roadStep_present hB)

/-- A neighbor relaxation preserves the parent invariant. -/
theorem astarRelaxStep_parent {md : MapData} {si ei current npos : ℕ} {cc : Center}
    {endPt : Point} {s : AStarState}
    (hs : AStarParent si s) :
    AStarParent si (astarRelaxStep md current si ei cc endPt s npos) := by
  rw [astarRelaxStep]
  split
  · exact hs
  · split
    · exact hs
    · split
      · exact hs
      · split
        · intro k hk
          rcases osAdd_mem hk with h2 | h2
          · rcases hs k h2 with h3 | h3
            · exact Or.inl h3
            · right
              rw [nmGet_nmSet]
              by_cases hki : k = (cAt md npos).index
              · rw [if_pos hki]
                rfl
              · rw [if_neg hki]
                exact h3
          · right
            rw [h2, nmGet_nmSet, if_pos rfl]
            rfl
        · exact hs

/-- The whole relaxation fold preserves the parent invariant. -/
theorem astarRelax_parent {md : MapData} {si ei current : ℕ} {cc : Center}
    {endPt : Point} {st : AStarState}
    (hst : AStarParent si st) :
    AStarParent si (astarRelax md current cc si ei endPt st) := by
  rw [astarRelax]
  have main : ∀ (l : List ℕ) (s : AStarState), AStarParent si s →
      AStarParent si (l.foldl (astarRelaxStep md current si ei cc endPt) s) := by
    intro l
    induction l with
    | nil => intro s h; exact h
    | cons a as ih =>
      intro s h
      rw [List.foldl_cons]
      exact ih _ (astarRelaxStep_parent h)
  exact main cc.neighbors st hst

/-- A continuing A* iteration preserves the parent invariant. -/
theorem astarStep_parent {md : MapData} {cbi : List (ℕ × ℕ)} {si ei : ℕ}
    {endPt : Point} {st st' : AStarState}
    (h : AStarParent si st)
    (hstep : astarStep md cbi si ei endPt st = Sum.inr st') :
    AStarParent si st' := by
  rw [astarStep] at hstep
  by_cases he : st.openSet.isEmpty
  · rw [if_pos he] at hstep
    exact absurd hstep (by simp)
  · rw [if_neg he] at hstep
    split at hstep
    · exact absurd hstep (by simp)
    · rename_i current hmin
      by_cases hce : (current == ei) = true
      · rw [if_pos hce] at hstep
        exact absurd hstep (by simp)
      · rw [if_neg hce] at hstep
        simp only [Sum.inr.injEq] at hstep
        rw [← hstep]
        refine astarRelax_parent ?_
        intro k hk
        exact h k (List.mem_of_mem_erase hk)

/-- Reconstructed paths are never empty. -/
theorem recon_length_pos {cf : List (ℕ × ℕ)} :
    ∀ (fuel node : ℕ), 1 ≤ (recon cf fuel node).length := by
  intro fuel
  cases fuel with
  | zero => intro node; simp [recon]
  | succ m =>
    intro node
    rw [recon]
    split
    · simp
    · simp

/-- Unfolding of path reconstruction at a recorded parent. -/
theorem recon_succ_some {cf : List (ℕ × ℕ)} {fuel node p : ℕ}
    (h : nmGet cf node = some p) :
    recon cf (fuel + 1) node = recon cf fuel p ++ [node] := by
  rw [recon, h]

/-- A successful A* exit towards a goal other than the start yields a path
of at least two nodes. -/
theorem astarStep_goal_length {md : MapData} {cbi : List (ℕ × ℕ)} {si ei : ℕ}
    {endPt : Point} {st : AStarState} {idxs : List ℕ}
    (hpar : AStarParent si st) (hne : si ≠ ei)
    (hstep : astarStep md cbi si ei endPt st = Sum.inl (some idxs)) :
    2 ≤ idxs.length := by
  rw [astarStep] at hstep
  by_cases he : st.openSet.isEmpty
  · rw [if_pos he] at hstep
    exact absurd hstep (by simp)
  · rw [if_neg he] at hstep
    split at hstep
    · exact absurd hstep (by simp)
    · rename_i current hmin
      by_cases hce : (current == ei) = true
      · rw [if_pos hce] at hstep
        simp only [Sum.inl.injEq, Option.some.injEq] at hstep
        have hcm : current ∈ st.openSet := argminF_mem hmin
        have hcei : current = ei := by simpa using hce
        rcases hpar current hcm with h2 | h2
        · exact absurd (h2.symm.trans hcei) hne
        · rw [hcei] at h2
          rcases ho : nmGet st.cameFrom ei with _ | p
          · rw [ho] at h2
            simp at h2
          · rw [← hstep, recon_succ_some ho, List.length_append]
            have h3 := @recon_length_pos st.cameFrom st.cameFrom.length p
            simp
            omega
      · rw [if_neg hce] at hstep
        exact absurd hstep (by simp)

/-- Every successful run of the A* loop towards a distinct goal yields a
path of at least two nodes. -/
theorem astarLoop_length {md : MapData} {cbi : List (ℕ × ℕ)} {si ei : ℕ}
    {endPt : Point} (hne : si ≠ ei) :
    ∀ (fuel : ℕ) (st : AStarState), AStarParent si st →
      ∀ {idxs : List ℕ},
        astarLoop md cbi si ei endPt fuel st = some idxs →
        2 ≤ idxs.length := by
  intro fuel
  induction fuel with
  | zero =>
    intro st _ idxs h
    exact absurd h (by simp [astarLoop])
  | succ n ih =>
    intro st hpar idxs h
    rw [astarLoop] at h
    split at h
    · rename_i r hs
      rw [h] at hs
      exact astarStep_goal_length hpar hne hs
    · rename_i st' hs
      exact ih st' (astarStep_parent hpar hs) h

/-- A road path between distinct center positions with distinct indices has
at least two points. -/
theorem findPath_length {md : MapData} {sp ep : ℕ} (hnp : (sp == ep) = false)
    (hni : (cAt md sp).index ≠ (cAt md ep).index) :
    2 ≤ (findPath md sp ep).length := by
  rw [findPath, hnp]
  simp only [Bool.false_eq_true, if_false]
  split
  · rename_i idxs hc
    rw [List.length_map]
    have h0 : AStarParent (cAt md sp).index
        { openSet := [(cAt md sp).index], cameFrom := [],
          gScore := [((cAt md sp).index, 0)],
          fScore := [((cAt md sp).index,
            euclidean (cAt md sp).point (cAt md ep).point)] } := by
      intro k hk
      simp only [List.mem_singleton] at hk
      exact Or.inl hk
    simp only [findPathCore] at hc
    exact astarLoop_length hni _ _ h0 hc
  · simp

/-- C3: on a well-formed map (coherent center indices, in-range neighbor
lists and town centers), `generateRoads` over at least two towns with
pairwise distinct owning regions yields a connected adjacency graph: every
town id reaches every other by following the adjacency lists.  Prim's tree
connects all town indices, and every tree edge joins towns with distinct
regions, whose A* (or fallback) path always keeps at least two points, so
both directed adjacency entries of every tree edge are recorded. -/
theorem generateRoads_connected (towns : List Town) (md : MapData) (seed : ℤ)
    (h2 : 2 ≤ towns.length)
    (hIdx : ∀ p, p < md.centers.length → (cAt md p).index = p)
    (hctr : ∀ t ∈ towns, t.center < md.centers.length)
    (hdc : ∀ i, i < towns.length → ∀ j, j < towns.length → i ≠ j →
      (towns.getD i tdefault).center ≠ (towns.getD j tdefault).center) :
    ∀ t1 ∈ towns, ∀ t2 ∈ towns,
      AdjReach (generateRoads towns md seed).adjacency t1.id t2.id := by
  intro t1 ht1 t2 ht2
  obtain ⟨i1, hi1, he1⟩ := List.mem_iff_getElem.mp ht1
  obtain ⟨i2, hi2, he2⟩ := List.mem_iff_getElem.mp ht2
  have hg1 : towns.getD i1 tdefault = t1 := by
    rw [List.getD_eq_getElem towns tdefault hi1]
    exact he1
  have hg2 : towns.getD i2 tdefault = t2 := by
    rw [List.getD_eq_getElem towns tdefault hi2]
    exact he2
  suffices hmain : ∀ extras : List (ℕ × ℕ),
      AdjReach (((buildMST md towns ++ extras).foldl (roadStep towns md)
        ([], towns.foldl (fun m2 t2 => amSet m2 t2.id []) [])).2) t1.id t2.id by
    rw [generateRoads, if_neg (by omega)]
    rcases hext : addExtraEdges md towns (buildMST md towns) (Random.ofSeed (seed + 9999))
      with ⟨extras, r2⟩
    dsimp only
    rw [hext]
    dsimp only
    exact hmain extras
  intro extras
  have hpres : ∀ t ∈ towns,
      (amGet (towns.foldl (fun m2 t2 => amSet m2 t2.id []) []) t.id).isSome = true :=
    fun t ht => amFold_present towns [] t (Or.inl ht)
  obtain ⟨hbounds, hconn⟩ := buildMST_spec md towns
  have hmem : ∀ x : ℕ, x < towns.length → towns.getD x tdefault ∈ towns := by
    intro x hx
    rw [List.getD_eq_getElem towns tdefault hx]
    exact List.getElem_mem hx
  have hpath : ∀ x y : ℕ, x < towns.length → y < towns.length → x ≠ y →
      2 ≤ (findPath md (towns.getD x tdefault).center
        (towns.getD y tdefault).center).length := by
    intro x y hx hy hxy
    have hcx : (towns.getD x tdefault).center < md.centers.length := hctr _ (hmem x hx)
    have hcy : (towns.getD y tdefault).center < md.centers.length := hctr _ (hmem y hy)
    refine findPath_length (beq_false_of_ne (hdc x hx y hy hxy)) ?_
    rw [hIdx _ hcx, hIdx _ hcy]
    exact hdc x hx y hy hxy
  have hlift : ∀ a b : ℕ, a < towns.length → b < towns.length →
      EStep (buildMST md towns) a b →
      adjEdge (((buildMST md towns ++ extras).foldl (roadStep towns md)
        ([], towns.foldl (fun m2 t2 => amSet m2 t2.id []) [])).2)
        (towns.getD a tdefault).id (towns.getD b tdefault).id := by
    intro a b ha hb hstep
    rcases hstep with hm | hm
    · exact (roadFold_edge (buildMST md towns ++ extras) _ (a, b)
        (List.mem_append_left _ hm)
        (hpath a b ha hb (hbounds _ hm).2.2)
        (hpres _ (hmem a ha)) (hpres _ (hmem b hb))).1
    · exact (roadFold_edge (buildMST md towns ++ extras) _ (b, a)
        (List.mem_append_left _ hm)
        (hpath b a hb ha (hbounds _ hm).2.2)
        (hpres _ (hmem b hb)) (hpres _ (hmem a ha))).2
  have hlift2 : ∀ {y : ℕ}, EReach (buildMST md towns) i1 y →
      AdjReach (((buildMST md towns ++ extras).foldl (roadStep towns md)
        ([], towns.foldl (fun m2 t2 => amSet m2 t2.id []) [])).2)
        (towns.getD i1 tdefault).id (towns.getD y tdefault).id := by
    intro y h
    induction h with
    | refl => exact Relation.ReflTransGen.refl
    | tail hab hbc ih =>
      rename_i b c
      have hbn : b < towns.length := by
        rcases hbc with hm | hm
        · exact (hbounds _ hm).1
        · exact (hbounds _ hm).2.1
      have hcn : c < towns.length := by
        rcases hbc with hm | hm
        · exact (hbounds _ hm).2.1
        · exact (hbounds _ hm).1
      exact Relation.ReflTransGen.tail ih (hlift b c hbn hcn hbc)
  have hres := hlift2 (hconn i1 hi1 i2 hi2)
  rw [hg1, hg2] at hres
  exact hres

/-- Witness for C3 on the two-town map `mdA`/`townsA`: town 1 is reachable
from town 0 over the produced adjacency map. -/
theorem generateRoads_connected_witness :
    AdjReach (generateRoads townsA mdA 5).adjacency 0 1 :=
  generateRoads_connected townsA mdA 5 (by decide) (by decide) (by decide) (by decide)
    (townsA.getD 0 tdefault) (by decide) (townsA.getD 1 tdefault) (by decide)

/-- `getD` past the end of a list. -/
theorem getD_of_le {α : Type} (l : List α) {i : ℕ} (d : α) (h : l.length ≤ i) :
    l.getD i d = d := by
  rw [List.getD, List.get?_eq_none.mpr (by simpa using h)]
  rfl

/-- `getD` through `map`, in range. -/
theorem getD_map_lt {α β : Type} (f : α → β) (l : List α) {j : ℕ} (d : β) (d' : α)
    (h : j < l.length) : (l.map f).getD j d = f (l.getD j d') := by
  rw [List.getD_eq_getElem _ _ (by simpa using h), List.getD_eq_getElem _ _ h,
    List.getElem_map]

/-- Unfolding of the river trace at an empty current corner. -/
theorem riverTrace_none (cfg : MapConfig) (n : ℕ) (g : Graph) :
    riverTrace cfg (n + 1) g none = g := rfl

/-- Unfolding of the river trace at a current corner. -/
theorem riverTrace_some (cfg : MapConfig) (n : ℕ) (g : Graph) (cu : ℕ) :
    riverTrace cfg (n + 1) g (some cu) =
      if (cAtG g cu).ocean then g
      else if (cAtG g cu).river > 0 then setCornerRiver g cu ((cAtG g cu).river + 1)
      else
        riverTrace cfg n
          (match (cAtG g cu).downslope with
           | none => setCornerRiver g cu ((cAtG g cu).river + 1)
           | some ds =>
             (cAtG g cu).protrudes.foldl (riverEdgeMark cu ds)
               (setCornerRiver g cu ((cAtG g cu).river + 1)))
          (cAtG g cu).downslope := rfl

/-- Unfolding of the river loop at a candidate. -/
theorem riversGo_cons (cfg : MapConfig) (c : ℕ) (cs : List ℕ) (cnt : ℕ) (g : Graph) :
    riversGo cfg (c :: cs) cnt g =
      if cfg.riverCount ≤ cnt then g
      else riversGo cfg cs (cnt + 1) (riverTrace cfg (g.corners.length + 1) g (some c)) := rfl

/-- Unfolding of the downslope chain. -/
theorem dsChain_succ (g : Graph) (n c : ℕ) :
    dsChain g (n + 1) c =
      if (cAtG g c).ocean then c
      else match (cAtG g c).downslope with
        | none => c
        | some d => dsChain g n d := rfl

/-- `setCornerRiver` leaves the edge array unchanged. -/
theorem eAtG_setCornerRiver (g : Graph) (i v j : ℕ) :
    eAtG (setCornerRiver g i v) j = eAtG g j := rfl

/-- `setEdgeRiver` leaves the corner array unchanged. -/
theorem cAtG_setEdgeRiver (g : Graph) (i v j : ℕ) :
    cAtG (setEdgeRiver g i v) j = cAtG g j := rfl

/-- Corner lookup after `setCornerRiver`. -/
theorem cAtG_setCornerRiver (g : Graph) (i v j : ℕ) :
    cAtG (setCornerRiver g i v) j =
      if i = j ∧ j < g.corners.length then { cAtG g i with river := v }
      else cAtG g j := by
  rw [cAtG, setCornerRiver]
  rw [getD_set_cases]
  split <;> rfl

/-- Edge lookup after `setEdgeRiver`. -/
theorem eAtG_setEdgeRiver (g : Graph) (i v j : ℕ) :
    eAtG (setEdgeRiver g i v) j =
      if i = j ∧ j < g.edges.length then { eAtG g i with river := v }
      else eAtG g j := by
  rw [eAtG, setEdgeRiver]
  rw [getD_set_cases]
  split <;> rfl

/-- The trace frame is reflexive. -/
theorem traceFrame_refl (g : Graph) : TraceFrame g g := ⟨rfl, fun _ => ⟨rfl, rfl, rfl⟩⟩

/-- The trace frame composes. -/
theorem traceFrame_trans {g1 g2 g3 : Graph} (h1 : TraceFrame g1 g2)
    (h2 : TraceFrame g2 g3) : TraceFrame g1 g3 := by
  obtain ⟨hl1, hf1⟩ := h1
  obtain ⟨hl2, hf2⟩ := h2
  refine ⟨hl2.trans hl1, ?_⟩
  intro j
  obtain ⟨a1, b1, c1⟩ := hf1 j
  obtain ⟨a2, b2, c2⟩ := hf2 j
  exact ⟨a2.trans a1, b2.trans b1, c2.trans c1⟩

/-- `setCornerRiver` only touches a river counter. -/
theorem traceFrame_setCornerRiver (g : Graph) (i v : ℕ) :
    TraceFrame g (setCornerRiver g i v) := by
  refine ⟨by simp [setCornerRiver], ?_⟩
  intro j
  rw [cAtG_setCornerRiver]
  by_cases h : i = j ∧ j < g.corners.length
  · rw [if_pos h, ← h.1]
    exact ⟨rfl, rfl, rfl⟩
  · rw [if_neg h]
    exact ⟨rfl, rfl, rfl⟩

/-- `setEdgeRiver` does not touch the corners. -/
theorem traceFrame_setEdgeRiver (g : Graph) (i v : ℕ) :
    TraceFrame g (setEdgeRiver g i v) := ⟨rfl, fun _ => ⟨rfl, rfl, rfl⟩⟩

/-- Edge marking preserves the frame. -/
theorem traceFrame_riverEdgeMark (cu ds : ℕ) (gg : Graph) (ei : ℕ) :
    TraceFrame gg (riverEdgeMark cu ds gg ei) := by
  rw [riverEdgeMark]
  split
  · exact traceFrame_setEdgeRiver _ _ _
  · exact traceFrame_refl _

/-- The marking fold preserves the frame. -/
theorem traceFrame_markFold (cu ds : ℕ) :
    ∀ (l : List ℕ) (gg : Graph), TraceFrame gg (l.foldl (riverEdgeMark cu ds) gg) := by
  intro l
  induction l with
  | nil => intro gg; exact traceFrame_refl _
  | cons a as ih =>
    intro gg
    rw [List.foldl_cons]
    exact traceFrame_trans (traceFrame_riverEdgeMark cu ds gg a) (ih _)

/-- The river tracer preserves the frame. -/
theorem traceFrame_riverTrace (cfg : MapConfig) :
    ∀ (fuel : ℕ) (g : Graph) (copt : Option ℕ),
      TraceFrame g (riverTrace cfg fuel g copt) := by
  intro fuel
  induction fuel with
  | zero => intro g copt; exact traceFrame_refl _
  | succ n ih =>
    intro g copt
    rcases copt with _ | cu
    · rw [riverTrace_none]
      exact traceFrame_refl _
    · rw [riverTrace_some]
      split
      · exact traceFrame_refl _
      · split
        · exact traceFrame_setCornerRiver _ _ _
        · refine traceFrame_trans ?_ (ih _ _)
          split
          · exact traceFrame_setCornerRiver _ _ _
          · exact traceFrame_trans (traceFrame_setCornerRiver _ _ _)
              (traceFrame_markFold _ _ _ _)

/-- The river loop preserves the frame. -/
theorem traceFrame_riversGo (cfg : MapConfig) :
    ∀ (cs : List ℕ) (cnt : ℕ) (g : Graph), TraceFrame g (riversGo cfg cs cnt g) := by
  intro cs
  induction cs with
  | nil => intro cnt g; exact traceFrame_refl _
  | cons c rest ih =>
    intro cnt g
    rw [riversGo_cons]
    split
    · exact traceFrame_refl _
    · exact traceFrame_trans (traceFrame_riverTrace cfg _ g (some c)) (ih _ _)

/-- Downslope targets stay in range along the frame. -/
theorem downslopeInRange_frame {g g' : Graph} (hf : TraceFrame g g')
    (h : DownslopeInRange g) : DownslopeInRange g' := by
  intro j d hd
  rw [(hf.2 j).1] at hd
  rw [hf.1]
  exact h j d hd

/-- The river-edge invariant transfers along the frame when the edges are
untouched. -/
theorem riverEdgesOK_frame {g g' : Graph} (hf : TraceFrame g g')
    (hedges : ∀ j, eAtG g' j = eAtG g j) (h : RiverEdgesOK g) : RiverEdgesOK g' := by
  intro ei hr
  rw [hedges] at hr ⊢
  obtain ⟨a, b, h1, h2, h3, h4, h5⟩ := h ei hr
  refine ⟨a, b, h1, h2, by rw [hf.1]; exact h3, by rw [hf.1]; exact h4, ?_⟩
  rcases h5 with h5 | h5
  · exact Or.inl (by rw [(hf.2 a).1]; exact h5)
  · exact Or.inr (by rw [(hf.2 b).1]; exact h5)

/-- One edge marking preserves the river-edge invariant. -/
theorem riverEdgesOK_riverEdgeMark {gg : Graph} {cu ds : ℕ}
    (hcu : cu < gg.corners.length) (hds : ds < gg.corners.length)
    (hslope : (cAtG gg cu).downslope = some ds)
    (h : RiverEdgesOK gg) (ei : ℕ) :
    RiverEdgesOK (riverEdgeMark cu ds gg ei) := by
  rw [riverEdgeMark]
  split
  · rename_i hcond
    intro ej hr
    rw [eAtG_setEdgeRiver] at hr ⊢
    by_cases hje : ei = ej ∧ ej < gg.edges.length
    · rw [if_pos hje] at hr ⊢
      simp only [Bool.or_eq_true, Bool.and_eq_true, beq_iff_eq] at hcond
      rcases hcond with ⟨h1, h2⟩ | ⟨h1, h2⟩
      · exact ⟨cu, ds, h1, h2, hcu, hds,
          Or.inl (by rw [cAtG_setEdgeRiver]; exact hslope)⟩
      · exact ⟨ds, cu, h2, h1, hds, hcu,
          Or.inr (by rw [cAtG_setEdgeRiver]; exact hslope)⟩
    · rw [if_neg hje] at hr ⊢
      obtain ⟨a, b, h1, h2, h3, h4, h5⟩ := h ej hr
      refine ⟨a, b, h1, h2, h3, h4, ?_⟩
      rcases h5 with h5 | h5
      · exact Or.inl (by rw [cAtG_setEdgeRiver]; exact h5)
      · exact Or.inr (by rw [cAtG_setEdgeRiver]; exact h5)
  · exact h

/-- The marking fold preserves the river-edge invariant. -/
theorem riverEdgesOK_markFold {cu ds : ℕ} :
    ∀ (l : List ℕ) (gg : Graph),
      cu < gg.corners.length → ds < gg.corners.length →
      (cAtG gg cu).downslope = some ds →
      RiverEdgesOK gg → RiverEdgesOK (l.foldl (riverEdgeMark cu ds) gg) := by
  intro l
  induction l with
  | nil => intro gg _ _ _ h; exact h
  | cons a as ih =>
    intro gg hcu hds hslope h
    rw [List.foldl_cons]
    have hfr := traceFrame_riverEdgeMark cu ds gg a
    refine ih _ ?_ ?_ ?_ (riverEdgesOK_riverEdgeMark hcu hds hslope h a)
    · rw [hfr.1]; exact hcu
    · rw [hfr.1]; exact hds
    · rw [(hfr.2 cu).1]; exact hslope

/-- The river tracer preserves the river-edge invariant. -/
theorem riverEdgesOK_riverTrace {cfg : MapConfig} :
    ∀ (fuel : ℕ) (g : Graph) (copt : Option ℕ),
      DownslopeInRange g →
      (∀ cu, copt = some cu → cu < g.corners.length) →
      RiverEdgesOK g → RiverEdgesOK (riverTrace cfg fuel g copt) := by
  intro fuel
  induction fuel with
  | zero => intro g copt _ _ h; exact h
  | succ n ih =>
    intro g copt hdir hcu h
    rcases copt with _ | cu
    · rw [riverTrace_none]
      exact h
    · have hcu' : cu < g.corners.length := hcu cu rfl
      rw [riverTrace_some]
      split
      · exact h
      · split
        · exact riverEdgesOK_frame (traceFrame_setCornerRiver _ _ _)
            (fun j => eAtG_setCornerRiver _ _ _ j) h
        · rcases hslope : (cAtG g cu).downslope with _ | ds
          · refine ih _ none ?_ (fun cu2 hx => absurd hx (by simp)) ?_
            · exact downslopeInRange_frame (traceFrame_setCornerRiver _ _ _) hdir
            · exact riverEdgesOK_frame (traceFrame_setCornerRiver _ _ _)
                (fun j => eAtG_setCornerRiver _ _ _ j) h
          · have hds' : ds < g.corners.length := hdir cu ds hslope
            have hfr1 := traceFrame_setCornerRiver g cu ((cAtG g cu).river + 1)
            have hfr2 := traceFrame_markFold cu ds (cAtG g cu).protrudes
              (setCornerRiver g cu ((cAtG g cu).river + 1))
            have hfr := traceFrame_trans hfr1 hfr2
            refine ih _ (some ds) (downslopeInRange_frame hfr hdir) ?_ ?_
            · intro cu2 hx
              have h3 : cu2 = ds := by simpa using hx.symm
              rw [h3, hfr.1]
              exact hds'
            · refine riverEdgesOK_markFold _ _ ?_ ?_ ?_ ?_
              · rw [hfr1.1]; exact hcu'
              · rw [hfr1.1]; exact hds'
              · rw [(hfr1.2 cu).1]; exact hslope
              · exact riverEdgesOK_frame hfr1 (fun j => rfl) h

/-- The river loop preserves the river-edge invariant. -/
theorem riverEdgesOK_riversGo {cfg : MapConfig} :
    ∀ (cs : List ℕ) (cnt : ℕ) (g : Graph),
      DownslopeInRange g →
      (∀ c ∈ cs, c < g.corners.length) →
      RiverEdgesOK g → RiverEdgesOK (riversGo cfg cs cnt g) := by
  intro cs
  induction cs with
  | nil => intro cnt g _ _ h; exact h
  | cons c rest ih =>
    intro cnt g hdir hbd h
    rw [riversGo_cons]
    split
    · exact h
    · have hfr := traceFrame_riverTrace cfg (g.corners.length + 1) g (some c)
      refine ih _ _ (downslopeInRange_frame hfr hdir) ?_ ?_
      · intro x hx
        rw [hfr.1]
        exact hbd x (List.mem_cons_of_mem _ hx)
      · exact riverEdgesOK_riverTrace _ g (some c) hdir
          (fun cu hx => by
            have h3 : cu = c := by simpa using hx.symm
            rw [h3]
            exact hbd c (List.mem_cons_self _ _)) h

/-- `calculateDownslopes` keeps the corner count, every corner's elevation,
ocean flag and adjacency, and the whole edge array. -/
theorem calculateDownslopes_frame (g : Graph) :
    (calculateDownslopes g).corners.length = g.corners.length ∧
    (∀ j, (cAtG (calculateDownslopes g) j).elevation = (cAtG g j).elevation ∧
          (cAtG (calculateDownslopes g) j).ocean = (cAtG g j).ocean ∧
          (cAtG (calculateDownslopes g) j).coast = (cAtG g j).coast) ∧
    (calculateDownslopes g).edges = g.edges := by
  refine ⟨by simp [calculateDownslopes], ?_, rfl⟩
  intro j
  by_cases hj : j < g.corners.length
  · have hc : cAtG (calculateDownslopes g) j = { cAtG g j with
        downslope := ((cAtG g j).adjacent.foldl
          (fun (acc : Option ℕ × ℚ) a =>
            if (cAtG g a).elevation < acc.2 then (some a, (cAtG g a).elevation) else acc)
          (none, (cAtG g j).elevation)).1 } := by
      rw [cAtG, calculateDownslopes]
      exact getD_map_lt _ _ _ cornerDefault hj
    rw [hc]
    exact ⟨rfl, rfl, rfl⟩
  · have hc : cAtG (calculateDownslopes g) j = cornerDefault := by
      rw [cAtG]
      refine getD_of_le _ _ ?_
      simp [calculateDownslopes]
      omega
    have hc2 : cAtG g j = cornerDefault := by
      rw [cAtG]
      exact getD_of_le _ _ (by omega)
    rw [hc, hc2]
    exact ⟨rfl, rfl, rfl⟩

/-- A downslope recorded by `calculateDownslopes` is an adjacent corner of
strictly smaller elevation. -/
theorem calculateDownslopes_slope (g : Graph) :
    ∀ j d, (cAtG (calculateDownslopes g) j).downslope = some d →
      d ∈ (cAtG g j).adjacent ∧ (cAtG g d).elevation < (cAtG g j).elevation := by
  intro j d hd
  by_cases hj : j < g.corners.length
  · have hc : cAtG (calculateDownslopes g) j = { cAtG g j with
        downslope := ((cAtG g j).adjacent.foldl
          (fun (acc : Option ℕ × ℚ) a =>
            if (cAtG g a).elevation < acc.2 then (some a, (cAtG g a).elevation) else acc)
          (none, (cAtG g j).elevation)).1 } := by
      rw [cAtG, calculateDownslopes]
      exact getD_map_lt _ _ _ cornerDefault hj
    rw [hc] at hd
    have hd' : ((cAtG g j).adjacent.foldl
        (fun (acc : Option ℕ × ℚ) a =>
          if (cAtG g a).elevation < acc.2 then (some a, (cAtG g a).elevation) else acc)
        (none, (cAtG g j).elevation)).1 = some d := hd
    have main : ∀ (l : List ℕ) (acc : Option ℕ × ℚ),
        (∀ x ∈ l, x ∈ (cAtG g j).adjacent) →
        (acc.1 = none ∧ acc.2 = (cAtG g j).elevation ∨
          ∃ a, acc.1 = some a ∧ acc.2 = (cAtG g a).elevation ∧ a ∈ (cAtG g j).adjacent ∧
            (cAtG g a).elevation < (cAtG g j).elevation) →
        (l.foldl (fun (acc : Option ℕ × ℚ) a =>
            if (cAtG g a).elevation < acc.2 then (some a, (cAtG g a).elevation) else acc)
          acc).1 = some d →
        d ∈ (cAtG g j).adjacent ∧ (cAtG g d).elevation < (cAtG g j).elevation := by
      intro l
      induction l with
      | nil =>
        intro acc _ hinv hfold
        rw [List.foldl_nil] at hfold
        rcases hinv with ⟨h1, _⟩ | ⟨a, h1, _, h3, h4⟩
        · rw [h1] at hfold
          exact absurd hfold (by simp)
        · rw [h1] at hfold
          have h5 : a = d := by simpa using hfold
          exact ⟨h5 ▸ h3, h5 ▸ h4⟩
      | cons x xs ih =>
        intro acc hl hinv hfold
        rw [List.foldl_cons] at hfold
        refine ih _ (fun y hy => hl y (List.mem_cons_of_mem _ hy)) ?_ hfold
        by_cases hx : (cAtG g x).elevation < acc.2
        · rw [if_pos hx]
          right
          refine ⟨x, rfl, rfl, hl x (List.mem_cons_self _ _), ?_⟩
          rcases hinv with ⟨-, h2⟩ | ⟨a, -, h2, -, h4⟩
          · rw [h2] at hx
            exact hx
          · rw [h2] at hx
            exact lt_trans hx h4
        · rw [if_neg hx]
          exact hinv
    exact main _ _ (fun x hx => hx) (Or.inl ⟨rfl, rfl⟩) hd'
  · have hc : cAtG (calculateDownslopes g) j = cornerDefault := by
      rw [cAtG]
      refine getD_of_le _ _ ?_
      simp [calculateDownslopes]
      omega
    rw [hc] at hd
    exact absurd hd (by simp [cornerDefault])

/-- `calculateDownslopes` yields strictly descending in-range downslopes. -/
theorem calculateDownslopes_slopeDec (g : Graph)
    (hadj : ∀ i, i < g.corners.length → ∀ a ∈ (cAtG g i).adjacent, a < g.corners.length) :
    SlopeDec (calculateDownslopes g) := by
  intro j d hd
  obtain ⟨hmem, helev⟩ := calculateDownslopes_slope g j d hd
  obtain ⟨hlen, hfields, -⟩ := calculateDownslopes_frame g
  have hj : j < g.corners.length := by
    by_contra hj
    have hc2 : cAtG g j = cornerDefault := by
      rw [cAtG]
      exact getD_of_le _ _ (by omega)
    rw [hc2] at hmem
    exact absurd hmem (by simp [cornerDefault])
  refine ⟨by rw [hlen]; exact hadj j hj d hmem, ?_⟩
  rw [(hfields d).1, (hfields j).1]
  exact helev

/-- The slope shape is frame-invariant. -/
theorem slopeDec_frame {g g' : Graph} (hf : TraceFrame g g') (h : SlopeDec g) :
    SlopeDec g' := by
  intro j d hd
  rw [(hf.2 j).1] at hd
  obtain ⟨h1, h2⟩ := h j d hd
  refine ⟨by rw [hf.1]; exact h1, ?_⟩
  rw [(hf.2 d).2.1, (hf.2 j).2.1]
  exact h2

/-- On a strictly descending slope structure, the downslope chain reaches an
ocean corner or a corner with no downslope within `dsMeasure` steps. -/
theorem dsChain_end {g : Graph} (hsd : SlopeDec g) :
    ∀ (fuel c : ℕ), dsMeasure g c < fuel →
      (cAtG g (dsChain g fuel c)).ocean = true ∨
      (cAtG g (dsChain g fuel c)).downslope = none := by
  intro fuel
  induction fuel with
  | zero => intro c h; omega
  | succ n ih =>
    intro c hm
    rw [dsChain_succ]
    by_cases ho : (cAtG g c).ocean = true
    · rw [if_pos ho]
      exact Or.inl ho
    · rw [if_neg ho]
      rcases hd : (cAtG g c).downslope with _ | d
      · exact Or.inr hd
      · have hlt : dsMeasure g d < dsMeasure g c := by
          obtain ⟨hdl, hde⟩ := hsd c d hd
          rw [dsMeasure, dsMeasure]
          have hsub : (Finset.range g.corners.length).filter
              (fun j => (cAtG g j).elevation < (cAtG g d).elevation) ⊆
              (Finset.range g.corners.length).filter
              (fun j => (cAtG g j).elevation < (cAtG g c).elevation) := by
            intro x hx
            obtain ⟨hr, hlt2⟩ := Finset.mem_filter.mp hx
            exact Finset.mem_filter.mpr ⟨hr, lt_trans hlt2 hde⟩
          refine Finset.card_lt_card ((Finset.ssubset_iff_of_subset hsub).mpr ?_)
          refine ⟨d, Finset.mem_filter.mpr ⟨Finset.mem_range.mpr hdl, hde⟩, ?_⟩
          intro hmem
          exact absurd (Finset.mem_filter.mp hmem).2 (lt_irrefl _)
        exact ih d (by omega)

set_option maxHeartbeats 1000000 in
/-- C4 amended: after `createRivers` on a graph with river-free edges and
in-range adjacency, every edge with `river > 0` has both endpoints non-null
and in range, one endpoint the other's downslope, and the downslope chain
from either endpoint terminates — at an ocean corner *or* at a corner with
no downslope (a non-ocean local minimum).  The claim's stronger statement,
that the chain always ends at an ocean corner, is false:
`createRivers_ocean_counterexample` traces a river into an inland local
minimum. -/
theorem createRivers_river_edges (g : Graph) (cfg : MapConfig) (r : Random)
    (hre : ∀ i, i < g.edges.length → (eAtG g i).river = 0)
    (hadj : ∀ i, i < g.corners.length →
      ∀ a ∈ (cAtG g i).adjacent, a < g.corners.length) :
    ∀ ei, 0 < (eAtG (createRivers g cfg r).1 ei).river →
      ∃ a b, (eAtG (createRivers g cfg r).1 ei).v0 = some a ∧
        (eAtG (createRivers g cfg r).1 ei).v1 = some b ∧
        ((cAtG (createRivers g cfg r).1 a).downslope = some b ∨
         (cAtG (createRivers g cfg r).1 b).downslope = some a) ∧
        ((cAtG (createRivers g cfg r).1 (dsChain (createRivers g cfg r).1
            (dsMeasure (createRivers g cfg r).1 a + 1) a)).ocean = true ∨
         (cAtG (createRivers g cfg r).1 (dsChain (createRivers g cfg r).1
            (dsMeasure (createRivers g cfg r).1 a + 1) a)).downslope = none) ∧
        ((cAtG (createRivers g cfg r).1 (dsChain (createRivers g cfg r).1
            (dsMeasure (createRivers g cfg r).1 b + 1) b)).ocean = true ∨
         (cAtG (createRivers g cfg r).1 (dsChain (createRivers g cfg r).1
            (dsMeasure (createRivers g cfg r).1 b + 1) b)).downslope = none) := by
  suffices hmain : ∀ sh : List ℕ,
      (∀ c ∈ sh, c < (calculateDownslopes g).corners.length) →
      ∀ ei, 0 < (eAtG (riversGo cfg sh 0 (calculateDownslopes g)) ei).river →
      ∃ a b, (eAtG (riversGo cfg sh 0 (calculateDownslopes g)) ei).v0 = some a ∧
        (eAtG (riversGo cfg sh 0 (calculateDownslopes g)) ei).v1 = some b ∧
        ((cAtG (riversGo cfg sh 0 (calculateDownslopes g)) a).downslope = some b ∨
         (cAtG (riversGo cfg sh 0 (calculateDownslopes g)) b).downslope = some a) ∧
        ((cAtG (riversGo cfg sh 0 (calculateDownslopes g))
            (dsChain (riversGo cfg sh 0 (calculateDownslopes g))
            (dsMeasure (riversGo cfg sh 0 (calculateDownslopes g)) a + 1) a)).ocean = true ∨
         (cAtG (riversGo cfg sh 0 (calculateDownslopes g))
            (dsChain (riversGo cfg sh 0 (calculateDownslopes g))
            (dsMeasure (riversGo cfg sh 0 (calculateDownslopes g)) a + 1) a)).downslope = none) ∧
        ((cAtG (riversGo cfg sh 0 (calculateDownslopes g))
            (dsChain (riversGo cfg sh 0 (calculateDownslopes g))
            (dsMeasure (riversGo cfg sh 0 (calculateDownslopes g)) b + 1) b)).ocean = true ∨
         (cAtG (riversGo cfg sh 0 (calculateDownslopes g))
            (dsChain (riversGo cfg sh 0 (calculateDownslopes g))
            (dsMeasure (riversGo cfg sh 0 (calculateDownslopes g)) b + 1) b)).downslope = none) by
    rw [createRivers]
    dsimp only
    rcases hsh : Random.shuffle r ((List.range (calculateDownslopes g).corners.length).filter
        (fun i => !(cAtG (calculateDownslopes g) i).ocean &&
          !(cAtG (calculateDownslopes g) i).coast &&
          decide ((cAtG (calculateDownslopes g) i).elevation > mkRat 3 10)))
      with ⟨sh, r2⟩
    dsimp only
    refine hmain sh ?_
    intro c hc
    have hmem : c ∈ (List.range (calculateDownslopes g).corners.length).filter
        (fun i => !(cAtG (calculateDownslopes g) i).ocean &&
          !(cAtG (calculateDownslopes g) i).coast &&
          decide ((cAtG (calculateDownslopes g) i).elevation > mkRat 3 10)) :=
      @shuffle_mem ℕ c r _ (by rw [hsh]; exact hc)
    exact List.mem_range.mp (List.mem_filter.mp hmem).1
  intro sh hbd
  have hsd1 : SlopeDec (calculateDownslopes g) := calculateDownslopes_slopeDec g hadj
  have hdir1 : DownslopeInRange (calculateDownslopes g) :=
    fun j d hd => (hsd1 j d hd).1
  have hok1 : RiverEdgesOK (calculateDownslopes g) := by
    intro ei hr
    obtain ⟨-, -, hedges⟩ := calculateDownslopes_frame g
    have he : eAtG (calculateDownslopes g) ei = eAtG g ei := by
      rw [eAtG, eAtG, hedges]
    rw [he] at hr
    by_cases hei : ei < g.edges.length
    · rw [hre ei hei] at hr
      exact absurd hr (by omega)
    · have : eAtG g ei = edgeDefault := by
        rw [eAtG]
        exact getD_of_le _ _ (by omega)
      rw [this] at hr
      exact absurd hr (by simp [edgeDefault])
  have hfr := traceFrame_riversGo cfg sh 0 (calculateDownslopes g)
  have hok := @riverEdgesOK_riversGo cfg sh 0 (calculateDownslopes g) hdir1 hbd hok1
  have hsd : SlopeDec (riversGo cfg sh 0 (calculateDownslopes g)) :=
    slopeDec_frame hfr hsd1
  intro ei hr
  obtain ⟨a, b, h1, h2, h3, h4, h5⟩ := hok ei hr
  exact ⟨a, b, h1, h2, h5,
    dsChain_end hsd _ a (by omega),
    dsChain_end hsd _ b (by omega)⟩

/-- C4's claimed ocean termination is false: on `gR` the single traced river
marks the edge between corners 0 and 1, and the downslope chain from either
endpoint ends at corner 1, an inland corner with no downslope that is not
ocean. -/
theorem createRivers_ocean_counterexample :
    0 < (eAtG (createRivers gR DEFAULT_CONFIG (Random.ofSeed 0)).1 0).river ∧
    (eAtG (createRivers gR DEFAULT_CONFIG (Random.ofSeed 0)).1 0).v0 = some 0 ∧
    (eAtG (createRivers gR DEFAULT_CONFIG (Random.ofSeed 0)).1 0).v1 = some 1 ∧
    dsChain (createRivers gR DEFAULT_CONFIG (Random.ofSeed 0)).1 2 0 = 1 ∧
    dsChain (createRivers gR DEFAULT_CONFIG (Random.ofSeed 0)).1 2 1 = 1 ∧
    (cAtG (createRivers gR DEFAULT_CONFIG (Random.ofSeed 0)).1 1).ocean = false ∧
    (cAtG (createRivers gR DEFAULT_CONFIG (Random.ofSeed 0)).1 1).downslope = none := by
  decide

/-- Witness for the amended C4 on the concrete river graph `gR`: edge 0
carries a river, and its endpoints satisfy every clause of the theorem. -/
theorem createRivers_river_edges_witness :
    0 < (eAtG (createRivers gR DEFAULT_CONFIG (Random.ofSeed 0)).1 0).river ∧
    (∃ a b, (eAtG (createRivers gR DEFAULT_CONFIG (Random.ofSeed 0)).1 0).v0 = some a ∧
      (eAtG (createRivers gR DEFAULT_CONFIG (Random.ofSeed 0)).1 0).v1 = some b ∧
      ((cAtG (createRivers gR DEFAULT_CONFIG (Random.ofSeed 0)).1 a).downslope = some b ∨
       (cAtG (createRivers gR DEFAULT_CONFIG (Random.ofSeed 0)).1 b).downslope = some a) ∧
      ((cAtG (createRivers gR DEFAULT_CONFIG (Random.ofSeed 0)).1
          (dsChain (createRivers gR DEFAULT_CONFIG (Random.ofSeed 0)).1
          (dsMeasure (createRivers gR DEFAULT_CONFIG (Random.ofSeed 0)).1 a + 1) a)).ocean = true ∨
       (cAtG (createRivers gR DEFAULT_CONFIG (Random.ofSeed 0)).1
          (dsChain (createRivers gR DEFAULT_CONFIG (Random.ofSeed 0)).1
          (dsMeasure (createRivers gR DEFAULT_CONFIG (Random.ofSeed 0)).1 a + 1) a)).downslope = none) ∧
      ((cAtG (createRivers gR DEFAULT_CONFIG (Random.ofSeed 0)).1
          (dsChain (createRivers gR DEFAULT_CONFIG (Random.ofSeed 0)).1
          (dsMeasure (createRivers gR DEFAULT_CONFIG (Random.ofSeed 0)).1 b + 1) b)).ocean = true ∨
       (cAtG (createRivers gR DEFAULT_CONFIG (Random.ofSeed 0)).1
          (dsChain (createRivers gR DEFAULT_CONFIG (Random.ofSeed 0)).1
          (dsMeasure (createRivers gR DEFAULT_CONFIG (Random.ofSeed 0)).1 b + 1) b)).downslope = none)) :=
  ⟨by decide,
   createRivers_river_edges gR DEFAULT_CONFIG (Random.ofSeed 0) (by decide) (by decide)
     0 (by decide)⟩

/-- Unfolding of `connectsB` at zero hops. -/
theorem connectsB_zero (g : Graph) (i : ℕ) : connectsB g 0 i = isFrontier g i := rfl

/-- Unfolding of `connectsB` at a successor hop count. -/
theorem connectsB_succ (g : Graph) (k i : ℕ) :
    connectsB g (k + 1) i = (isFrontier g i ||
      (List.range g.corners.length).any (fun u =>
        connectsB g k u && (cAtG g u).adjacent.contains i && !(cAtG g i).water)) := rfl

/-- `List.contains` agrees with membership on `ℕ` lists. -/
theorem contains_mem {l : List ℕ} {x : ℕ} : l.contains x = true ↔ x ∈ l :=
  List.elem_iff

/-- `oleN` is reflexive. -/
theorem oleN_refl (x : Option ℕ) : oleN x x = true := by
  cases x <;> simp [oleN]

/-- `oleN` is transitive. -/
theorem oleN_trans (x y z : Option ℕ) (h1 : oleN x y = true) (h2 : oleN y z = true) :
    oleN x z = true := by
  cases x <;> cases y <;> cases z <;> simp [oleN] at h1 h2 ⊢ <;> omega

/-- `oleN` is total. -/
theorem oleN_total (x y : Option ℕ) : oleN x y = true ∨ oleN y x = true := by
  cases x <;> cases y <;> simp [oleN] <;> omega

/-- Strict order implies non-strict order on working values. -/
theorem oltN_ole (x y : Option ℕ) (h : oltN x y = true) : oleN x y = true := by
  cases x <;> cases y <;> simp [oltN, oleN] at h ⊢ <;> omega

/-- Non-strict order forbids the reverse strict order. -/
theorem ole_not_olt (x y : Option ℕ) (h : oleN x y = true) : oltN y x = false := by
  cases x <;> cases y <;> simp [oltN, oleN] at h ⊢ <;> omega

/-- Failed strict order yields the reverse non-strict order. -/
theorem not_olt_ole (x y : Option ℕ) (h : oltN x y = false) : oleN y x = true := by
  cases x <;> cases y <;> simp [oltN, oleN] at h ⊢ <;> omega

/-- Strict order forbids the reverse non-strict order. -/
theorem olt_not_ole (x y : Option ℕ) (h : oltN x y = true) : oleN y x = false := by
  cases x <;> cases y <;> simp [oltN, oleN] at h ⊢ <;> omega

/-- Strict-then-non-strict transitivity on working values. -/
theorem oltN_oleN_trans (x y z : Option ℕ) (h1 : oltN x y = true) (h2 : oleN y z = true) :
    oltN x z = true := by
  cases x <;> cases y <;> cases z <;> simp [oltN, oleN] at h1 h2 ⊢ <;> omega

/-- `oleN` into a finite bound, on finite values. -/
theorem oleN_some_mono {a b : ℕ} (h : a ≤ b) : oleN (some a) (some b) = true := by
  simpa [oleN] using h

/-- A working value below a finite bound is finite and at most the bound. -/
theorem oleN_some_inv (x : Option ℕ) (k : ℕ) (h : oleN x (some k) = true) :
    ∃ j, x = some j ∧ j ≤ k := by
  cases x with
  | none => simp [oleN] at h
  | some j => exact ⟨j, rfl, by simpa [oleN] using h⟩

/-- A working value below `some 0` is `some 0`. -/
theorem oleN_some_zero (x : Option ℕ) (h : oleN x (some 0) = true) : x = some 0 := by
  obtain ⟨j, hj, hj0⟩ := oleN_some_inv x 0 h
  have hj' : j = 0 := Nat.le_zero.mp hj0
  rw [hj, hj']

/-- Reading a just-written working value. -/
theorem vAt_set_self {vals : List (Option ℕ)} {a : ℕ} (v : Option ℕ) (h : a < vals.length) :
    vAt (vals.set a v) a = v := by
  rw [vAt, List.getD_eq_getElem?_getD, List.getElem?_set_self h]
  rfl

/-- Reading a working value unaffected by a write. -/
theorem vAt_set_ne {vals : List (Option ℕ)} {a i : ℕ} (v : Option ℕ) (h : i ≠ a) :
    vAt (vals.set a v) i = vAt vals i := by
  rw [vAt, vAt, List.getD_eq_getElem?_getD, List.getD_eq_getElem?_getD,
    List.getElem?_set_ne (Ne.symm h)]

/-- A successful relaxation target is in range: out-of-range reads give
`some 0`, which no value strictly undercuts. -/
theorem oltN_vAt_lt_length {vals : List (Option ℕ)} {a : ℕ} {new : Option ℕ}
    (h : oltN new (vAt vals a) = true) : a < vals.length := by
  by_contra hge
  push_neg at hge
  rw [vAt, getD_of_le _ _ hge] at h
  cases new with
  | none => simp [oltN] at h
  | some k => simp [oltN] at h

/-- One BFS relaxation step extends a reachability chain. -/
theorem connectsB_step (g : Graph) {u a j : ℕ} (hu : u < g.corners.length)
    (hc : connectsB g j u = true) (ha : a ∈ (cAtG g u).adjacent)
    (hw : (cAtG g a).water = false) : connectsB g (j + 1) a = true := by
  rw [connectsB_succ, Bool.or_eq_true]
  refine Or.inr ?_
  rw [List.any_eq_true]
  refine ⟨u, List.mem_range.mpr hu, ?_⟩
  rw [Bool.and_eq_true, Bool.and_eq_true]
  exact ⟨⟨hc, contains_mem.mpr ha⟩, by simp [hw]⟩

/-- The relaxation loop preserves the length of the value array. -/
theorem elevRelax_len (g : Graph) (new : Option ℕ) :
    ∀ (adj : List ℕ) (vals : List (Option ℕ)) (queue : List ℕ),
      (elevRelax g new adj vals queue).1.length = vals.length := by
  intro adj
  induction adj with
  | nil => intro vals queue; rfl
  | cons a rest ih =>
    intro vals queue
    by_cases hg : (!(cAtG g a).water && oltN new (vAt vals a)) = true
    · rw [elevRelax, if_pos hg, ih, List.length_set]
    · rw [elevRelax, if_neg hg]
      exact ih vals queue

/-- The relaxation loop only appends to the queue. -/
theorem elevRelax_queue_mono (g : Graph) (new : Option ℕ) :
    ∀ (adj : List ℕ) (vals : List (Option ℕ)) (queue : List ℕ) (x : ℕ),
      x ∈ queue → x ∈ (elevRelax g new adj vals queue).2 := by
  intro adj
  induction adj with
  | nil => intro vals queue x hx; exact hx
  | cons a rest ih =>
    intro vals queue x hx
    by_cases hg : (!(cAtG g a).water && oltN new (vAt vals a)) = true
    · rw [elevRelax, if_pos hg]
      exact ih _ _ x (List.mem_append_left _ hx)
    · rw [elevRelax, if_neg hg]
      exact ih _ _ x hx

/-- The relaxation loop only enqueues in-range corners. -/
theorem elevRelax_queue_bound (g : Graph) (new : Option ℕ) :
    ∀ (adj : List ℕ) (vals : List (Option ℕ)) (queue : List ℕ),
      (∀ x ∈ queue, x < vals.length) →
      ∀ x ∈ (elevRelax g new adj vals queue).2, x < vals.length := by
  intro adj
  induction adj with
  | nil => intro vals queue h x hx; exact h x hx
  | cons a rest ih =>
    intro vals queue h x hx
    by_cases hg : (!(cAtG g a).water && oltN new (vAt vals a)) = true
    · rw [elevRelax, if_pos hg] at hx
      have ha : a < vals.length := oltN_vAt_lt_length ((Bool.and_eq_true _ _).mp hg).2
      have h' : ∀ y ∈ queue ++ [a], y < (vals.set a new).length := by
        intro y hy
        rw [List.length_set]
        rcases List.mem_append.mp hy with hy | hy
        · exact h y hy
        · rw [List.mem_singleton.mp hy]; exact ha
      have hrec := ih (vals.set a new) (queue ++ [a]) h' x hx
      rwa [List.length_set] at hrec
    · rw [elevRelax, if_neg hg] at hx
      exact ih vals queue h x hx

/-- Working values never increase through the relaxation loop. -/
theorem elevRelax_vals_le (g : Graph) (new : Option ℕ) :
    ∀ (adj : List ℕ) (vals : List (Option ℕ)) (queue : List ℕ) (i : ℕ),
      oleN (vAt (elevRelax g new adj vals queue).1 i) (vAt vals i) = true := by
  intro adj
  induction adj with
  | nil => intro vals queue i; exact oleN_refl _
  | cons a rest ih =>
    intro vals queue i
    by_cases hg : (!(cAtG g a).water && oltN new (vAt vals a)) = true
    · rw [elevRelax, if_pos hg]
      refine oleN_trans _ _ _ (ih (vals.set a new) (queue ++ [a]) i) ?_
      by_cases hia : i = a
      · subst hia
        have ha := oltN_vAt_lt_length ((Bool.and_eq_true _ _).mp hg).2
        rw [vAt_set_self _ ha]
        exact oltN_ole _ _ ((Bool.and_eq_true _ _).mp hg).2
      · rw [vAt_set_ne _ hia]
        exact oleN_refl _
    · rw [elevRelax, if_neg hg]
      exact ih vals queue i

/-- A corner whose working value changed during the relaxation loop was
enqueued by it. -/
theorem elevRelax_changed (g : Graph) (new : Option ℕ) :
    ∀ (adj : List ℕ) (vals : List (Option ℕ)) (queue : List ℕ) (i : ℕ),
      vAt (elevRelax g new adj vals queue).1 i ≠ vAt vals i →
      i ∈ (elevRelax g new adj vals queue).2 := by
  intro adj
  induction adj with
  | nil => intro vals queue i h; exact absurd rfl h
  | cons a rest ih =>
    intro vals queue i h
    by_cases hg : (!(cAtG g a).water && oltN new (vAt vals a)) = true
    · rw [elevRelax, if_pos hg] at h ⊢
      by_cases hia : i = a
      · subst hia
        exact elevRelax_queue_mono g new rest _ _ i
          (List.mem_append_right _ (List.mem_singleton.mpr rfl))
      · refine ih _ _ i ?_
        rw [vAt_set_ne _ hia]
        exact h
    · rw [elevRelax, if_neg hg] at h ⊢
      exact ih _ _ i h

/-- After the relaxation loop, no processed non-water neighbor can still be
improved by the popped value. -/
theorem elevRelax_adj_le (g : Graph) (new : Option ℕ) :
    ∀ (adj : List ℕ) (vals : List (Option ℕ)) (queue : List ℕ) (a : ℕ),
      a ∈ adj → (cAtG g a).water = false →
      oltN new (vAt (elevRelax g new adj vals queue).1 a) = false := by
  intro adj
  induction adj with
  | nil => intro vals queue a ha _; exact absurd ha (List.not_mem_nil a)
  | cons a' rest ih =>
    intro vals queue a ha hw
    rcases List.mem_cons.mp ha with heq | htail
    · subst heq
      by_cases hg : (!(cAtG g a).water && oltN new (vAt vals a)) = true
      · rw [elevRelax, if_pos hg]
        have hlt := ((Bool.and_eq_true _ _).mp hg).2
        have haL := oltN_vAt_lt_length hlt
        have hle := elevRelax_vals_le g new rest (vals.set a new) (queue ++ [a]) a
        rw [vAt_set_self _ haL] at hle
        exact ole_not_olt _ _ hle
      · rw [elevRelax, if_neg hg]
        have hnl : oltN new (vAt vals a) = false := by
          cases hy : oltN new (vAt vals a)
          · rfl
          · exact absurd (by rw [Bool.and_eq_true]; exact ⟨by simp [hw], hy⟩) hg
        have hle := elevRelax_vals_le g new rest vals queue a
        exact ole_not_olt _ _ (oleN_trans _ _ _ hle (not_olt_ole _ _ hnl))
    · by_cases hg : (!(cAtG g a').water && oltN new (vAt vals a')) = true
      · rw [elevRelax, if_pos hg]
        exact ih _ _ a htail hw
      · rw [elevRelax, if_neg hg]
        exact ih _ _ a htail hw

/-- The relaxation loop preserves achievability of finite working values,
provided the written value is itself achievable at its targets. -/
theorem elevRelax_ach (g : Graph) (new : Option ℕ) :
    ∀ (adj : List ℕ) (vals : List (Option ℕ)) (queue : List ℕ),
      (∀ k a, new = some k → a ∈ adj → (cAtG g a).water = false → connectsB g k a = true) →
      (∀ i k, i < vals.length → vAt vals i = some k → connectsB g k i = true) →
      ∀ i k, i < vals.length → vAt (elevRelax g new adj vals queue).1 i = some k →
        connectsB g k i = true := by
  intro adj
  induction adj with
  | nil => intro vals queue _ hvals i k hi hv; exact hvals i k hi hv
  | cons a rest ih =>
    intro vals queue hok hvals i k hi hv
    by_cases hg : (!(cAtG g a).water && oltN new (vAt vals a)) = true
    · rw [elevRelax, if_pos hg] at hv
      have hw : (cAtG g a).water = false := by
        have hb := ((Bool.and_eq_true _ _).mp hg).1
        simpa using hb
      have haL := oltN_vAt_lt_length ((Bool.and_eq_true _ _).mp hg).2
      refine ih (vals.set a new) (queue ++ [a]) ?_ ?_ i k ?_ hv
      · intro k' a' hnew ha' hw'
        exact hok k' a' hnew (List.mem_cons_of_mem _ ha') hw'
      · intro i' k' hi' hv'
        by_cases hia : i' = a
        · subst hia
          rw [vAt_set_self _ haL] at hv'
          exact hok k' i' hv' (List.mem_cons_self _ _) hw
        · rw [vAt_set_ne _ hia] at hv'
          exact hvals i' k' (by rwa [List.length_set] at hi') hv'
      · rwa [List.length_set]
    · rw [elevRelax, if_neg hg] at hv
      refine ih vals queue ?_ hvals i k hi hv
      intro k' a' hnew ha' hw'
      exact hok k' a' hnew (List.mem_cons_of_mem _ ha') hw'

/-- One pop of the BFS queue preserves the BFS invariant. -/
theorem elevStep_inv (g : Graph) (st : ElevState) (h : ElevInv g st) :
    ElevInv g (elevStep g st) := by
  obtain ⟨hlen, hqb, hach, hstab⟩ := h
  rcases hq : st.queue with _ | ⟨u, rest⟩
  · have hstep : elevStep g st = st := by simp [elevStep, hq]
    rw [hstep]
    exact ⟨hlen, hqb, hach, hstab⟩
  · have hstep : elevStep g st =
        ⟨(elevRelax g ((vAt st.vals u).map (· + 1)) (cAtG g u).adjacent st.vals rest).1,
         (elevRelax g ((vAt st.vals u).map (· + 1)) (cAtG g u).adjacent st.vals rest).2⟩ := by
      simp [elevStep, hq]
    have hu_n : u < g.corners.length := hqb u (by rw [hq]; exact List.mem_cons_self _ _)
    rw [hstep]
    refine ⟨?_, ?_, ?_, ?_⟩
    · dsimp only
      rw [elevRelax_len, hlen]
    · dsimp only
      intro x hx
      have hb := elevRelax_queue_bound g ((vAt st.vals u).map (· + 1)) (cAtG g u).adjacent
        st.vals rest (fun y hy => by
          rw [hlen]
          exact hqb y (by rw [hq]; exact List.mem_cons_of_mem _ hy)) x hx
      rwa [hlen] at hb
    · dsimp only
      intro i k hi hv
      refine elevRelax_ach g ((vAt st.vals u).map (· + 1)) (cAtG g u).adjacent st.vals rest
        ?_ ?_ i k (by rw [hlen]; exact hi) hv
      · intro k' a' hnew ha' hw'
        obtain ⟨j, hj, hjk⟩ := Option.map_eq_some'.mp hnew
        have hcu : connectsB g j u = true := hach u j hu_n hj
        have hstp := connectsB_step g hu_n hcu ha' hw'
        rwa [hjk] at hstp
      · intro i' k' hi' hv'
        exact hach i' k' (by rwa [hlen] at hi') hv'
    · dsimp only
      intro u' a hu' ha hw hviol
      by_cases hch : vAt (elevRelax g ((vAt st.vals u).map (· + 1)) (cAtG g u).adjacent
          st.vals rest).1 u' = vAt st.vals u'
      · by_cases huu : u' = u
        · subst huu
          rw [hch] at hviol
          have hfa := elevRelax_adj_le g ((vAt st.vals u').map (· + 1)) (cAtG g u').adjacent
            st.vals rest a ha hw
          rw [hviol] at hfa
          exact Bool.noConfusion hfa
        · have hviol' : oltN ((vAt st.vals u').map (· + 1)) (vAt st.vals a) = true := by
            rw [hch] at hviol
            exact oltN_oleN_trans _ _ _ hviol
              (elevRelax_vals_le g ((vAt st.vals u).map (· + 1)) (cAtG g u).adjacent
                st.vals rest a)
          have hmem := hstab u' a hu' ha hw hviol'
          rw [hq] at hmem
          rcases List.mem_cons.mp hmem with heq | htail
          · exact absurd heq huu
          · exact elevRelax_queue_mono g ((vAt st.vals u).map (· + 1)) (cAtG g u).adjacent
              st.vals rest u' htail
      · exact elevRelax_changed g ((vAt st.vals u).map (· + 1)) (cAtG g u).adjacent
          st.vals rest u' hch

/-- Working values never increase through one BFS pop. -/
theorem elevStep_vals_le (g : Graph) (st : ElevState) (i : ℕ) :
    oleN (vAt (elevStep g st).vals i) (vAt st.vals i) = true := by
  rcases hq : st.queue with _ | ⟨u, rest⟩
  · have hstep : elevStep g st = st := by simp [elevStep, hq]
    rw [hstep]
    exact oleN_refl _
  · have hstep : elevStep g st =
        ⟨(elevRelax g ((vAt st.vals u).map (· + 1)) (cAtG g u).adjacent st.vals rest).1,
         (elevRelax g ((vAt st.vals u).map (· + 1)) (cAtG g u).adjacent st.vals rest).2⟩ := by
      simp [elevStep, hq]
    rw [hstep]
    exact elevRelax_vals_le g ((vAt st.vals u).map (· + 1)) (cAtG g u).adjacent st.vals rest i

/-- The BFS invariant is preserved by any number of BFS pops. -/
theorem elevIter_inv (g : Graph) :
    ∀ (k : ℕ) (st : ElevState), ElevInv g st → ElevInv g (elevIter g k st)
  | 0, _, h => h
  | k + 1, st, h => elevIter_inv g k (elevStep g st) (elevStep_inv g st h)

/-- Working values never increase across iterated BFS pops. -/
theorem elevIter_vals_le (g : Graph) :
    ∀ (k : ℕ) (st : ElevState) (i : ℕ),
      oleN (vAt (elevIter g k st).vals i) (vAt st.vals i) = true
  | 0, _, i => oleN_refl _
  | k + 1, st, i =>
    oleN_trans _ _ _ (elevIter_vals_le g k (elevStep g st) i) (elevStep_vals_le g st i)

/-- A frontier corner is in range (out-of-range reads give the default
corner, which is neither ocean nor coast). -/
theorem isFrontier_lt (g : Graph) (i : ℕ) (h : isFrontier g i = true) :
    i < g.corners.length := by
  by_contra hge
  push_neg at hge
  have hd : g.corners.getD i cornerDefault = cornerDefault := getD_of_le _ _ hge
  rw [isFrontier, cAtG, hd] at h
  simp [cornerDefault] at h

/-- The initial BFS state satisfies the invariant. -/
theorem elevInit_inv (g : Graph) : ElevInv g (elevInitState g) := by
  have hval : (elevInitState g).vals =
      g.corners.map (fun c => if c.ocean then some 0 else if c.coast then some 0 else none) := rfl
  have hque : (elevInitState g).queue = (List.range g.corners.length).filter
      (fun i => (cAtG g i).ocean || (cAtG g i).coast) := rfl
  refine ⟨by rw [hval, List.length_map], ?_, ?_, ?_⟩
  · intro u hu
    rw [hque] at hu
    exact List.mem_range.mp (List.mem_filter.mp hu).1
  · intro i k hi hv
    have hvi : vAt (elevInitState g).vals i =
        (if (cAtG g i).ocean then some 0 else if (cAtG g i).coast then some 0 else none) := by
      rw [vAt, hval]
      exact getD_map_lt _ _ _ cornerDefault hi
    rw [hvi] at hv
    by_cases ho : (cAtG g i).ocean = true
    · rw [if_pos ho] at hv
      have hk : k = 0 := by injection hv with hv0; omega
      rw [hk, connectsB_zero, isFrontier, ho, Bool.true_or]
    · rw [if_neg (by simp [ho])] at hv
      by_cases hc : (cAtG g i).coast = true
      · rw [if_pos hc] at hv
        have hk : k = 0 := by injection hv with hv0; omega
        rw [hk, connectsB_zero, isFrontier, hc, Bool.or_true]
      · rw [if_neg (by simp [hc])] at hv
        exact absurd hv (by simp)
  · intro u a hu ha hw hviol
    have hvu : vAt (elevInitState g).vals u =
        (if (cAtG g u).ocean then some 0 else if (cAtG g u).coast then some 0 else none) := by
      rw [vAt, hval]
      exact getD_map_lt _ _ _ cornerDefault hu
    by_cases hf : ((cAtG g u).ocean || (cAtG g u).coast) = true
    · rw [hque]
      exact List.mem_filter.mpr ⟨List.mem_range.mpr hu, hf⟩
    · rw [Bool.or_eq_true] at hf
      push_neg at hf
      rw [hvu, if_neg (by simp [Bool.eq_false_iff.mpr hf.1]),
        if_neg (by simp [Bool.eq_false_iff.mpr hf.2])] at hviol
      simp [oltN] at hviol

/-- A frontier corner starts at working value `some 0`. -/
theorem elevInit_frontier (g : Graph) (i : ℕ) (h : isFrontier g i = true) :
    vAt (elevInitState g).vals i = some 0 := by
  have hi := isFrontier_lt g i h
  have hval : (elevInitState g).vals =
      g.corners.map (fun c => if c.ocean then some 0 else if c.coast then some 0 else none) := rfl
  have hvi : vAt (elevInitState g).vals i =
      (if (cAtG g i).ocean then some 0 else if (cAtG g i).coast then some 0 else none) := by
    rw [vAt, hval]
    exact getD_map_lt _ _ _ cornerDefault hi
  rw [hvi]
  rw [isFrontier, Bool.or_eq_true] at h
  rcases h with ho | hc
  · rw [if_pos ho]
  · by_cases ho : (cAtG g i).ocean = true
    · rw [if_pos ho]
    · rw [if_neg (by simp [ho]), if_pos hc]

/-- The completed BFS run satisfies the invariant. -/
theorem elevRun_inv (g : Graph) : ElevInv g (elevRun g (elevInitState g)) :=
  elevIter_inv g (Nat.find (elevTerm g (elevInitState g))) (elevInitState g) (elevInit_inv g)

/-- The completed BFS run has an empty queue. -/
theorem elevRun_queue (g : Graph) (st : ElevState) : (elevRun g st).queue = [] :=
  Nat.find_spec (elevTerm g st)

/-- Working values never increase across the whole BFS run. -/
theorem elevRun_vals_le (g : Graph) (st : ElevState) (i : ℕ) :
    oleN (vAt (elevRun g st).vals i) (vAt st.vals i) = true :=
  elevIter_vals_le g (Nat.find (elevTerm g st)) st i

/-- At termination no adjacent non-water corner can still be improved. -/
theorem elevRun_stable (g : Graph) (u a : ℕ) (hu : u < g.corners.length)
    (ha : a ∈ (cAtG g u).adjacent) (hw : (cAtG g a).water = false) :
    oltN ((vAt (elevRun g (elevInitState g)).vals u).map (· + 1))
      (vAt (elevRun g (elevInitState g)).vals a) = false := by
  cases hb : oltN ((vAt (elevRun g (elevInitState g)).vals u).map (· + 1))
      (vAt (elevRun g (elevInitState g)).vals a)
  · rfl
  · have hmem := (elevRun_inv g).2.2.2 u a hu ha hw hb
    rw [elevRun_queue] at hmem
    exact absurd hmem (List.not_mem_nil u)

/-- Frontier corners end the BFS at working value `some 0`. -/
theorem elevRun_frontier (g : Graph) (i : ℕ) (h : isFrontier g i = true) :
    vAt (elevRun g (elevInitState g)).vals i = some 0 := by
  have h0 := elevInit_frontier g i h
  have hle := elevRun_vals_le g (elevInitState g) i
  rw [h0] at hle
  exact oleN_some_zero _ hle

/-- Upper bound: a corner reachable in `k` hops ends the BFS with a working
value of at most `k`. -/
theorem elevRun_upper (g : Graph) :
    ∀ (k i : ℕ), connectsB g k i = true →
      oleN (vAt (elevRun g (elevInitState g)).vals i) (some k) = true := by
  intro k
  induction k with
  | zero =>
    intro i hc
    rw [connectsB_zero] at hc
    rw [elevRun_frontier g i hc]
    exact oleN_refl _
  | succ k ih =>
    intro i hc
    rw [connectsB_succ, Bool.or_eq_true] at hc
    rcases hc with hf | hany
    · rw [elevRun_frontier g i hf]
      exact oleN_some_mono (Nat.zero_le _)
    · rw [List.any_eq_true] at hany
      obtain ⟨u, hu_mem, hpred⟩ := hany
      rw [Bool.and_eq_true, Bool.and_eq_true] at hpred
      obtain ⟨⟨hcu, hcont⟩, hnw⟩ := hpred
      have hu_n : u < g.corners.length := List.mem_range.mp hu_mem
      have ha : i ∈ (cAtG g u).adjacent := contains_mem.mp hcont
      have hw : (cAtG g i).water = false := by simpa using hnw
      obtain ⟨j, hju, hjk⟩ := oleN_some_inv _ _ (ih u hcu)
      have hstab := elevRun_stable g u i hu_n ha hw
      rw [hju] at hstab
      simp only [Option.map_some'] at hstab
      have hle_i := not_olt_ole _ _ hstab
      exact oleN_trans _ _ _ hle_i (oleN_some_mono (by omega))

/-- Achievability: every finite final working value is realized by a
reachability chain of that many hops. -/
theorem elevRun_ach (g : Graph) (i k : ℕ) (hi : i < g.corners.length)
    (h : vAt (elevRun g (elevInitState g)).vals i = some k) : connectsB g k i = true :=
  (elevRun_inv g).2.2.1 i k hi h

/-- A strictly smaller BFS hop distance yields a strictly smaller final raw
working value. -/
theorem elevRun_lt (g : Graph) (A B kA : ℕ) (hB : B < g.corners.length)
    (h1 : connectsB g kA A = true)
    (h2 : ∀ k, k ≤ kA → connectsB g k B = false) :
    oltN (vAt (elevRun g (elevInitState g)).vals A)
      (vAt (elevRun g (elevInitState g)).vals B) = true := by
  obtain ⟨a, haA, haK⟩ := oleN_some_inv _ _ (elevRun_upper g kA A h1)
  rw [haA]
  rcases hb : vAt (elevRun g (elevInitState g)).vals B with _ | b
  · rfl
  · have hcb := elevRun_ach g B b hB hb
    have hkb : kA < b := by
      by_contra hle
      push_neg at hle
      rw [h2 b hle] at hcb
      exact Bool.noConfusion hcb
    simp only [oltN, decide_eq_true_eq]
    omega

/-- `jsSortBy` with a total transitive comparator sorts its input. -/
theorem jsSortBy_pairwise {α : Type} (le : α → α → Bool)
    (htot : ∀ a b, le a b = true ∨ le b a = true)
    (htrans : ∀ a b c, le a b = true → le b c = true → le a c = true)
    (l : List α) :
    List.Pairwise (fun a b => le a b = true) (jsSortBy le l) := by
  haveI : IsTotal α (fun a b => le a b = true) := ⟨htot⟩
  haveI : IsTrans α (fun a b => le a b = true) := ⟨htrans⟩
  unfold jsSortBy
  exact List.sorted_insertionSort _ l

/-- `jsSortBy` permutes its input, so preserves membership. -/
theorem jsSortBy_mem_iff {α : Type} (le : α → α → Bool) (l : List α) (x : α) :
    x ∈ jsSortBy le l ↔ x ∈ l := by
  unfold jsSortBy
  exact List.mem_insertionSort _

/-- In a list sorted by a reflexive comparator, an element strictly below
another appears strictly earlier. -/
theorem sorted_indexOf_lt {le : ℕ → ℕ → Bool} {sl : List ℕ}
    (hs : List.Pairwise (fun a b => le a b = true) sl)
    (hrefl : ∀ a, le a a = true)
    {A B : ℕ} (hA : A ∈ sl) (hB : B ∈ sl) (hBA : le B A = false) :
    List.indexOf A sl < List.indexOf B sl := by
  have hAlt : List.indexOf A sl < sl.length := List.indexOf_lt_length.mpr hA
  have hBlt : List.indexOf B sl < sl.length := List.indexOf_lt_length.mpr hB
  have hgA : sl[List.indexOf A sl] = A := List.getElem_indexOf hAlt
  have hgB : sl[List.indexOf B sl] = B := List.getElem_indexOf hBlt
  by_contra hle
  push_neg at hle
  rcases Nat.lt_or_eq_of_le hle with hlt | heq
  · have hp := (List.pairwise_iff_getElem.mp hs) _ _ hBlt hAlt hlt
    rw [hgA, hgB] at hp
    rw [hp] at hBA
    exact Bool.noConfusion hBA
  · have hgA' : sl[List.indexOf A sl]? = some A := by
      rw [List.getElem?_eq_getElem hAlt, hgA]
    have hgB' : sl[List.indexOf B sl]? = some B := by
      rw [List.getElem?_eq_getElem hBlt, hgB]
    rw [heq, hgA'] at hgB'
    have hab : A = B := by injection hgB'
    rw [← hab, hrefl A] at hBA
    exact Bool.noConfusion hBA

/-- Unfolding of the integer-square-root digit recursion. -/
theorem isqrtAux_succ (fuel n : ℕ) :
    isqrtAux (fuel + 1) n = if n = 0 then 0 else
      (if (2 * isqrtAux fuel (n / 4) + 1) * (2 * isqrtAux fuel (n / 4) + 1) ≤ n
       then 2 * isqrtAux fuel (n / 4) + 1 else 2 * isqrtAux fuel (n / 4)) := rfl

/-- Every natural number is below `4 ^ (n + 1)`. -/
theorem nat_lt_four_pow (n : ℕ) : n < 4 ^ (n + 1) := by
  induction n with
  | zero => norm_num
  | succ n ih =>
    have h1 : 0 < 4 ^ (n + 1) := Nat.pow_pos (by norm_num)
    rw [Nat.pow_succ]
    omega

/-- The digit recursion computes the integer square root when given enough
fuel. -/
theorem isqrtAux_spec : ∀ (fuel n : ℕ), n < 4 ^ fuel →
    isqrtAux fuel n * isqrtAux fuel n ≤ n ∧
      n < (isqrtAux fuel n + 1) * (isqrtAux fuel n + 1) := by
  intro fuel
  induction fuel with
  | zero =>
    intro n hn
    have h0 : n = 0 := by simpa using Nat.lt_one_iff.mp hn
    subst h0
    simp [isqrtAux]
  | succ fuel ih =>
    intro n hn
    by_cases h0 : n = 0
    · subst h0
      simp [isqrtAux_succ]
    · rw [isqrtAux_succ, if_neg h0]
      have hrec : n / 4 < 4 ^ fuel := by
        rw [Nat.pow_succ] at hn
        omega
      obtain ⟨hs1, hs2⟩ := ih (n / 4) hrec
      set s := isqrtAux fuel (n / 4) with hs
      have h4s : 4 * (s * s) ≤ n := by omega
      have h4s1 : n < 4 * ((s + 1) * (s + 1)) := by omega
      by_cases hcond : (2 * s + 1) * (2 * s + 1) ≤ n
      · rw [if_pos hcond]
        refine ⟨hcond, ?_⟩
        have hexp : (2 * s + 1 + 1) * (2 * s + 1 + 1) = 4 * ((s + 1) * (s + 1)) := by ring
        omega
      · rw [if_neg hcond]
        constructor
        · have hexp : 2 * s * (2 * s) = 4 * (s * s) := by ring
          omega
        · omega

/-- Specification of `isqrt`: it is the floor of the square root. -/
theorem isqrt_spec (n : ℕ) :
    isqrt n * isqrt n ≤ n ∧ n < (isqrt n + 1) * (isqrt n + 1) :=
  isqrtAux_spec (n + 1) n (nat_lt_four_pow n)

/-- `isqrt` is monotone. -/
theorem isqrt_mono {m n : ℕ} (h : m ≤ n) : isqrt m ≤ isqrt n := by
  obtain ⟨h1, _⟩ := isqrt_spec m
  obtain ⟨_, h4⟩ := isqrt_spec n
  by_contra hlt
  push_neg at hlt
  have hmul : (isqrt n + 1) * (isqrt n + 1) ≤ isqrt m * isqrt m :=
    Nat.mul_le_mul hlt hlt
  omega

/-- The fixed-point square-root model is monotone. -/
theorem sqrtQ_mono {a b : ℚ} (h : a ≤ b) : sqrtQ a ≤ sqrtQ b := by
  unfold sqrtQ
  rw [qdiv_eq, qdiv_eq]
  refine (div_le_div_right (by norm_num)).mpr ?_
  refine Nat.cast_le.mpr (isqrt_mono (Int.toNat_le_toNat ?_))
  rw [qfloor_eq, qfloor_eq]
  refine Int.floor_mono ?_
  rw [qmul_eq, qmul_eq]
  exact mul_le_mul_of_nonneg_right h (by norm_num)

/-- The rank-normalization denominator is positive. -/
theorem elevDenom_pos (len : ℕ) : 0 < elevDenom len := by
  rw [elevDenom]
  split
  · norm_num
  · rename_i h
    exact_mod_cast Nat.pos_of_ne_zero h

/-- The corner array produced by `assignElevation`: ocean corners are reset
to elevation 0, the others get the rank-normalized square root. -/
theorem assignElevation_corner (g : Graph) (cfg : MapConfig) (p : ℕ)
    (hp : p < g.corners.length) :
    cAtG (assignElevation g cfg) p =
      (if (cAtG g p).ocean then { cAtG g p with elevation := 0 }
       else { cAtG g p with elevation := sqrtQ (qdiv ((List.indexOf p (elevSorted g) : ℕ) : ℚ) (elevDenom (elevSorted g).length)) }) := by
  rw [assignElevation, cAtG]
  dsimp only
  rw [List.getD_eq_getElem _ _ (by simpa using hp), List.getElem_map, List.getElem_range]
  rfl

/-- **C6.** After `assignElevation`, for any two non-ocean corners `A` and
`B`, if `A`'s BFS hop distance from the ocean/coast frontier is strictly
less than `B`'s (witnessed by a hop bound `kA` that reaches `A` while no
bound `≤ kA` reaches `B`), then `A`'s final rank-normalized elevation is at
most `B`'s. -/
theorem assignElevation_rank_monotone (g : Graph) (cfg : MapConfig) (A B kA : ℕ)
    (hA : A < g.corners.length) (hB : B < g.corners.length)
    (hAo : (cAtG g A).ocean = false) (hBo : (cAtG g B).ocean = false)
    (hreach : connectsB g kA A = true)
    (hfar : ∀ k, k ≤ kA → connectsB g k B = false) :
    (cAtG (assignElevation g cfg) A).elevation ≤
      (cAtG (assignElevation g cfg) B).elevation := by
  have holt := elevRun_lt g A B kA hB hreach hfar
  have hAc := assignElevation_corner g cfg A hA
  have hBc := assignElevation_corner g cfg B hB
  rw [if_neg (by simp [hAo])] at hAc
  rw [if_neg (by simp [hBo])] at hBc
  rw [hAc, hBc]
  dsimp only
  have hmemA : A ∈ elevSorted g := by
    rw [elevSorted, jsSortBy_mem_iff]
    exact List.mem_filter.mpr ⟨List.mem_range.mpr hA, by simp [hAo]⟩
  have hmemB : B ∈ elevSorted g := by
    rw [elevSorted, jsSortBy_mem_iff]
    exact List.mem_filter.mpr ⟨List.mem_range.mpr hB, by simp [hBo]⟩
  have hpair := jsSortBy_pairwise
    (fun a b => oleN (vAt (elevRun g (elevInitState g)).vals a)
      (vAt (elevRun g (elevInitState g)).vals b))
    (fun a b => oleN_total _ _) (fun a b c => oleN_trans _ _ _)
    ((List.range g.corners.length).filter (fun i => !(cAtG g i).ocean))
  have hidx : List.indexOf A (elevSorted g) < List.indexOf B (elevSorted g) :=
    sorted_indexOf_lt hpair (fun a => oleN_refl _) hmemA hmemB (olt_not_ole _ _ holt)
  refine sqrtQ_mono ?_
  rw [qdiv_eq, qdiv_eq]
  refine (div_le_div_right (elevDenom_pos _)).mpr ?_
  exact_mod_cast Nat.le_of_lt hidx

/-- Witness for C6 on the two-corner fixture `gE6`: corner 0 (coast, BFS
distance 0) ends with elevation at most that of corner 1 (distance 1). -/
theorem assignElevation_rank_monotone_witness :
    0 < gE6.corners.length ∧ 1 < gE6.corners.length ∧
    (cAtG gE6 0).ocean = false ∧ (cAtG gE6 1).ocean = false ∧
    connectsB gE6 0 0 = true ∧ (∀ k, k ≤ 0 → connectsB gE6 k 1 = false) ∧
    (cAtG (assignElevation gE6 DEFAULT_CONFIG) 0).elevation ≤
      (cAtG (assignElevation gE6 DEFAULT_CONFIG) 1).elevation :=
  ⟨by decide, by decide, by decide, by decide, by decide,
   fun k hk => by
     have hk0 : k = 0 := Nat.le_zero.mp hk
     rw [hk0]; decide,
   assignElevation_rank_monotone gE6 DEFAULT_CONFIG 0 1 0 (by decide) (by decide)
     (by decide) (by decide) (by decide)
     (fun k hk => by
       have hk0 : k = 0 := Nat.le_zero.mp hk
       rw [hk0]; decide)⟩

/-- Witness for C5 at a concrete center. -/
theorem getBiome_band_table_witness :
    getBiome { cdefault with elevation := 85/100, moisture := 6/10 } = Biome.SNOW :=
  (((getBiome_band_table { cdefault with elevation := 85/100, moisture := 6/10 }).2.2.2.2
    rfl rfl rfl).1 (by norm_num)).1 (by norm_num)
